import Mathlib

/-!
# Verification of the sukima-type placement/collision core

Shallow embedding of the geometry kernel (`src/svgNestGeometry.ts`), the
convex-hull builder (`src/convexHull.ts`), the shape-analyzer helpers
(`src/svgPathAnalyzer.ts`), the nesting algorithm (`src/nestingAlgorithm.ts`)
and the layout worker (`src/layoutWorker.ts`), together with proofs and
refutations of the specification's claims about them.

Numbers are modelled exactly, over an arbitrary linear ordered field `K`
(instantiated at `ℚ` for executable counterexamples and witnesses, and at `ℝ`
where true metric facts are needed).  The JavaScript `Math` library
(`Math.PI`, `Math.cos`, `Math.sin`, `Math.sqrt`) is modelled as an explicit
environment `MathEnv K`; over `ℝ` the intended instance is
`⟨π, Real.cos, Real.sin, Real.sqrt⟩`.
-/

namespace SukimaType

/-- A planar point, mirroring the `Point {x, y}` interface of `types.ts`. -/
structure Pt (K : Type) where
  x : K
  y : K
deriving DecidableEq, Repr

/-- A bounding box, mirroring `BoundingBox {x, y, width, height}` of
`types.ts`. -/
structure BBox (K : Type) where
  x : K
  y : K
  width : K
  height : K
deriving DecidableEq, Repr

/-- An affine transform `{x, y, rotation (degrees), scale}` as consumed by
`SVGNestGeometry.transformPolygon`. -/
structure Transform (K : Type) where
  x : K
  y : K
  rotation : K
  scale : K
deriving DecidableEq, Repr

/-- The JavaScript `Math` library as seen by the geometry code:  `Math.PI`,
`Math.cos`, `Math.sin`, `Math.sqrt`.  Modelling it as a parameter keeps the
embedding executable; theorems that need the true analytic behaviour either
take hypotheses on the environment or instantiate it with
`⟨π, Real.cos, Real.sin, Real.sqrt⟩` over `ℝ`. -/
structure MathEnv (K : Type) where
  pi : K
  cos : K → K
  sin : K → K
  sqrt : K → K

variable {K : Type} [LinearOrderedField K]

/-- `Math.abs`: the absolute value, written out as JavaScript computes it so
that concrete evaluations unfold by case analysis on the sign. -/
def mabs (a : K) : K := if a < 0 then -a else a

/-- `const TOL = Math.pow(10, -9)` — the floating point tolerance of
`svgNestGeometry.ts`. -/
def TOL : K := 1 / 1000000000

/-- `SVGNestGeometry.almostEqual(a, b)`: `Math.abs(a - b) < tolerance` with
the default tolerance `TOL`. -/
def almostEqual (a b : K) : Bool :=
  mabs (a - b) < TOL

/-- `SVGNestGeometry.onSegment(A, B, p)`: does `p` lie on segment `AB`, but
not at its endpoints?  Direct translation of the four-stage test (vertical
line, horizontal line, range/endpoint exclusion, cross/dot products). -/
def onSegment (A B p : Pt K) : Bool :=
  -- Vertical line
  if almostEqual A.x B.x && almostEqual p.x A.x then
    !almostEqual p.y B.y && !almostEqual p.y A.y &&
      p.y < max B.y A.y && p.y > min B.y A.y
  -- Horizontal line
  else if almostEqual A.y B.y && almostEqual p.y A.y then
    !almostEqual p.x B.x && !almostEqual p.x A.x &&
      p.x < max B.x A.x && p.x > min B.x A.x
  -- Range check
  else if (p.x < A.x && p.x < B.x) || (p.x > A.x && p.x > B.x) ||
          (p.y < A.y && p.y < B.y) || (p.y > A.y && p.y > B.y) then
    false
  -- Exclude endpoints
  else if (almostEqual p.x A.x && almostEqual p.y A.y) ||
          (almostEqual p.x B.x && almostEqual p.y B.y) then
    false
  else
    let cross := (p.y - A.y) * (B.x - A.x) - (p.x - A.x) * (B.y - A.y)
    if mabs cross > TOL then false
    else
      let dot := (p.x - A.x) * (B.x - A.x) + (p.y - A.y) * (B.y - A.y)
      if dot < 0 || almostEqual dot 0 then false
      else
        let len2 := (B.x - A.x) * (B.x - A.x) + (B.y - A.y) * (B.y - A.y)
        if dot > len2 || almostEqual dot len2 then false
        else true

/-- One segment's share of the in-range checks of
`SVGNestGeometry.lineIntersect`: the candidate intersection `(x, y)` is
rejected if it falls outside the parameter range of segment `PQ` (with
tolerance on axis-aligned cases).  The source performs these four rejections
as four sequential early returns (two for `AB`, two for `EF`); grouping them
per segment does not change the result. -/
def segOutOfRange (P Q : Pt K) (x y : K) : Bool :=
  (mabs (P.x - Q.x) > TOL &&
    (if P.x < Q.x then x < P.x || x > Q.x else x > P.x || x < Q.x)) ||
  (mabs (P.y - Q.y) > TOL &&
    (if P.y < Q.y then y < P.y || y > Q.y else y > P.y || y < Q.y))

/-- The determinant `denom = a1*b2 - a2*b1` of the 2×2 system solved by
`SVGNestGeometry.lineIntersect`, in terms of the source's local coefficients
`a1 = B.y - A.y`, `b1 = A.x - B.x`, `a2 = F.y - E.y`, `b2 = E.x - F.x`. -/
def liDenom (A B E F : Pt K) : K :=
  (B.y - A.y) * (E.x - F.x) - (F.y - E.y) * (A.x - B.x)

/-- The solved abscissa `x = (b1*c2 - b2*c1)/denom` of
`SVGNestGeometry.lineIntersect`, with `c1 = B.x*A.y - A.x*B.y` and
`c2 = F.x*E.y - E.x*F.y`. -/
def liX (A B E F : Pt K) : K :=
  ((A.x - B.x) * (F.x * E.y - E.x * F.y) -
    (E.x - F.x) * (B.x * A.y - A.x * B.y)) / liDenom A B E F

/-- The solved ordinate `y = (a2*c1 - a1*c2)/denom` of
`SVGNestGeometry.lineIntersect`. -/
def liY (A B E F : Pt K) : K :=
  ((F.y - E.y) * (B.x * A.y - A.x * B.y) -
    (B.y - A.y) * (F.x * E.y - E.x * F.y)) / liDenom A B E F

/-- `SVGNestGeometry.lineIntersect(A, B, E, F, infinite)`: solve the 2×2
linear system for the lines through `AB` and `EF`.  In the source, a zero
determinant produces a non-finite coordinate which fails the `isFinite`
check; in this exact model that is the `liDenom = 0` branch. -/
def lineIntersect (A B E F : Pt K) (infinite : Bool) : Option (Pt K) :=
  if liDenom A B E F = 0 then none
  else
    let x := liX A B E F
    let y := liY A B E F
    if infinite then some ⟨x, y⟩
    else if segOutOfRange A B x y || segOutOfRange E F x y then none
    else some ⟨x, y⟩

/-- One step of the extrema scan of `SVGNestGeometry.getPolygonBounds`
(`if (p.x > xmax) … else if (p.x < xmin) …`, and likewise for `y`).  The
accumulator is `(xmin, xmax, ymin, ymax)`. -/
def boundsStep (acc : K × K × K × K) (p : Pt K) : K × K × K × K :=
  let xmin := acc.1
  let xmax := acc.2.1
  let ymin := acc.2.2.1
  let ymax := acc.2.2.2
  let xpair := if p.x > xmax then (xmin, p.x)
               else if p.x < xmin then (p.x, xmax) else (xmin, xmax)
  let ypair := if p.y > ymax then (ymin, p.y)
               else if p.y < ymin then (p.y, ymax) else (ymin, ymax)
  (xpair.1, xpair.2, ypair.1, ypair.2)

/-- `SVGNestGeometry.getPolygonBounds(polygon)`: axis-aligned bounding box;
`null` for polygons with fewer than 3 points. -/
def getPolygonBounds (polygon : List (Pt K)) : Option (BBox K) :=
  match polygon with
  | [] => none
  | p0 :: rest =>
    if polygon.length < 3 then none
    else
      let e := rest.foldl boundsStep (p0.x, p0.x, p0.y, p0.y)
      some ⟨e.1, e.2.2.1, e.2.1 - e.1, e.2.2.2 - e.2.2.1⟩

/-- Index of the previous vertex in the ray-casting loop of
`pointInPolygon` (`j = polygon.length - 1` initially, then `j = i - 1`). -/
def prevIdx (n i : ℕ) : ℕ :=
  if i = 0 then n - 1 else i - 1

/-- The `i`-th polygon vertex with the offsets applied
(`polygon[i].x + offsetx`, `polygon[i].y + offsety`). -/
def pipVert (polygon : List (Pt K)) (offsetx offsety : K) (i : ℕ) : Pt K :=
  let p := polygon.getD i ⟨0, 0⟩
  ⟨p.x + offsetx, p.y + offsety⟩

/-- The `i`-th iteration's indeterminacy test in `pointInPolygon`: the query
point coincides (within tolerance) with vertex `i`, or lies exactly on the
edge from vertex `i` to the previous vertex — either causes the source to
`return null`. -/
def pipBad (point : Pt K) (polygon : List (Pt K)) (offsetx offsety : K)
    (i : ℕ) : Bool :=
  let a := pipVert polygon offsetx offsety i
  let b := pipVert polygon offsetx offsety (prevIdx polygon.length i)
  (almostEqual a.x point.x && almostEqual a.y point.y) || onSegment a b point

/-- The `i`-th iteration's parity update in `pointInPolygon`: very small
edges are skipped, otherwise `inside` is toggled when the edge straddles the
horizontal through the point on its left. -/
def pipToggle (point : Pt K) (polygon : List (Pt K)) (offsetx offsety : K)
    (inside : Bool) (i : ℕ) : Bool :=
  let a := pipVert polygon offsetx offsety i
  let b := pipVert polygon offsetx offsety (prevIdx polygon.length i)
  if almostEqual a.x b.x && almostEqual a.y b.y then inside
  else
    let straddles := (decide (a.y > point.y) != decide (b.y > point.y)) &&
      (point.x < (b.x - a.x) * (point.y - a.y) / (b.y - a.y) + a.x)
    if straddles then !inside else inside

/-- `SVGNestGeometry.pointInPolygon(point, polygon, offsetx, offsety)`:
ray-casting parity test returning `null` (here `none`) for degenerate
polygons and for points on a vertex or edge.  The source returns `null` at
the first offending loop index; since that outcome does not depend on which
index fires first, it is modelled as an existence test followed by the full
parity fold. -/
def pointInPolygon (point : Pt K) (polygon : List (Pt K))
    (offsetx offsety : K) : Option Bool :=
  if polygon.length < 3 then none
  else if (List.range polygon.length).any
      (pipBad point polygon offsetx offsety) then none
  else some ((List.range polygon.length).foldl
      (pipToggle point polygon offsetx offsety) false)

/-- The touching test of `SVGNestGeometry.intersect` for the edge pair
`(i, i+1)` of `A` (offset by `aox, aoy`) against edge `(j, j+1)` of `B`
(offset by `box2, boy2`): the first endpoint of the `B` edge lies on the `A`
edge, or coincides with the `A` edge's first endpoint. -/
def edgeTouch (A B : List (Pt K)) (aox aoy box2 boy2 : K) (i j : ℕ) : Bool :=
  let a1 := pipVert A aox aoy i
  let a2 := pipVert A aox aoy (i + 1)
  let b1 := pipVert B box2 boy2 j
  onSegment a1 a2 b1 || (almostEqual a1.x b1.x && almostEqual a1.y b1.y)

/-- The decision taken by `SVGNestGeometry.intersect` for one edge pair: in
the touching case, the neighbours of the touching `B` vertex are classified
against polygon `A` (note: the source passes `A` *without* its offset here)
and the pair reports an intersection only if they fall on strictly opposite
sides; otherwise a plain segment-intersection test decides. -/
def edgePairHit (A B : List (Pt K)) (aox aoy box2 boy2 : K) (i j : ℕ) : Bool :=
  let a1 := pipVert A aox aoy i
  let a2 := pipVert A aox aoy (i + 1)
  let b1 := pipVert B box2 boy2 j
  let b2 := pipVert B box2 boy2 (j + 1)
  if edgeTouch A B aox aoy box2 boy2 i j then
    let prevbindex := if j = 0 then B.length - 1 else j - 1
    let b0 := pipVert B box2 boy2 prevbindex
    let b0in := pointInPolygon b0 A 0 0
    let b2in := pointInPolygon b2 A 0 0
    decide ((b0in = some true ∧ b2in = some false) ∨
            (b0in = some false ∧ b2in = some true))
  else
    (lineIntersect b1 b2 a1 a2 false).isSome

/-- `SVGNestGeometry.intersect(A, B, Aoffsetx, Aoffsety, Boffsetx,
Boffsety)`: scan every edge pair (`i` over `A.length - 1`, `j` over
`B.length - 1` — the closing edges are *not* iterated) and report an
intersection as soon as one pair hits.  The loop body carries no state, so
the early-return loop is exactly an existence test over the pairs. -/
def intersect (A B : List (Pt K)) (aox aoy box2 boy2 : K) : Bool :=
  (List.range (A.length - 1)).any fun i =>
    (List.range (B.length - 1)).any fun j =>
      edgePairHit A B aox aoy box2 boy2 i j


/-! ### Convex hull (`convexHull.ts`) -/

/-- `isLeft` from `convexHull.ts`: twice the signed area of the triangle
`(P0, P1, P2)`; positive iff `P2` is strictly left of the directed line
`P0 → P1`. -/
def isLeft (P0 P1 P2 : Pt K) : K :=
  (P1.x - P0.x) * (P2.y - P0.y) - (P2.x - P0.x) * (P1.y - P0.y)

/-- `removeDuplicates` from `convexHull.ts`: keep each point unless some
already-kept point is within `1e-10` of it in both coordinates. -/
def removeDuplicates (points : List (Pt K)) : List (Pt K) :=
  points.foldl (fun unique point =>
    if unique.any (fun existing =>
        decide (mabs (existing.x - point.x) < 1 / 10000000000) &&
        decide (mabs (existing.y - point.y) < 1 / 10000000000)) then
      unique
    else unique ++ [point]) []

/-- The comparator `sortPointY` (`a.y - b.y`): JS `Array.sort` with this
comparator is a stable ascending sort by `y`, modelled by `List.mergeSort`
with this `le`. -/
def sortPointY (a b : Pt K) : Bool := decide (a.y ≤ b.y)

/-- The comparator `sortPointX` (`a.x - b.x`): stable ascending sort by `x`. -/
def sortPointX (a b : Pt K) : Bool := decide (a.x ≤ b.x)

/-- The index `minmax` computed by the first scan of `chainHull2D`: the loop
breaks at the first index whose `x` differs from `P[0].x` and sets
`minmax = i - 1`; if no index differs the loop leaves `i = n` and
`minmax = n - 1`. -/
def minmaxIdx (P : List (Pt K)) : ℕ :=
  match P with
  | [] => 0
  | p0 :: rest =>
    match rest.findIdx? (fun q => decide (q.x ≠ p0.x)) with
    | some j => j
    | none => rest.length

/-- The index `maxmin` computed by the downward scan of `chainHull2D`: the
loop starts at `n - 2`, breaks at the first index whose `x` differs from
`P[n-1].x`, and sets `maxmin = i + 1` (so `maxmin = 0` if every `x` equals
`xmax`). -/
def maxminIdx (P : List (Pt K)) : ℕ :=
  match P.reverse with
  | [] => 0
  | pl :: rest =>
    match rest.findIdx? (fun q => decide (q.x ≠ pl.x)) with
    | some j => P.length - 1 - j
    | none => 0

/-- The inner pop loop of `chainHull2D`, shared by both chains.  The stack is
a list whose head is `H[top]`; `while (top > bot)` is `bot + 1 < length`, and
the loop pops while the candidate `p` fails to make a strict left turn with
the two topmost stack entries. -/
def chainPop (bot : ℕ) (p : Pt K) : List (Pt K) → List (Pt K)
  | [] => []
  | [a] => [a]
  | a :: b :: rest =>
    if bot + 1 < (a :: b :: rest).length ∧ ¬(0 < isLeft b a p) then
      chainPop bot p (b :: rest)
    else a :: b :: rest

/-- One iteration of the lower-hull loop of `chainHull2D` at scan index `i`
(`minmin = 0` as in the source): skip `P[i]` when it is on or above the lower
line `P[minmin] → P[maxmin]` and `i < maxmin`; otherwise pop then push. -/
def lowerStep (P : List (Pt K)) (maxmin : ℕ) (stack : List (Pt K)) (i : ℕ) :
    List (Pt K) :=
  if 0 ≤ isLeft (P.getD 0 ⟨0, 0⟩) (P.getD maxmin ⟨0, 0⟩) (P.getD i ⟨0, 0⟩) ∧
      i < maxmin then
    stack
  else
    P.getD i ⟨0, 0⟩ :: chainPop 0 (P.getD i ⟨0, 0⟩) stack

/-- The upper-hull loop of `chainHull2D` over the descending index list;
`h0` is `H[0]` (the stack bottom, `P[minmin]`, which no pop can remove).
Returns the final stack and whether the loop returned early (the source's
`P[i] == H[0]` special case, which skips the final join push). -/
def upperLoop (P : List (Pt K)) (maxmax minmax bot : ℕ) (h0 : Pt K) :
    List ℕ → List (Pt K) → List (Pt K) × Bool
  | [], stack => (stack, false)
  | i :: is, stack =>
    if 0 ≤ isLeft (P.getD maxmax ⟨0, 0⟩) (P.getD minmax ⟨0, 0⟩)
        (P.getD i ⟨0, 0⟩) ∧ minmax < i then
      upperLoop P maxmax minmax bot h0 is stack
    else
      let q := P.getD i ⟨0, 0⟩
      let s2 := chainPop bot q stack
      if q.x = h0.x ∧ q.y = h0.y then (s2, true)
      else upperLoop P maxmax minmax bot h0 is (q :: s2)

/-- `chainHull2D` from `convexHull.ts`.  The output stack is modelled head =
top, so the returned `H[0..top]` is the final stack reversed. -/
def chainHull2D (P : List (Pt K)) : List (Pt K) :=
  let n := P.length
  let minmax := minmaxIdx P
  if minmax = n - 1 then
    P.getD 0 ⟨0, 0⟩ ::
      ((if (P.getD minmax ⟨0, 0⟩).y ≠ (P.getD 0 ⟨0, 0⟩).y then
          [P.getD minmax ⟨0, 0⟩] else []) ++ [P.getD 0 ⟨0, 0⟩])
  else
    let maxmax := n - 1
    let maxmin := maxminIdx P
    let lowerStack :=
      (List.range' (minmax + 1) (maxmin - minmax)).foldl (lowerStep P maxmin)
        [P.getD 0 ⟨0, 0⟩]
    let stack2 :=
      if maxmax ≠ maxmin then P.getD maxmax ⟨0, 0⟩ :: lowerStack
      else lowerStack
    let res := upperLoop P maxmax minmax (stack2.length - 1) (P.getD 0 ⟨0, 0⟩)
      ((List.range' minmax (maxmin - minmax)).reverse) stack2
    if res.2 then res.1.reverse
    else (if minmax ≠ 0 then P.getD 0 ⟨0, 0⟩ :: res.1 else res.1).reverse

/-- `calculateConvexHull` from `convexHull.ts`.  The source's
`sort(sortPointY)` followed by `sort(sortPointX)` are two stable sorts
(ES2019 `Array.sort` is stable), modelled by two stable `mergeSort`s with the
corresponding comparators. -/
def calculateConvexHull (points : List (Pt K)) : List (Pt K) :=
  if points.length < 3 then points
  else
    let uniquePoints := removeDuplicates points
    if uniquePoints.length < 3 then uniquePoints
    else
      let sortedPoints := (uniquePoints.mergeSort sortPointY).mergeSort sortPointX
      chainHull2D sortedPoints


/-- The cyclic `i`-th vertex of a hull, used to state the hull claims. -/
def hullVtx (hull : List (Pt K)) (i : ℕ) : Pt K :=
  hull.getD (i % hull.length) ⟨0, 0⟩

/-- `q` lies inside or on the closed polygon `hull` (read for a polygon whose
vertices are claimed counter-clockwise): it is on or to the left of every
directed edge of the closed vertex cycle. -/
def insideOrOn (hull : List (Pt K)) (q : Pt K) : Prop :=
  ∀ i < hull.length, 0 ≤ isLeft (hullVtx hull i) (hullVtx hull (i + 1)) q

/-- Every triple of cyclically consecutive hull vertices turns strictly
counter-clockwise — the convexity/orientation property claimed for
`calculateConvexHull`. -/
def ccwTriples (hull : List (Pt K)) : Prop :=
  ∀ i < hull.length,
    0 < isLeft (hullVtx hull i) (hullVtx hull (i + 1)) (hullVtx hull (i + 2))

/-- All points of `l` lie on one line. -/
def allCollinear (l : List (Pt K)) : Prop :=
  ∀ p ∈ l, ∀ q ∈ l, ∀ r ∈ l, isLeft p q r = 0

/-- The minimum `x`-coordinate of `l` is attained by exactly one point. -/
def uniqueXmin (l : List (Pt K)) : Prop :=
  ∀ p ∈ l, ∀ q ∈ l, (∀ r ∈ l, p.x ≤ r.x) → (∀ r ∈ l, q.x ≤ r.x) → p = q


def c4P1 : List (Pt ℚ) := [⟨0, 0⟩, ⟨0, 1⟩, ⟨0, 2⟩]

def c4P2 : List (Pt ℚ) := [⟨0, 0⟩, ⟨1, 1⟩, ⟨2, 2⟩]

def c4P3 : List (Pt ℚ) := [⟨0, 0⟩, ⟨0, 1⟩, ⟨1, 1⟩]

def c4P4 : List (Pt ℚ) := [⟨0, 0⟩, ⟨3, 1⟩, ⟨4, 5⟩, ⟨-1/100000000000, 0⟩]

/-! ## Basic facts about the tolerance and the `Math.abs` model -/

theorem TOL_pos : (0 : K) < TOL := by
  unfold TOL
  positivity

theorem mabs_eq_abs (a : K) : mabs a = |a| := by
  unfold mabs
  rcases lt_or_le a 0 with h | h
  · rw [if_pos h, abs_of_neg h]
  · rw [if_neg (not_lt.mpr h), abs_of_nonneg h]

theorem mabs_nonneg (a : K) : 0 ≤ mabs a := by
  rw [mabs_eq_abs]
  exact abs_nonneg a

theorem mabs_sub_comm (a b : K) : mabs (a - b) = mabs (b - a) := by
  rw [mabs_eq_abs, mabs_eq_abs, abs_sub_comm]

theorem almostEqual_comm (a b : K) : almostEqual a b = almostEqual b a := by
  unfold almostEqual
  rw [mabs_sub_comm]

/-! ## C3: symmetry of the polygon intersection test -/

theorem liDenom_swap (A B E F : Pt K) :
    liDenom E F A B = -liDenom A B E F := by
  unfold liDenom
  ring

theorem liX_swap (A B E F : Pt K) : liX E F A B = liX A B E F := by
  unfold liX
  rw [liDenom_swap]
  rw [show (E.x - F.x) * (B.x * A.y - A.x * B.y) -
      (A.x - B.x) * (F.x * E.y - E.x * F.y) =
      -((A.x - B.x) * (F.x * E.y - E.x * F.y) -
        (E.x - F.x) * (B.x * A.y - A.x * B.y)) from by ring]
  exact neg_div_neg_eq ..

theorem liY_swap (A B E F : Pt K) : liY E F A B = liY A B E F := by
  unfold liY
  rw [liDenom_swap]
  rw [show (B.y - A.y) * (F.x * E.y - E.x * F.y) -
      (F.y - E.y) * (B.x * A.y - A.x * B.y) =
      -((F.y - E.y) * (B.x * A.y - A.x * B.y) -
        (B.y - A.y) * (F.x * E.y - E.x * F.y)) from by ring]
  exact neg_div_neg_eq ..

/-- The segment-intersection test is symmetric in its two segments: the
determinant and both numerators flip sign, so the solved point is identical,
and the in-range rejections are the same four checks. -/
theorem lineIntersect_swap (A B E F : Pt K) :
    (lineIntersect E F A B false).isSome = (lineIntersect A B E F false).isSome := by
  unfold lineIntersect
  rw [liDenom_swap, liX_swap, liY_swap]
  simp only [neg_eq_zero, Bool.or_comm]


/-- Claim C3, amended.  The spec claims `polygonsIntersect(A,B)` always
equals `polygonsIntersect(B,A)` (offsets swapped accordingly); the
counterexample `intersect_symm_cex` below refutes that when the polygons
touch.  Amended statement: the test IS symmetric whenever no considered edge
pair takes the touching branch in either orientation; in that case both
directions reduce to the same set of segment-intersection tests. -/
theorem intersect_symm_of_no_touch (A B : List (Pt K)) (aox aoy box2 boy2 : K)
    (hAB : ∀ i < A.length - 1, ∀ j < B.length - 1,
      edgeTouch A B aox aoy box2 boy2 i j = false)
    (hBA : ∀ j < B.length - 1, ∀ i < A.length - 1,
      edgeTouch B A box2 boy2 aox aoy j i = false) :
    intersect A B aox aoy box2 boy2 = intersect B A box2 boy2 aox aoy := by
  unfold intersect
  rw [Bool.eq_iff_iff]
  simp only [List.any_eq_true, List.mem_range]
  constructor
  · rintro ⟨i, hi, j, hj, hhit⟩
    refine ⟨j, hj, i, hi, ?_⟩
    unfold edgePairHit at hhit ⊢
    simp only [hAB i hi j hj, Bool.false_eq_true, if_false] at hhit
    simp only [hBA j hj i hi, Bool.false_eq_true, if_false]
    rw [lineIntersect_swap]
    exact hhit
  · rintro ⟨j, hj, i, hi, hhit⟩
    refine ⟨i, hi, j, hj, ?_⟩
    unfold edgePairHit at hhit ⊢
    simp only [hBA j hj i hi, Bool.false_eq_true, if_false] at hhit
    simp only [hAB i hi j hj, Bool.false_eq_true, if_false]
    rw [← lineIntersect_swap]
    exact hhit


/-- First polygon of the C3 counterexample: a triangle whose first vertex
coincides with the square's first vertex, whose second vertex lies inside the
square, and whose boundary leaves the square only across the square's closing
edge (which `intersect` never iterates). -/
def c3A : List (Pt ℚ) := [⟨0, 0⟩, ⟨1, 1⟩, ⟨-1, 2⟩]

/-- Second polygon of the C3 counterexample: an axis-aligned square. -/
def c3B : List (Pt ℚ) := [⟨0, 0⟩, ⟨4, 0⟩, ⟨4, 4⟩, ⟨0, 4⟩]

theorem c3_pair_00 : edgePairHit c3A c3B 0 0 0 0 0 0 = false := by
  norm_num [c3A, c3B, edgePairHit, edgeTouch, lineIntersect, liDenom, liX, liY,
    segOutOfRange, pointInPolygon, pipBad, pipToggle, pipVert, prevIdx,
    onSegment, almostEqual, mabs, TOL, List.range_succ]

theorem c3_pair_01 : edgePairHit c3A c3B 0 0 0 0 0 1 = false := by
  norm_num [c3A, c3B, edgePairHit, edgeTouch, lineIntersect, liDenom, liX, liY,
    segOutOfRange, pointInPolygon, pipBad, pipToggle, pipVert, prevIdx,
    onSegment, almostEqual, mabs, TOL, List.range_succ]

theorem c3_pair_02 : edgePairHit c3A c3B 0 0 0 0 0 2 = false := by
  norm_num [c3A, c3B, edgePairHit, edgeTouch, lineIntersect, liDenom, liX, liY,
    segOutOfRange, pointInPolygon, pipBad, pipToggle, pipVert, prevIdx,
    onSegment, almostEqual, mabs, TOL, List.range_succ]

theorem c3_pair_10 : edgePairHit c3A c3B 0 0 0 0 1 0 = false := by
  norm_num [c3A, c3B, edgePairHit, edgeTouch, lineIntersect, liDenom, liX, liY,
    segOutOfRange, pointInPolygon, pipBad, pipToggle, pipVert, prevIdx,
    onSegment, almostEqual, mabs, TOL, List.range_succ]

theorem c3_pair_11 : edgePairHit c3A c3B 0 0 0 0 1 1 = false := by
  norm_num [c3A, c3B, edgePairHit, edgeTouch, lineIntersect, liDenom, liX, liY,
    segOutOfRange, pointInPolygon, pipBad, pipToggle, pipVert, prevIdx,
    onSegment, almostEqual, mabs, TOL, List.range_succ]

theorem c3_pair_12 : edgePairHit c3A c3B 0 0 0 0 1 2 = false := by
  norm_num [c3A, c3B, edgePairHit, edgeTouch, lineIntersect, liDenom, liX, liY,
    segOutOfRange, pointInPolygon, pipBad, pipToggle, pipVert, prevIdx,
    onSegment, almostEqual, mabs, TOL, List.range_succ]

theorem c3_pair_ba : edgePairHit c3B c3A 0 0 0 0 0 0 = true := by
  norm_num [c3A, c3B, edgePairHit, edgeTouch, lineIntersect, liDenom, liX, liY,
    segOutOfRange, pointInPolygon, pipBad, pipToggle, pipVert, prevIdx,
    onSegment, almostEqual, mabs, TOL, List.range_succ]


/-- Claim C3, counterexample.  The two concrete polygons `c3A` (triangle) and
`c3B` (square) share their first vertex; `intersect c3A c3B` judges the
contact tangential (both neighbours of the shared vertex in `c3B` are outside
the triangle) and finds no other crossing among the iterated edges, while
`intersect c3B c3A` sees the triangle's neighbours of the shared vertex on
strictly opposite sides of the square and reports an intersection.  So the
polygon intersection test is not symmetric. -/
theorem intersect_symm_cex :
    intersect c3A c3B 0 0 0 0 = false ∧ intersect c3B c3A 0 0 0 0 = true ∧
    intersect c3A c3B 0 0 0 0 ≠ intersect c3B c3A 0 0 0 0 := by
  have hA : c3A.length - 1 = 2 := by norm_num [c3A]
  have hB : c3B.length - 1 = 3 := by norm_num [c3B]
  have h1 : intersect c3A c3B 0 0 0 0 = false := by
    simp only [intersect, hA, hB, List.range_succ, List.range_zero,
      List.nil_append, List.cons_append, List.any_append, List.any_cons,
      List.any_nil, c3_pair_00, c3_pair_01, c3_pair_02, c3_pair_10,
      c3_pair_11, c3_pair_12, Bool.or_self, Bool.or_false, Bool.false_or]
  have h2 : intersect c3B c3A 0 0 0 0 = true := by
    simp only [intersect, List.any_eq_true, List.mem_range]
    refine ⟨0, ?_, 0, ?_, c3_pair_ba⟩
    · rw [hB]; norm_num
    · rw [hA]; norm_num
  exact ⟨h1, h2, by rw [h1, h2]; simp⟩

/-- First polygon of the witness instance for `intersect_symm_of_no_touch`. -/
def w3A : List (Pt ℚ) := [⟨0, 0⟩, ⟨1, 0⟩, ⟨0, 1⟩]

/-- Second polygon of the witness instance for `intersect_symm_of_no_touch`:
well separated from `w3A`, so no edge pair touches. -/
def w3B : List (Pt ℚ) := [⟨10, 10⟩, ⟨11, 10⟩, ⟨10, 11⟩]

/-- Witness for `intersect_symm_of_no_touch`: two well-separated triangles;
no edge pair touches in either orientation, and the theorem yields symmetry
of the intersection test on them. -/
theorem intersect_symm_witness :
    (∀ i < w3A.length - 1, ∀ j < w3B.length - 1,
      edgeTouch w3A w3B 0 0 0 0 i j = false) ∧
    (∀ j < w3B.length - 1, ∀ i < w3A.length - 1,
      edgeTouch w3B w3A 0 0 0 0 j i = false) ∧
    intersect w3A w3B 0 0 0 0 = intersect w3B w3A 0 0 0 0 := by
  have hA : w3A.length - 1 = 2 := by norm_num [w3A]
  have hB : w3B.length - 1 = 2 := by norm_num [w3B]
  have h1 : ∀ i < w3A.length - 1, ∀ j < w3B.length - 1,
      edgeTouch w3A w3B 0 0 0 0 i j = false := by
    rw [hA, hB]
    intro i hi j hj
    interval_cases i <;> interval_cases j <;>
      norm_num [edgeTouch, onSegment, pipVert, prevIdx, w3A, w3B,
        almostEqual, mabs, TOL]
  have h2 : ∀ j < w3B.length - 1, ∀ i < w3A.length - 1,
      edgeTouch w3B w3A 0 0 0 0 j i = false := by
    rw [hA, hB]
    intro j hj i hi
    interval_cases i <;> interval_cases j <;>
      norm_num [edgeTouch, onSegment, pipVert, prevIdx, w3A, w3B,
        almostEqual, mabs, TOL]
  exact ⟨h1, h2, intersect_symm_of_no_touch w3A w3B 0 0 0 0 h1 h2⟩


/-! ## C5: indeterminate outcomes of `pointInPolygon` -/

/-- If any loop index satisfies the indeterminacy test, `pointInPolygon`
returns `none` (the source's `return null`). -/
theorem pointInPolygon_eq_none_of_bad (point : Pt K) (polygon : List (Pt K))
    (offsetx offsety : K) (i : ℕ) (hi : i < polygon.length)
    (hbad : pipBad point polygon offsetx offsety i = true) :
    pointInPolygon point polygon offsetx offsety = none := by
  unfold pointInPolygon
  rcases lt_or_le polygon.length 3 with h | h
  · rw [if_pos h]
  · rw [if_neg (not_lt.mpr h),
      if_pos (List.any_eq_true.mpr ⟨i, List.mem_range.mpr hi, hbad⟩)]

/-- Sign bookkeeping for the betweenness argument: if `q·l = d·u` and
`r·l = (l-d)·u` with `0 < d < l` and `u ≠ 0`, then `q` and `r` are both
nonzero with the sign of `u`. -/
theorem projSigns (q r l d u : K) (hl : 0 < l) (hd : 0 < d) (hdl : d < l)
    (h1 : q * l = d * u) (h2 : r * l = (l - d) * u) (hu : u ≠ 0) :
    (0 < q ∧ 0 < r) ∨ (q < 0 ∧ r < 0) := by
  rcases hu.lt_or_lt with hneg | hpos
  · right
    constructor
    · nlinarith [mul_neg_of_pos_of_neg hd hneg]
    · nlinarith [mul_neg_of_pos_of_neg (show (0:K) < l - d by linarith) hneg]
  · left
    constructor
    · nlinarith [mul_pos hd hpos]
    · nlinarith [mul_pos (show (0:K) < l - d by linarith) hpos]

/-- If the edge `AB` is slanted by at least the tolerance in both axes, `p`
lies exactly on its carrier line, the projection parameter clears the
tolerance at both ends, and `p` does not almost coincide with either
endpoint, then `onSegment A B p` answers `true`. -/
theorem onSegment_of_nice (A B p : Pt K)
    (hux : TOL ≤ mabs (A.x - B.x)) (huy : TOL ≤ mabs (A.y - B.y))
    (hcross : (p.y - A.y) * (B.x - A.x) - (p.x - A.x) * (B.y - A.y) = 0)
    (hdot1 : TOL ≤ (p.x - A.x) * (B.x - A.x) + (p.y - A.y) * (B.y - A.y))
    (hdot2 : (p.x - A.x) * (B.x - A.x) + (p.y - A.y) * (B.y - A.y)
      ≤ (B.x - A.x) * (B.x - A.x) + (B.y - A.y) * (B.y - A.y) - TOL)
    (hea : (almostEqual p.x A.x && almostEqual p.y A.y) = false)
    (heb : (almostEqual p.x B.x && almostEqual p.y B.y) = false) :
    onSegment A B p = true := by
  have htol : (0:K) < TOL := TOL_pos
  have huxne : B.x - A.x ≠ 0 := by
    intro h
    rw [mabs_sub_comm, h] at hux
    simp [mabs] at hux
    linarith
  have huyne : B.y - A.y ≠ 0 := by
    intro h
    rw [mabs_sub_comm, h] at huy
    simp [mabs] at huy
    linarith
  have hl2 : 0 < (B.x - A.x) * (B.x - A.x) + (B.y - A.y) * (B.y - A.y) := by
    nlinarith [mul_self_pos.mpr huxne, mul_self_nonneg (B.y - A.y)]
  have hd0 : 0 < (p.x - A.x) * (B.x - A.x) + (p.y - A.y) * (B.y - A.y) :=
    lt_of_lt_of_le htol hdot1
  have hld : (p.x - A.x) * (B.x - A.x) + (p.y - A.y) * (B.y - A.y)
      < (B.x - A.x) * (B.x - A.x) + (B.y - A.y) * (B.y - A.y) := by linarith
  have h1 : (p.x - A.x) *
      ((B.x - A.x) * (B.x - A.x) + (B.y - A.y) * (B.y - A.y)) =
      ((p.x - A.x) * (B.x - A.x) + (p.y - A.y) * (B.y - A.y)) * (B.x - A.x) := by
    linear_combination (-(B.y - A.y)) * hcross
  have h2 : (p.y - A.y) *
      ((B.x - A.x) * (B.x - A.x) + (B.y - A.y) * (B.y - A.y)) =
      ((p.x - A.x) * (B.x - A.x) + (p.y - A.y) * (B.y - A.y)) * (B.y - A.y) := by
    linear_combination (B.x - A.x) * hcross
  have g1 : (B.x - p.x) *
      ((B.x - A.x) * (B.x - A.x) + (B.y - A.y) * (B.y - A.y)) =
      (((B.x - A.x) * (B.x - A.x) + (B.y - A.y) * (B.y - A.y)) -
        ((p.x - A.x) * (B.x - A.x) + (p.y - A.y) * (B.y - A.y))) * (B.x - A.x) := by
    linear_combination (-1 : K) * h1
  have g2 : (B.y - p.y) *
      ((B.x - A.x) * (B.x - A.x) + (B.y - A.y) * (B.y - A.y)) =
      (((B.x - A.x) * (B.x - A.x) + (B.y - A.y) * (B.y - A.y)) -
        ((p.x - A.x) * (B.x - A.x) + (p.y - A.y) * (B.y - A.y))) * (B.y - A.y) := by
    linear_combination (-1 : K) * h2
  have hxsign := projSigns (p.x - A.x) (B.x - p.x) _ _ _ hl2 hd0 hld h1 g1 huxne
  have hysign := projSigns (p.y - A.y) (B.y - p.y) _ _ _ hl2 hd0 hld h2 g2 huyne
  have hxlo : min A.x B.x < p.x := by
    rcases hxsign with ⟨h, h'⟩ | ⟨h, h'⟩
    · exact lt_of_le_of_lt (min_le_left _ _) (by linarith)
    · exact lt_of_le_of_lt (min_le_right _ _) (by linarith)
  have hxhi : p.x < max A.x B.x := by
    rcases hxsign with ⟨h, h'⟩ | ⟨h, h'⟩
    · exact lt_of_lt_of_le (by linarith) (le_max_right _ _)
    · exact lt_of_lt_of_le (by linarith) (le_max_left _ _)
  have hylo : min A.y B.y < p.y := by
    rcases hysign with ⟨h, h'⟩ | ⟨h, h'⟩
    · exact lt_of_le_of_lt (min_le_left _ _) (by linarith)
    · exact lt_of_le_of_lt (min_le_right _ _) (by linarith)
  have hyhi : p.y < max A.y B.y := by
    rcases hysign with ⟨h, h'⟩ | ⟨h, h'⟩
    · exact lt_of_lt_of_le (by linarith) (le_max_right _ _)
    · exact lt_of_lt_of_le (by linarith) (le_max_left _ _)
  have cxF : almostEqual A.x B.x = false := by
    simp only [almostEqual, decide_eq_false_iff_not, not_lt]
    exact hux
  have cyF : almostEqual A.y B.y = false := by
    simp only [almostEqual, decide_eq_false_iff_not, not_lt]
    exact huy
  have c1 : (almostEqual A.x B.x && almostEqual p.x A.x) = false := by
    simp [cxF]
  have c2 : (almostEqual A.y B.y && almostEqual p.y A.y) = false := by
    simp [cyF]
  have c3 : ((p.x < A.x && p.x < B.x) || (p.x > A.x && p.x > B.x) ||
             (p.y < A.y && p.y < B.y) || (p.y > A.y && p.y > B.y)) = false := by
    simp only [Bool.or_eq_false_iff, Bool.and_eq_false_iff,
      decide_eq_false_iff_not, not_lt]
    refine ⟨⟨⟨?_, ?_⟩, ?_⟩, ?_⟩
    · rcases min_lt_iff.mp hxlo with h | h
      · exact Or.inl h.le
      · exact Or.inr h.le
    · rcases lt_max_iff.mp hxhi with h | h
      · exact Or.inl h.le
      · exact Or.inr h.le
    · rcases min_lt_iff.mp hylo with h | h
      · exact Or.inl h.le
      · exact Or.inr h.le
    · rcases lt_max_iff.mp hyhi with h | h
      · exact Or.inl h.le
      · exact Or.inr h.le
  have c4 : ((almostEqual p.x A.x && almostEqual p.y A.y) ||
             (almostEqual p.x B.x && almostEqual p.y B.y)) = false := by
    simp only [Bool.or_eq_false_iff]
    exact ⟨hea, heb⟩
  have mabs0 : mabs (0 : K) = 0 := by simp [mabs]
  have c5 : ¬(mabs ((p.y - A.y) * (B.x - A.x) - (p.x - A.x) * (B.y - A.y))
      > TOL) := by
    rw [hcross, mabs0]
    exact not_lt.mpr htol.le
  have c6 : (((p.x - A.x) * (B.x - A.x) + (p.y - A.y) * (B.y - A.y) < 0 : Bool) ||
      almostEqual ((p.x - A.x) * (B.x - A.x) + (p.y - A.y) * (B.y - A.y)) 0)
      = false := by
    simp only [Bool.or_eq_false_iff, almostEqual, decide_eq_false_iff_not,
      not_lt, mabs_eq_abs, sub_zero]
    refine ⟨hd0.le, ?_⟩
    rw [abs_of_pos hd0]
    exact hdot1
  have c7 : (((p.x - A.x) * (B.x - A.x) + (p.y - A.y) * (B.y - A.y) >
      (B.x - A.x) * (B.x - A.x) + (B.y - A.y) * (B.y - A.y) : Bool) ||
      almostEqual ((p.x - A.x) * (B.x - A.x) + (p.y - A.y) * (B.y - A.y))
        ((B.x - A.x) * (B.x - A.x) + (B.y - A.y) * (B.y - A.y))) = false := by
    simp only [Bool.or_eq_false_iff, almostEqual, decide_eq_false_iff_not,
      not_lt, mabs_eq_abs]
    refine ⟨hld.le, ?_⟩
    rw [abs_of_nonpos (by linarith)]
    linarith
  unfold onSegment
  simp only [c1, c2, c3, c4, c5, c6, c7, Bool.false_eq_true, if_false]


theorem prevIdx_lt (n i : ℕ) (hn : 0 < n) (hi : i < n) : prevIdx n i < n := by
  unfold prevIdx
  split <;> omega

/-- A convex combination `u + t*(v-u)` with `0 ≤ t ≤ 1` stays within
`mabs (u - v)` of the left endpoint `u`. -/
theorem mabs_convex_left (u v t : K) (h0 : 0 ≤ t) (h1 : t ≤ 1) :
    mabs (u + t * (v - u) - u) ≤ mabs (u - v) := by
  rw [mabs_eq_abs, mabs_eq_abs]
  have h : u + t * (v - u) - u = t * (v - u) := by ring
  rw [h, abs_mul, abs_of_nonneg h0, abs_sub_comm]
  exact mul_le_of_le_one_left (abs_nonneg _) h1

/-- A convex combination `u + t*(v-u)` with `0 ≤ t ≤ 1` stays within
`mabs (u - v)` of the right endpoint `v`. -/
theorem mabs_convex_right (u v t : K) (h0 : 0 ≤ t) (h1 : t ≤ 1) :
    mabs (u + t * (v - u) - v) ≤ mabs (u - v) := by
  rw [mabs_eq_abs, mabs_eq_abs]
  have h : u + t * (v - u) - v = (1 - t) * (u - v) := by ring
  rw [h, abs_mul, abs_of_nonneg (by linarith)]
  exact mul_le_of_le_one_left (abs_nonneg _) (by linarith)

/-- The vertical branch of `onSegment`: if the edge spans less than the
tolerance in `x` and `p` is a convex combination of the endpoints whose
ordinate is almost equal to neither endpoint's ordinate, then `onSegment`
answers `true`. -/
theorem onSegment_of_vertical (A B p : Pt K) (t : K) (h0 : 0 ≤ t) (h1 : t ≤ 1)
    (hx : p.x = A.x + t * (B.x - A.x)) (hy : p.y = A.y + t * (B.y - A.y))
    (hax : mabs (A.x - B.x) < TOL)
    (hpa : almostEqual p.y A.y = false) (hpb : almostEqual p.y B.y = false) :
    onSegment A B p = true := by
  have htol : (0 : K) < TOL := TOL_pos
  have haeAB : almostEqual A.x B.x = true := by
    simp only [almostEqual, decide_eq_true_eq]
    exact hax
  have haepA : almostEqual p.x A.x = true := by
    simp only [almostEqual, decide_eq_true_eq]
    calc mabs (p.x - A.x) ≤ mabs (A.x - B.x) := by
          rw [hx]; exact mabs_convex_left A.x B.x t h0 h1
      _ < TOL := hax
  have hpaT : TOL ≤ mabs (p.y - A.y) := by
    have h := hpa
    simp only [almostEqual, decide_eq_false_iff_not, not_lt] at h
    exact h
  have hpbT : TOL ≤ mabs (p.y - B.y) := by
    have h := hpb
    simp only [almostEqual, decide_eq_false_iff_not, not_lt] at h
    exact h
  have hpyne_a : p.y ≠ A.y := by
    intro h
    rw [h, sub_self] at hpaT
    simp [mabs] at hpaT
    linarith
  have hpyne_b : p.y ≠ B.y := by
    intro h
    rw [h, sub_self] at hpbT
    simp [mabs] at hpbT
    linarith
  have hyne : A.y ≠ B.y := by
    intro h
    exact hpyne_a (by rw [hy, ← h]; ring)
  have hbounds : min B.y A.y < p.y ∧ p.y < max B.y A.y := by
    rcases lt_or_gt_of_ne hyne with hlt | hgt
    · have hge : A.y ≤ p.y := by
        have h := mul_nonneg h0 (show (0 : K) ≤ B.y - A.y by linarith)
        linarith
      have hle : p.y ≤ B.y := by
        have h := mul_nonneg (show (0 : K) ≤ 1 - t by linarith)
          (show (0 : K) ≤ B.y - A.y by linarith)
        nlinarith
      exact ⟨lt_of_le_of_lt (min_le_right _ _) (lt_of_le_of_ne hge
          (Ne.symm hpyne_a)),
        lt_of_lt_of_le (lt_of_le_of_ne hle hpyne_b) (le_max_left _ _)⟩
    · have hge : B.y ≤ p.y := by
        have h := mul_nonneg (show (0 : K) ≤ 1 - t by linarith)
          (show (0 : K) ≤ A.y - B.y by linarith)
        nlinarith
      have hle : p.y ≤ A.y := by
        have h := mul_nonneg h0 (show (0 : K) ≤ A.y - B.y by linarith)
        nlinarith
      exact ⟨lt_of_le_of_lt (min_le_left _ _) (lt_of_le_of_ne hge
          (Ne.symm hpyne_b)),
        lt_of_lt_of_le (lt_of_le_of_ne hle hpyne_a) (le_max_right _ _)⟩
  unfold onSegment
  rw [if_pos (show (almostEqual A.x B.x && almostEqual p.x A.x) = true by
    rw [haeAB, haepA]; rfl)]
  simp only [hpa, hpb, Bool.not_false, Bool.true_and, Bool.and_eq_true,
    decide_eq_true_eq]
  exact ⟨hbounds.2, hbounds.1⟩

/-- The horizontal branch of `onSegment`: if the edge spans at least the
tolerance in `x` but less than the tolerance in `y`, and `p` is a convex
combination of the endpoints whose abscissa is almost equal to neither
endpoint's abscissa, then `onSegment` answers `true`. -/
theorem onSegment_of_horizontal (A B p : Pt K) (t : K) (h0 : 0 ≤ t)
    (h1 : t ≤ 1)
    (hx : p.x = A.x + t * (B.x - A.x)) (hy : p.y = A.y + t * (B.y - A.y))
    (hax : TOL ≤ mabs (A.x - B.x)) (hay : mabs (A.y - B.y) < TOL)
    (hpa : almostEqual p.x A.x = false) (hpb : almostEqual p.x B.x = false) :
    onSegment A B p = true := by
  have htol : (0 : K) < TOL := TOL_pos
  have haeABx : almostEqual A.x B.x = false := by
    simp only [almostEqual, decide_eq_false_iff_not, not_lt]
    exact hax
  have haeAB : almostEqual A.y B.y = true := by
    simp only [almostEqual, decide_eq_true_eq]
    exact hay
  have haepA : almostEqual p.y A.y = true := by
    simp only [almostEqual, decide_eq_true_eq]
    calc mabs (p.y - A.y) ≤ mabs (A.y - B.y) := by
          rw [hy]; exact mabs_convex_left A.y B.y t h0 h1
      _ < TOL := hay
  have hpaT : TOL ≤ mabs (p.x - A.x) := by
    have h := hpa
    simp only [almostEqual, decide_eq_false_iff_not, not_lt] at h
    exact h
  have hpbT : TOL ≤ mabs (p.x - B.x) := by
    have h := hpb
    simp only [almostEqual, decide_eq_false_iff_not, not_lt] at h
    exact h
  have hpxne_a : p.x ≠ A.x := by
    intro h
    rw [h, sub_self] at hpaT
    simp [mabs] at hpaT
    linarith
  have hpxne_b : p.x ≠ B.x := by
    intro h
    rw [h, sub_self] at hpbT
    simp [mabs] at hpbT
    linarith
  have hxne : A.x ≠ B.x := by
    intro h
    exact hpxne_a (by rw [hx, ← h]; ring)
  have hbounds : min B.x A.x < p.x ∧ p.x < max B.x A.x := by
    rcases lt_or_gt_of_ne hxne with hlt | hgt
    · have hge : A.x ≤ p.x := by
        have h := mul_nonneg h0 (show (0 : K) ≤ B.x - A.x by linarith)
        linarith
      have hle : p.x ≤ B.x := by
        have h := mul_nonneg (show (0 : K) ≤ 1 - t by linarith)
          (show (0 : K) ≤ B.x - A.x by linarith)
        nlinarith
      exact ⟨lt_of_le_of_lt (min_le_right _ _) (lt_of_le_of_ne hge
          (Ne.symm hpxne_a)),
        lt_of_lt_of_le (lt_of_le_of_ne hle hpxne_b) (le_max_left _ _)⟩
    · have hge : B.x ≤ p.x := by
        have h := mul_nonneg (show (0 : K) ≤ 1 - t by linarith)
          (show (0 : K) ≤ A.x - B.x by linarith)
        nlinarith
      have hle : p.x ≤ A.x := by
        have h := mul_nonneg h0 (show (0 : K) ≤ A.x - B.x by linarith)
        nlinarith
      exact ⟨lt_of_le_of_lt (min_le_left _ _) (lt_of_le_of_ne hge
          (Ne.symm hpxne_b)),
        lt_of_lt_of_le (lt_of_le_of_ne hle hpxne_a) (le_max_right _ _)⟩
  unfold onSegment
  rw [if_neg (show ¬ ((almostEqual A.x B.x && almostEqual p.x A.x) = true) by
      simp [haeABx]),
    if_pos (show (almostEqual A.y B.y && almostEqual p.y A.y) = true by
      rw [haeAB, haepA]; rfl)]
  simp only [hpa, hpb, Bool.not_false, Bool.true_and, Bool.and_eq_true,
    decide_eq_true_eq]
  exact ⟨hbounds.2, hbounds.1⟩

/-- A point lying exactly on a near-axis-aligned segment (spanning less than
the tolerance in `x` or in `y`) always trips one of the source's
indeterminacy tests: it almost coincides with an endpoint in both
coordinates, or `onSegment`'s vertical/horizontal branch answers `true`. -/
theorem alignedEdge_bad (A B p : Pt K) (t : K) (h0 : 0 ≤ t) (h1 : t ≤ 1)
    (hx : p.x = A.x + t * (B.x - A.x)) (hy : p.y = A.y + t * (B.y - A.y))
    (haxis : mabs (A.x - B.x) < TOL ∨ mabs (A.y - B.y) < TOL) :
    (almostEqual A.x p.x && almostEqual A.y p.y) = true ∨
    (almostEqual B.x p.x && almostEqual B.y p.y) = true ∨
    onSegment A B p = true := by
  by_cases hvert : mabs (A.x - B.x) < TOL
  · by_cases hpa : almostEqual p.y A.y = true
    · left
      rw [Bool.and_eq_true]
      refine ⟨?_, ?_⟩
      · rw [almostEqual_comm]
        simp only [almostEqual, decide_eq_true_eq]
        calc mabs (p.x - A.x) ≤ mabs (A.x - B.x) := by
              rw [hx]; exact mabs_convex_left A.x B.x t h0 h1
          _ < TOL := hvert
      · rw [almostEqual_comm]
        exact hpa
    · by_cases hpb : almostEqual p.y B.y = true
      · right; left
        rw [Bool.and_eq_true]
        refine ⟨?_, ?_⟩
        · rw [almostEqual_comm]
          simp only [almostEqual, decide_eq_true_eq]
          calc mabs (p.x - B.x) ≤ mabs (A.x - B.x) := by
                rw [hx]; exact mabs_convex_right A.x B.x t h0 h1
            _ < TOL := hvert
        · rw [almostEqual_comm]
          exact hpb
      · right; right
        exact onSegment_of_vertical A B p t h0 h1 hx hy hvert
          (Bool.not_eq_true _ ▸ hpa) (Bool.not_eq_true _ ▸ hpb)
  · have hax : TOL ≤ mabs (A.x - B.x) := not_lt.mp hvert
    have hhor : mabs (A.y - B.y) < TOL := by
      rcases haxis with h | h
      · exact absurd h hvert
      · exact h
    by_cases hpa : almostEqual p.x A.x = true
    · left
      rw [Bool.and_eq_true]
      refine ⟨?_, ?_⟩
      · rw [almostEqual_comm]
        exact hpa
      · rw [almostEqual_comm]
        simp only [almostEqual, decide_eq_true_eq]
        calc mabs (p.y - A.y) ≤ mabs (A.y - B.y) := by
              rw [hy]; exact mabs_convex_left A.y B.y t h0 h1
          _ < TOL := hhor
    · by_cases hpb : almostEqual p.x B.x = true
      · right; left
        rw [Bool.and_eq_true]
        refine ⟨?_, ?_⟩
        · rw [almostEqual_comm]
          exact hpb
        · rw [almostEqual_comm]
          simp only [almostEqual, decide_eq_true_eq]
          calc mabs (p.y - B.y) ≤ mabs (A.y - B.y) := by
                rw [hy]; exact mabs_convex_right A.y B.y t h0 h1
            _ < TOL := hhor
      · right; right
        exact onSegment_of_horizontal A B p t h0 h1 hx hy hax hhor
          (Bool.not_eq_true _ ▸ hpa) (Bool.not_eq_true _ ▸ hpb)

/-- The near-axis-aligned on-edge hypothesis for the edge from vertex `i` to
its predecessor: the edge spans less than the tolerance in at least one
axis, and the query point is an exact convex combination of the two offset
endpoints.  On such an edge the original on-edge claim holds without further
conditions (`alignedEdge_bad`): this covers in particular every exactly
axis-aligned edge, such as the sides of a rectangle. -/
def onAlignedEdge (point : Pt K) (polygon : List (Pt K)) (offsetx offsety : K)
    (i : ℕ) : Prop :=
  let a := pipVert polygon offsetx offsety i
  let b := pipVert polygon offsetx offsety (prevIdx polygon.length i)
  (mabs (a.x - b.x) < TOL ∨ mabs (a.y - b.y) < TOL) ∧
  ∃ t : K, 0 ≤ t ∧ t ≤ 1 ∧
    point.x = a.x + t * (b.x - a.x) ∧ point.y = a.y + t * (b.y - a.y)

/-- The tolerance-robust on-edge hypothesis under which the amended claim C5
holds for the edge from vertex `i` to its predecessor: the edge is slanted by
at least `TOL` in both axes, the query point lies exactly on the edge's
carrier line (zero cross product), and the point's projection parameter
clears the tolerance at both endpoints. -/
def onNiceEdge (point : Pt K) (polygon : List (Pt K)) (offsetx offsety : K)
    (i : ℕ) : Prop :=
  let a := pipVert polygon offsetx offsety i
  let b := pipVert polygon offsetx offsety (prevIdx polygon.length i)
  TOL ≤ mabs (a.x - b.x) ∧ TOL ≤ mabs (a.y - b.y) ∧
  (point.y - a.y) * (b.x - a.x) - (point.x - a.x) * (b.y - a.y) = 0 ∧
  TOL ≤ (point.x - a.x) * (b.x - a.x) + (point.y - a.y) * (b.y - a.y) ∧
  (point.x - a.x) * (b.x - a.x) + (point.y - a.y) * (b.y - a.y)
    ≤ (b.x - a.x) * (b.x - a.x) + (b.y - a.y) * (b.y - a.y) - TOL

/-- Claim C5, amended.  The spec claims that a query point coinciding with a
vertex within tolerance, or lying exactly on an edge, always yields the
indeterminate outcome.  The vertex half is true unconditionally.  The
on-edge half is true unconditionally for edges that are axis-aligned within
tolerance — spanning less than `TOL` in `x` or in `y` (`onAlignedEdge`,
covering e.g. every side of a rectangle): there `onSegment`'s dedicated
vertical/horizontal branches and the vertex-tolerance check leave no gap.
For edges slanted by at least the tolerance in both axes it holds whenever
the point's projection parameter clears the tolerance at both endpoints
(`onNiceEdge`); it fails only in the remaining tolerance-degenerate
projection situations (see `pointInPolygon_on_edge_cex`).  Under any of the
three hypotheses, `pointInPolygon` returns `none`, never `some`. -/
theorem pointInPolygon_indeterminate (point : Pt K) (polygon : List (Pt K))
    (offsetx offsety : K) (h3 : 3 ≤ polygon.length) (i : ℕ)
    (hi : i < polygon.length)
    (hcase : (almostEqual (pipVert polygon offsetx offsety i).x point.x = true ∧
              almostEqual (pipVert polygon offsetx offsety i).y point.y = true) ∨
             onNiceEdge point polygon offsetx offsety i ∨
             onAlignedEdge point polygon offsetx offsety i) :
    pointInPolygon point polygon offsetx offsety = none := by
  have hn : 0 < polygon.length := by omega
  rcases hcase with ⟨hvx, hvy⟩ | hnice | halign
  · refine pointInPolygon_eq_none_of_bad point polygon offsetx offsety i hi ?_
    unfold pipBad
    simp [hvx, hvy]
  · unfold onNiceEdge at hnice
    obtain ⟨hux, huy, hcross, hdot1, hdot2⟩ := hnice
    by_cases hA : (almostEqual point.x (pipVert polygon offsetx offsety i).x &&
        almostEqual point.y (pipVert polygon offsetx offsety i).y) = true
    · refine pointInPolygon_eq_none_of_bad point polygon offsetx offsety i hi ?_
      unfold pipBad
      rw [Bool.and_eq_true] at hA
      rw [almostEqual_comm] at hA
      rw [almostEqual_comm point.y] at hA
      simp [hA.1, hA.2]
    · by_cases hB : (almostEqual point.x
          (pipVert polygon offsetx offsety (prevIdx polygon.length i)).x &&
          almostEqual point.y
          (pipVert polygon offsetx offsety (prevIdx polygon.length i)).y) = true
      · refine pointInPolygon_eq_none_of_bad point polygon offsetx offsety
          (prevIdx polygon.length i) (prevIdx_lt _ _ hn hi) ?_
        unfold pipBad
        rw [Bool.and_eq_true] at hB
        rw [almostEqual_comm] at hB
        rw [almostEqual_comm point.y] at hB
        simp [hB.1, hB.2]
      · refine pointInPolygon_eq_none_of_bad point polygon offsetx offsety i hi ?_
        unfold pipBad
        have hseg := onSegment_of_nice
          (pipVert polygon offsetx offsety i)
          (pipVert polygon offsetx offsety (prevIdx polygon.length i))
          point hux huy hcross hdot1 hdot2
          (Bool.not_eq_true _ ▸ hA) (Bool.not_eq_true _ ▸ hB)
        simp [hseg]
  · unfold onAlignedEdge at halign
    obtain ⟨haxis, t, ht0, ht1, hx, hy⟩ := halign
    rcases alignedEdge_bad (pipVert polygon offsetx offsety i)
        (pipVert polygon offsetx offsety (prevIdx polygon.length i))
        point t ht0 ht1 hx hy haxis with hva | hvb | hseg
    · refine pointInPolygon_eq_none_of_bad point polygon offsetx offsety i hi ?_
      unfold pipBad
      simp [hva]
    · refine pointInPolygon_eq_none_of_bad point polygon offsetx offsety
        (prevIdx polygon.length i) (prevIdx_lt _ _ hn hi) ?_
      unfold pipBad
      simp [hvb]
    · refine pointInPolygon_eq_none_of_bad point polygon offsetx offsety i hi ?_
      unfold pipBad
      simp [hseg]


/-- Claim C5, counterexample.  The triangle below has a genuine but very
short slanted edge from `(0,0)` to `(1e-6, 1e-6)`.  The query point
`(5e-7, 5e-7)` is its exact midpoint — exactly on the edge, not an endpoint,
and not within tolerance `1e-9` of any vertex — yet `pointInPolygon` answers
`some true` (a definite inside), not the indeterminate `none` the spec
promises: the projection parameter `dot ≈ 1e-12` falls below the tolerance
`1e-9`, so `onSegment` rejects the point as an endpoint case. -/
theorem pointInPolygon_on_edge_cex :
    pointInPolygon (K := ℚ) ⟨1/2000000, 1/2000000⟩
      [⟨0, 0⟩, ⟨1/1000000, 1/1000000⟩, ⟨1, 0⟩] 0 0 = some true ∧
    (1/2000000 : ℚ) = (0 + 1/1000000) / 2 := by
  constructor
  · norm_num [pointInPolygon, pipBad, pipToggle, pipVert, prevIdx, onSegment,
      almostEqual, mabs, TOL, List.range_succ]
  · norm_num

/-- Witness polygon for `pointInPolygon_indeterminate`: a triangle with a
long slanted edge. -/
def w5P : List (Pt ℚ) := [⟨0, 0⟩, ⟨2, 2⟩, ⟨4, 0⟩]

/-- Second witness polygon for `pointInPolygon_indeterminate`: an
axis-aligned square, whose bottom edge exercises the aligned-edge case. -/
def w5Q : List (Pt ℚ) := [⟨0, 0⟩, ⟨4, 0⟩, ⟨4, 4⟩, ⟨0, 4⟩]

/-- Witness for `pointInPolygon_indeterminate`, exercising both on-edge
hypotheses: the point `(1,1)` lies on the slanted edge from vertex `1` back
to vertex `0` of the triangle `w5P`, well clear of the tolerance thresholds
(`onNiceEdge`), and the point `(2,0)` is the midpoint of the horizontal
bottom edge of the square `w5Q` (`onAlignedEdge`); both classifications are
indeterminate. -/
theorem pointInPolygon_indeterminate_witness :
    ((3 ≤ w5P.length ∧ 1 < w5P.length ∧
        onNiceEdge (⟨1, 1⟩ : Pt ℚ) w5P 0 0 1) ∧
      pointInPolygon (⟨1, 1⟩ : Pt ℚ) w5P 0 0 = none) ∧
    ((3 ≤ w5Q.length ∧ 1 < w5Q.length ∧
        onAlignedEdge (⟨2, 0⟩ : Pt ℚ) w5Q 0 0 1) ∧
      pointInPolygon (⟨2, 0⟩ : Pt ℚ) w5Q 0 0 = none) := by
  have halign : onAlignedEdge (⟨2, 0⟩ : Pt ℚ) w5Q 0 0 1 := by
    refine ⟨Or.inr (by norm_num [pipVert, prevIdx, w5Q, mabs, TOL]),
      1 / 2, by norm_num, by norm_num, ?_, ?_⟩
    · norm_num [pipVert, prevIdx, w5Q]
    · norm_num [pipVert, prevIdx, w5Q]
  constructor
  · refine ⟨⟨by norm_num [w5P], by norm_num [w5P], ?_⟩, ?_⟩
    · norm_num [onNiceEdge, pipVert, prevIdx, w5P, mabs, TOL]
    · exact pointInPolygon_indeterminate _ _ _ _ (by norm_num [w5P]) 1
        (by norm_num [w5P]) (Or.inr (Or.inl
          (by norm_num [onNiceEdge, pipVert, prevIdx, w5P, mabs, TOL])))
  · refine ⟨⟨by norm_num [w5Q], by norm_num [w5Q], halign⟩, ?_⟩
    exact pointInPolygon_indeterminate _ _ _ _ (by norm_num [w5Q]) 1
      (by norm_num [w5Q]) (Or.inr (Or.inr halign))


/-! ## Polygon transforms and expansion -/

/-- `SVGNestGeometry.rotatePolygon(polygon, degrees)`: rotate every vertex
about the origin by `degrees` (converted to radians via `Math.PI / 180`). -/
def rotatePolygon (env : MathEnv K) (polygon : List (Pt K)) (degrees : K) :
    List (Pt K) :=
  let angle := degrees * env.pi / 180
  let c := env.cos angle
  let s := env.sin angle
  polygon.map fun p => ⟨p.x * c - p.y * s, p.x * s + p.y * c⟩

/-- `SVGNestGeometry.transformPolygon(polygon, transform)`: scale about the
origin, then rotate (the rotation step is skipped entirely when
`transform.rotation === 0`), then translate. -/
def transformPolygon (env : MathEnv K) (polygon : List (Pt K))
    (t : Transform K) : List (Pt K) :=
  let scaled := polygon.map fun p => ⟨p.x * t.scale, p.y * t.scale⟩
  let rotated := if t.rotation ≠ 0 then rotatePolygon env scaled t.rotation
                 else scaled
  rotated.map fun p => ⟨p.x + t.x, p.y + t.y⟩

/-- The center of a bounding box, as `expandPolygon` computes its
`centroid` local: `(bounds.x + bounds.width/2, bounds.y + bounds.height/2)`. -/
def bboxCenter (bounds : BBox K) : Pt K :=
  ⟨bounds.x + bounds.width / 2, bounds.y + bounds.height / 2⟩

/-- `SVGNestGeometry.expandPolygon(polygon, margin)`: push every vertex away
from the *bounding-box center* so that its distance from that center grows by
`margin`; nonpositive margins and degenerate polygons pass through. -/
def expandPolygon (env : MathEnv K) (polygon : List (Pt K)) (margin : K) :
    List (Pt K) :=
  if margin ≤ 0 then polygon
  else
    match getPolygonBounds polygon with
    | none => polygon
    | some bounds =>
      let centroid : Pt K := bboxCenter bounds
      polygon.map fun p =>
        let dx := p.x - centroid.x
        let dy := p.y - centroid.y
        let distance := env.sqrt (dx * dx + dy * dy)
        if distance = 0 then p
        else
          let scale := (distance + margin) / distance
          ⟨centroid.x + dx * scale, centroid.y + dy * scale⟩

/-- `SVGNestGeometry.checkPolygonCollision(poly1, t1, poly2, t2, margin)`:
transform both polygons, expand each by the margin, then run the
intersection test (with zero offsets). -/
def checkPolygonCollision (env : MathEnv K) (poly1 : List (Pt K))
    (t1 : Transform K) (poly2 : List (Pt K)) (t2 : Transform K)
    (margin : K) : Bool :=
  intersect (expandPolygon env (transformPolygon env poly1 t1) margin)
    (expandPolygon env (transformPolygon env poly2 t2) margin) 0 0 0 0

/-- `SVGPathAnalyzer.calculateCentroid(points)`: the arithmetic mean of the
vertices (`{x: 0, y: 0}` for the empty list). -/
def calculateCentroid (points : List (Pt K)) : Pt K :=
  if points.length = 0 then ⟨0, 0⟩
  else
    let s := points.foldl (fun acc p => (acc.1 + p.x, acc.2 + p.y))
      ((0 : K), (0 : K))
    ⟨s.1 / (points.length : K), s.2 / (points.length : K)⟩

/-- The trigonometry/square-root environment consulted by the source over
the real numbers: `Math.PI`, `Math.cos`, `Math.sin`, `Math.sqrt`. -/
noncomputable def realEnv : MathEnv ℝ := ⟨Real.pi, Real.cos, Real.sin, Real.sqrt⟩

/-- A concrete rational environment for instances whose control flow never
consults the trigonometric values, or consults them only at angle `0` (where
this environment returns the true values `cos 0 = 1`, `sin 0 = 0`). -/
def trivialEnv : MathEnv ℚ := ⟨0, fun _ => 1, fun _ => 0, fun _ => 0⟩

/-- The inverse transform that claim C6 literally prescribes: negative
translation, negative rotation, reciprocal scale. -/
def naiveInverseTransform (t : Transform K) : Transform K :=
  ⟨-t.x, -t.y, -t.rotation, 1 / t.scale⟩

/-- The correct algebraic inverse of `transformPolygon`'s scale-rotate-
translate order (used by the amended claim C6): rotation and scale are
inverted as the claim says, but the translation must be the forward
translation rotated back and divided by the scale, because the inverse
transform applies its own scale and rotation to the translated points before
adding its translation. -/
def inverseTransform (env : MathEnv K) (t : Transform K) : Transform K :=
  let c := env.cos (t.rotation * env.pi / 180)
  let s := env.sin (t.rotation * env.pi / 180)
  ⟨-((c * t.x + s * t.y) / t.scale), -((-s * t.x + c * t.y) / t.scale),
    -t.rotation, 1 / t.scale⟩


/-! ## C6: transform round-trip -/

/-- Claim C6, counterexample.  Transforming the single-point polygon
`[(0,0)]` by `{x: 10, y: 0, rotation: 0, scale: 2}` and then by the claim's
algebraic inverse `{x: -10, y: 0, rotation: 0, scale: 1/2}` yields
`[(-5, 0)]`, not the original `[(0, 0)]` — the error is `5` units, far
beyond any floating-point tolerance.  Because `transformPolygon` scales
*before* translating, the naive inverse applies its reciprocal scale to the
forward translation as well. -/
theorem transform_roundtrip_cex :
    transformPolygon trivialEnv
      (transformPolygon trivialEnv [⟨0, 0⟩] ⟨10, 0, 0, 2⟩)
      (naiveInverseTransform ⟨10, 0, 0, 2⟩) = [⟨-5, 0⟩] ∧
    almostEqual (-5 : ℚ) 0 = false := by
  constructor
  · norm_num [transformPolygon, rotatePolygon, naiveInverseTransform,
      trivialEnv]
  · norm_num [almostEqual, mabs, TOL]


/-- Claim C6, amended.  The round-trip with the claim's naive inverse fails
(`transform_roundtrip_cex`); it holds once the inverse translation is taken
as the forward translation rotated back and divided by the scale
(`inverseTransform`).  Stated over an arbitrary environment under the
defining identities of cosine/sine at the angles involved; over `ℝ` with
`realEnv` these hypotheses are theorems of `Real.cos`/`Real.sin`. -/
theorem transform_roundtrip (env : MathEnv K) (polygon : List (Pt K))
    (t : Transform K) (hs : t.scale ≠ 0)
    (hzc : env.cos 0 = 1) (hzs : env.sin 0 = 0)
    (hc : env.cos (-t.rotation * env.pi / 180) = env.cos (t.rotation * env.pi / 180))
    (hsin : env.sin (-t.rotation * env.pi / 180) = -env.sin (t.rotation * env.pi / 180))
    (hpyth : env.cos (t.rotation * env.pi / 180) * env.cos (t.rotation * env.pi / 180) +
      env.sin (t.rotation * env.pi / 180) * env.sin (t.rotation * env.pi / 180) = 1) :
    transformPolygon env (transformPolygon env polygon t)
      (inverseTransform env t) = polygon := by
  unfold transformPolygon rotatePolygon inverseTransform
  by_cases h0 : t.rotation = 0
  · simp only [h0, neg_zero, ne_eq, not_true_eq_false, if_false, if_neg,
      ite_false, List.map_map]
    have : (0 : K) * env.pi / 180 = 0 := by ring
    rw [this, hzc, hzs]
    conv_rhs => rw [show polygon = polygon.map id from (List.map_id polygon).symm]
    apply List.map_congr_left
    intro p _
    simp only [Function.comp_apply, id_eq]
    congr 1 <;> field_simp <;> ring
  · simp only [ne_eq, h0, not_false_eq_true, if_true, neg_eq_zero, if_neg,
      List.map_map]
    conv_rhs => rw [show polygon = polygon.map id from (List.map_id polygon).symm]
    apply List.map_congr_left
    intro p _
    simp only [Function.comp_apply, id_eq]
    rw [hc, hsin]
    congr 1
    · field_simp
      linear_combination (p.x * t.scale) * hpyth
    · field_simp
      linear_combination (p.y * t.scale ^ 3) * hpyth


/-- Witness for `transform_roundtrip` at a concrete polygon and transform
(the environment satisfies all the trigonometric identities required). -/
theorem transform_roundtrip_witness :
    ((⟨3, 4, 90, 2⟩ : Transform ℚ).scale ≠ 0 ∧
      trivialEnv.cos 0 = 1 ∧ trivialEnv.sin 0 = 0) ∧
    transformPolygon trivialEnv
      (transformPolygon trivialEnv [(⟨1, 2⟩ : Pt ℚ)] ⟨3, 4, 90, 2⟩)
      (inverseTransform trivialEnv ⟨3, 4, 90, 2⟩) = [⟨1, 2⟩] :=
  ⟨⟨by norm_num, by norm_num [trivialEnv], by norm_num [trivialEnv]⟩,
    transform_roundtrip trivialEnv [⟨1, 2⟩] ⟨3, 4, 90, 2⟩ (by norm_num)
      (by norm_num [trivialEnv]) (by norm_num [trivialEnv])
      (by norm_num [trivialEnv]) (by norm_num [trivialEnv])
      (by norm_num [trivialEnv])⟩


/-! ## C8: vertex projection in `expandPolygon` -/

/-- What claim C8 asserts `expandPolygon` does to vertex `i`: project it
outward from the polygon's *centroid* — the arithmetic mean of the vertices,
which is what "centroid" denotes in this code base (`calculateCentroid`) —
along the centroid-to-vertex ray so that its distance from the centroid
grows by exactly `margin` (vertices coincident with the centroid are left
unchanged). -/
def c8ClaimedVertex (env : MathEnv K) (polygon : List (Pt K)) (margin : K)
    (res : List (Pt K)) (i : ℕ) : Prop :=
  let cen := calculateCentroid polygon
  let p := polygon.getD i ⟨0, 0⟩
  let d := env.sqrt ((p.x - cen.x) * (p.x - cen.x) +
    (p.y - cen.y) * (p.y - cen.y))
  res.getD i ⟨0, 0⟩ =
    if d = 0 then p
    else ⟨cen.x + (p.x - cen.x) * ((d + margin) / d),
          cen.y + (p.y - cen.y) * ((d + margin) / d)⟩

/-- The concrete right triangle used to refute claim C8: its vertex mean
`(8/3, 2)` differs from its bounding-box center `(4, 3)`. -/
def c8P : List (Pt ℝ) := [⟨0, 0⟩, ⟨8, 0⟩, ⟨0, 6⟩]

/-- Claim C8, counterexample.  Expanding the right triangle `c8P` by margin
`5` moves vertex `1 = (8,0)` to `(12,-3)`, along the ray from the
*bounding-box center* `(4,3)`; this point does not lie on the ray from the
polygon's centroid `(8/3, 2)` through `(8,0)` at any scale factor, so the
claimed projection-from-the-centroid formula fails at this vertex. -/
theorem expandPolygon_centroid_cex :
    expandPolygon realEnv c8P 5 = [⟨-4, -3⟩, ⟨12, -3⟩, ⟨-4, 9⟩] ∧
    ¬ c8ClaimedVertex realEnv c8P 5 (expandPolygon realEnv c8P 5) 1 := by
  have h25 : Real.sqrt 25 = 5 := by
    rw [show (25 : ℝ) = 5 ^ 2 by norm_num]
    exact Real.sqrt_sq (by norm_num)
  have h1 : expandPolygon realEnv c8P 5 = [⟨-4, -3⟩, ⟨12, -3⟩, ⟨-4, 9⟩] := by
    norm_num [expandPolygon, getPolygonBounds, boundsStep, bboxCenter, c8P,
      realEnv, h25]
  refine ⟨h1, ?_⟩
  rw [h1]
  have hcen : calculateCentroid c8P = ⟨8/3, 2⟩ := by
    norm_num [calculateCentroid, c8P]
  have hd : Real.sqrt (292/9) ≠ 0 :=
    ne_of_gt (Real.sqrt_pos.mpr (by norm_num))
  intro hcl
  rw [c8ClaimedVertex, hcen] at hcl
  norm_num [c8P, realEnv, hd, Pt.mk.injEq,
    show (8 : ℝ) - 8/3 = 16/3 by norm_num,
    show ((16 : ℝ)/3) * (16/3) + (0 - 2) * (0 - 2) = 292/9 by norm_num] at hcl
  obtain ⟨hx, hy⟩ := hcl
  linarith


theorem getD_map_of_lt {α β : Type} (f : α → β) (l : List α) (i : ℕ)
    (hi : i < l.length) (d : β) (e : α) :
    (l.map f).getD i d = f (l.getD i e) := by
  rw [List.getD_eq_getElem _ _ (by simpa using hi),
    List.getD_eq_getElem _ _ hi]
  simp

/-- Claim C8, amended.  `expandPolygon` projects every vertex outward not
from the polygon's centroid (see `expandPolygon_centroid_cex`) but from the
*bounding-box center*: for a positive margin and a polygon with a bounding
box, the `i`-th output vertex equals the `i`-th input vertex when that
vertex sits at the bounding-box center, and otherwise lies on the ray from
the bounding-box center through the vertex with its distance from that
center increased by exactly `margin`.  The environment's `sqrt` is assumed
to be a true square root on nonnegative inputs (as `Real.sqrt` is). -/
theorem expandPolygon_spec (env : MathEnv K) (polygon : List (Pt K))
    (margin : K) (hm : 0 < margin) (bounds : BBox K)
    (hb : getPolygonBounds polygon = some bounds)
    (hsq : ∀ t : K, 0 ≤ t → 0 ≤ env.sqrt t ∧ env.sqrt t * env.sqrt t = t)
    (i : ℕ) (hi : i < polygon.length) :
    (polygon.getD i ⟨0, 0⟩ = bboxCenter bounds →
      (expandPolygon env polygon margin).getD i ⟨0, 0⟩ =
        polygon.getD i ⟨0, 0⟩) ∧
    (polygon.getD i ⟨0, 0⟩ ≠ bboxCenter bounds →
      ((expandPolygon env polygon margin).getD i ⟨0, 0⟩).x =
        (bboxCenter bounds).x +
        ((polygon.getD i ⟨0, 0⟩).x - (bboxCenter bounds).x) *
          ((env.sqrt (((polygon.getD i ⟨0, 0⟩).x - (bboxCenter bounds).x) *
              ((polygon.getD i ⟨0, 0⟩).x - (bboxCenter bounds).x) +
              ((polygon.getD i ⟨0, 0⟩).y - (bboxCenter bounds).y) *
              ((polygon.getD i ⟨0, 0⟩).y - (bboxCenter bounds).y)) + margin) /
            env.sqrt (((polygon.getD i ⟨0, 0⟩).x - (bboxCenter bounds).x) *
              ((polygon.getD i ⟨0, 0⟩).x - (bboxCenter bounds).x) +
              ((polygon.getD i ⟨0, 0⟩).y - (bboxCenter bounds).y) *
              ((polygon.getD i ⟨0, 0⟩).y - (bboxCenter bounds).y))) ∧
      ((expandPolygon env polygon margin).getD i ⟨0, 0⟩).y =
        (bboxCenter bounds).y +
        ((polygon.getD i ⟨0, 0⟩).y - (bboxCenter bounds).y) *
          ((env.sqrt (((polygon.getD i ⟨0, 0⟩).x - (bboxCenter bounds).x) *
              ((polygon.getD i ⟨0, 0⟩).x - (bboxCenter bounds).x) +
              ((polygon.getD i ⟨0, 0⟩).y - (bboxCenter bounds).y) *
              ((polygon.getD i ⟨0, 0⟩).y - (bboxCenter bounds).y)) + margin) /
            env.sqrt (((polygon.getD i ⟨0, 0⟩).x - (bboxCenter bounds).x) *
              ((polygon.getD i ⟨0, 0⟩).x - (bboxCenter bounds).x) +
              ((polygon.getD i ⟨0, 0⟩).y - (bboxCenter bounds).y) *
              ((polygon.getD i ⟨0, 0⟩).y - (bboxCenter bounds).y))) ∧
      env.sqrt
        ((((expandPolygon env polygon margin).getD i ⟨0, 0⟩).x -
            (bboxCenter bounds).x) *
          (((expandPolygon env polygon margin).getD i ⟨0, 0⟩).x -
            (bboxCenter bounds).x) +
          (((expandPolygon env polygon margin).getD i ⟨0, 0⟩).y -
            (bboxCenter bounds).y) *
          (((expandPolygon env polygon margin).getD i ⟨0, 0⟩).y -
            (bboxCenter bounds).y)) =
        env.sqrt (((polygon.getD i ⟨0, 0⟩).x - (bboxCenter bounds).x) *
          ((polygon.getD i ⟨0, 0⟩).x - (bboxCenter bounds).x) +
          ((polygon.getD i ⟨0, 0⟩).y - (bboxCenter bounds).y) *
          ((polygon.getD i ⟨0, 0⟩).y - (bboxCenter bounds).y)) + margin) := by
  have hexp : expandPolygon env polygon margin = polygon.map (fun p =>
      let dx := p.x - (bboxCenter bounds).x
      let dy := p.y - (bboxCenter bounds).y
      let distance := env.sqrt (dx * dx + dy * dy)
      if distance = 0 then p
      else ⟨(bboxCenter bounds).x + dx * ((distance + margin) / distance),
            (bboxCenter bounds).y + dy * ((distance + margin) / distance)⟩) := by
    unfold expandPolygon
    rw [if_neg (not_le.mpr hm), hb]
  set cen := bboxCenter bounds with hcen
  set p := polygon.getD i ⟨0, 0⟩ with hp
  have hq : (expandPolygon env polygon margin).getD i ⟨0, 0⟩ =
      (if env.sqrt ((p.x - cen.x) * (p.x - cen.x) +
          (p.y - cen.y) * (p.y - cen.y)) = 0 then p
       else ⟨cen.x + (p.x - cen.x) *
          ((env.sqrt ((p.x - cen.x) * (p.x - cen.x) +
            (p.y - cen.y) * (p.y - cen.y)) + margin) /
           env.sqrt ((p.x - cen.x) * (p.x - cen.x) +
            (p.y - cen.y) * (p.y - cen.y))),
             cen.y + (p.y - cen.y) *
          ((env.sqrt ((p.x - cen.x) * (p.x - cen.x) +
            (p.y - cen.y) * (p.y - cen.y)) + margin) /
           env.sqrt ((p.x - cen.x) * (p.x - cen.x) +
            (p.y - cen.y) * (p.y - cen.y)))⟩) := by
    rw [hexp, getD_map_of_lt _ _ _ hi _ ⟨0, 0⟩]
  set t := (p.x - cen.x) * (p.x - cen.x) + (p.y - cen.y) * (p.y - cen.y) with ht
  have hxnn : 0 ≤ (p.x - cen.x) * (p.x - cen.x) := mul_self_nonneg _
  have hynn : 0 ≤ (p.y - cen.y) * (p.y - cen.y) := mul_self_nonneg _
  have htnn : 0 ≤ t := by rw [ht]; linarith
  obtain ⟨hdnn, hdsq⟩ := hsq t htnn
  constructor
  · intro hpc
    have ht0 : t = 0 := by
      rw [ht, hpc]
      ring
    have hd0 : env.sqrt t = 0 := by
      have h2 : env.sqrt t * env.sqrt t = 0 := by rw [hdsq, ht0]
      exact mul_self_eq_zero.mp h2
    rw [hq, if_pos hd0]
  · intro hpc
    have ht0 : t ≠ 0 := by
      intro h
      apply hpc
      rw [ht] at h
      have hx0 : p.x - cen.x = 0 := by nlinarith
      have hy0 : p.y - cen.y = 0 := by nlinarith
      have hcc : p = ⟨cen.x, cen.y⟩ := by
        obtain ⟨px, py⟩ := p
        simp only [Pt.mk.injEq]
        exact ⟨by linarith [hx0], by linarith [hy0]⟩
      rw [hcc]
    have hd0 : env.sqrt t ≠ 0 := by
      intro h
      apply ht0
      rw [← hdsq, h, mul_zero]
    rw [hq, if_neg hd0]
    refine ⟨rfl, rfl, ?_⟩
    have hX : (p.x - cen.x) * (p.x - cen.x) + (p.y - cen.y) * (p.y - cen.y) =
        env.sqrt t * env.sqrt t := by
      rw [← ht, hdsq]
    have e1 : (cen.x + (p.x - cen.x) * ((env.sqrt t + margin) / env.sqrt t)
          - cen.x) *
        (cen.x + (p.x - cen.x) * ((env.sqrt t + margin) / env.sqrt t)
          - cen.x) +
        (cen.y + (p.y - cen.y) * ((env.sqrt t + margin) / env.sqrt t)
          - cen.y) *
        (cen.y + (p.y - cen.y) * ((env.sqrt t + margin) / env.sqrt t)
          - cen.y) =
        ((env.sqrt t + margin) / env.sqrt t * env.sqrt t) *
        ((env.sqrt t + margin) / env.sqrt t * env.sqrt t) := by
      linear_combination ((env.sqrt t + margin) / env.sqrt t) *
        ((env.sqrt t + margin) / env.sqrt t) * hX
    have e2 : (env.sqrt t + margin) / env.sqrt t * env.sqrt t =
        env.sqrt t + margin := div_mul_cancel₀ _ hd0
    rw [e1, e2]
    obtain ⟨hs2nn, hs2sq⟩ :=
      hsq ((env.sqrt t + margin) * (env.sqrt t + margin)) (mul_self_nonneg _)
    have hdm : 0 ≤ env.sqrt t + margin := by linarith
    exact (mul_self_inj hs2nn hdm).mp hs2sq


/-- Witness polygon for `expandPolygon_spec`: an axis-aligned rectangle with
bounding box `⟨0, 0, 6, 8⟩`. -/
def w8P : List (Pt ℝ) := [⟨0, 0⟩, ⟨6, 0⟩, ⟨6, 8⟩, ⟨0, 8⟩]

/-- Witness for `expandPolygon_spec`: margin `5`, vertex `0 = (0,0)` of
`w8P`, whose distance from the bounding-box center `(3,4)` is `5`; the
theorem applies with the real square root as environment. -/
theorem expandPolygon_spec_witness :
    ((0 : ℝ) < 5 ∧ getPolygonBounds w8P = some ⟨0, 0, 6, 8⟩ ∧
      0 < w8P.length) ∧
    (w8P.getD 0 ⟨0, 0⟩ ≠ bboxCenter ⟨0, 0, 6, 8⟩ →
      ((expandPolygon realEnv w8P 5).getD 0 ⟨0, 0⟩).x =
        (bboxCenter (⟨0, 0, 6, 8⟩ : BBox ℝ)).x +
        ((w8P.getD 0 ⟨0, 0⟩).x - (bboxCenter (⟨0, 0, 6, 8⟩ : BBox ℝ)).x) *
          ((realEnv.sqrt (((w8P.getD 0 ⟨0, 0⟩).x -
              (bboxCenter (⟨0, 0, 6, 8⟩ : BBox ℝ)).x) *
              ((w8P.getD 0 ⟨0, 0⟩).x - (bboxCenter (⟨0, 0, 6, 8⟩ : BBox ℝ)).x) +
              ((w8P.getD 0 ⟨0, 0⟩).y - (bboxCenter (⟨0, 0, 6, 8⟩ : BBox ℝ)).y) *
              ((w8P.getD 0 ⟨0, 0⟩).y - (bboxCenter (⟨0, 0, 6, 8⟩ : BBox ℝ)).y)) + 5) /
            realEnv.sqrt (((w8P.getD 0 ⟨0, 0⟩).x -
              (bboxCenter (⟨0, 0, 6, 8⟩ : BBox ℝ)).x) *
              ((w8P.getD 0 ⟨0, 0⟩).x - (bboxCenter (⟨0, 0, 6, 8⟩ : BBox ℝ)).x) +
              ((w8P.getD 0 ⟨0, 0⟩).y - (bboxCenter (⟨0, 0, 6, 8⟩ : BBox ℝ)).y) *
              ((w8P.getD 0 ⟨0, 0⟩).y - (bboxCenter (⟨0, 0, 6, 8⟩ : BBox ℝ)).y))) ∧
      ((expandPolygon realEnv w8P 5).getD 0 ⟨0, 0⟩).y =
        (bboxCenter (⟨0, 0, 6, 8⟩ : BBox ℝ)).y +
        ((w8P.getD 0 ⟨0, 0⟩).y - (bboxCenter (⟨0, 0, 6, 8⟩ : BBox ℝ)).y) *
          ((realEnv.sqrt (((w8P.getD 0 ⟨0, 0⟩).x -
              (bboxCenter (⟨0, 0, 6, 8⟩ : BBox ℝ)).x) *
              ((w8P.getD 0 ⟨0, 0⟩).x - (bboxCenter (⟨0, 0, 6, 8⟩ : BBox ℝ)).x) +
              ((w8P.getD 0 ⟨0, 0⟩).y - (bboxCenter (⟨0, 0, 6, 8⟩ : BBox ℝ)).y) *
              ((w8P.getD 0 ⟨0, 0⟩).y - (bboxCenter (⟨0, 0, 6, 8⟩ : BBox ℝ)).y)) + 5) /
            realEnv.sqrt (((w8P.getD 0 ⟨0, 0⟩).x -
              (bboxCenter (⟨0, 0, 6, 8⟩ : BBox ℝ)).x) *
              ((w8P.getD 0 ⟨0, 0⟩).x - (bboxCenter (⟨0, 0, 6, 8⟩ : BBox ℝ)).x) +
              ((w8P.getD 0 ⟨0, 0⟩).y - (bboxCenter (⟨0, 0, 6, 8⟩ : BBox ℝ)).y) *
              ((w8P.getD 0 ⟨0, 0⟩).y - (bboxCenter (⟨0, 0, 6, 8⟩ : BBox ℝ)).y))) ∧
      realEnv.sqrt
        ((((expandPolygon realEnv w8P 5).getD 0 ⟨0, 0⟩).x -
            (bboxCenter (⟨0, 0, 6, 8⟩ : BBox ℝ)).x) *
          (((expandPolygon realEnv w8P 5).getD 0 ⟨0, 0⟩).x -
            (bboxCenter (⟨0, 0, 6, 8⟩ : BBox ℝ)).x) +
          (((expandPolygon realEnv w8P 5).getD 0 ⟨0, 0⟩).y -
            (bboxCenter (⟨0, 0, 6, 8⟩ : BBox ℝ)).y) *
          (((expandPolygon realEnv w8P 5).getD 0 ⟨0, 0⟩).y -
            (bboxCenter (⟨0, 0, 6, 8⟩ : BBox ℝ)).y)) =
        realEnv.sqrt (((w8P.getD 0 ⟨0, 0⟩).x -
          (bboxCenter (⟨0, 0, 6, 8⟩ : BBox ℝ)).x) *
          ((w8P.getD 0 ⟨0, 0⟩).x - (bboxCenter (⟨0, 0, 6, 8⟩ : BBox ℝ)).x) +
          ((w8P.getD 0 ⟨0, 0⟩).y - (bboxCenter (⟨0, 0, 6, 8⟩ : BBox ℝ)).y) *
          ((w8P.getD 0 ⟨0, 0⟩).y - (bboxCenter (⟨0, 0, 6, 8⟩ : BBox ℝ)).y)) + 5) :=
  ⟨⟨by norm_num,
    by norm_num [getPolygonBounds, boundsStep, w8P],
    by norm_num [w8P]⟩,
   (expandPolygon_spec realEnv w8P 5 (by norm_num) ⟨0, 0, 6, 8⟩
      (by norm_num [getPolygonBounds, boundsStep, w8P])
      (fun t ht => ⟨Real.sqrt_nonneg t, Real.mul_self_sqrt ht⟩)
      0 (by norm_num [w8P])).2⟩


/-! ## The nesting algorithm (`nestingAlgorithm.ts`) -/

/-- `FontMetrics {unitsPerEm, ascender, descender}` of `types.ts`. -/
structure FontMetrics (K : Type) where
  unitsPerEm : K
  ascender : K
  descender : K
deriving DecidableEq, Repr

/-- The fields of `Character` (`types.ts`) consumed by the placement core;
the DOM-only optional fields (`element`, `bbox`) are omitted. -/
structure Character (K : Type) where
  id : String
  char : String
  x : K
  y : K
  rotation : K
  scale : K
  isComposing : Bool
deriving DecidableEq, Repr

/-- `PlacementResult {x, y, rotation, scale, score}` of `types.ts`. -/
structure PlacementResult (K : Type) where
  x : K
  y : K
  rotation : K
  scale : K
  score : K
deriving DecidableEq, Repr

/-- The part of `ShapeAnalysis` (`types.ts`) that the collision path
consumes: the hull `polygonApproximation`.  The other fields
(`boundingBox`, `pathCommands`, `area`, `centroid`) are produced for
external rendering and never read by the nesting core. -/
structure ShapeAnalysis (K : Type) where
  polygonApproximation : List (Pt K)

/-- `SVGPathAnalyzer.checkPathCollision(shape1, t1, shape2, t2, margin)`:
delegate to `checkPolygonCollision` on the two hulls. -/
def checkPathCollision (env : MathEnv K) (shape1 : ShapeAnalysis K)
    (transform1 : Transform K) (shape2 : ShapeAnalysis K)
    (transform2 : Transform K) (margin : K) : Bool :=
  checkPolygonCollision env shape1.polygonApproximation transform1
    shape2.polygonApproximation transform2 margin

/-- The `NestingAlgorithm` instance state: the constructor's viewport
dimensions and font metrics, plus the per-glyph shape analysis
(`SVGPathAnalyzer.analyzeCharacterShape` at reference size `100`) abstracted
as a pure function of the glyph — its canvas rasterization lies outside the
model, and the `characterShapeCache` memoization of a pure function is
semantically the identity. -/
structure NestingAlg (K : Type) where
  viewportWidth : K
  viewportHeight : K
  fontMetrics : FontMetrics K
  analyze : String → ShapeAnalysis K

/-- `NestingAlgorithm.getCharacterDimensions(scale)`: height
`scale * (ascender - descender) / unitsPerEm` from the font metrics, width
from the fixed empirical ratio `0.7`; returned as `(width, height)`. -/
def getCharacterDimensions (alg : NestingAlg K) (scale : K) : K × K :=
  let height := scale * (alg.fontMetrics.ascender - alg.fontMetrics.descender)
    / alg.fontMetrics.unitsPerEm
  let width := scale * (7/10)
  (width, height)

/-- `NestingAlgorithm.placeFirstCharacter(_char)`: viewport center, rotation
`0`, scale `0.8 × min(viewport)`, score `1.0`. -/
def placeFirstCharacter (alg : NestingAlg K) (_char : String) :
    PlacementResult K :=
  ⟨alg.viewportWidth / 2, alg.viewportHeight / 2, 0,
    min alg.viewportWidth alg.viewportHeight * (8/10), 1⟩

/-- `NestingAlgorithm.checkCollision(existing, newChar, x, y, rotation,
scale)`: first the rotation-aware viewport boundary test with margin `20`,
then the pairwise hull collision (margin `5`, scales divided by the
reference size `100`) against every existing character. -/
def checkCollision (env : MathEnv K) (alg : NestingAlg K)
    (existingCharacters : List (Character K)) (newChar : String)
    (x y rotation scale : K) : Bool :=
  let dims := getCharacterDimensions alg scale
  let charWidth := dims.1
  let charHeight := dims.2
  let radians := rotation * env.pi / 180
  let c := mabs (env.cos radians)
  let s := mabs (env.sin radians)
  let rotatedWidth := charWidth * c + charHeight * s
  let rotatedHeight := charWidth * s + charHeight * c
  let margin : K := 20
  if x - rotatedWidth / 2 < margin ||
     x + rotatedWidth / 2 > alg.viewportWidth - margin ||
     y - rotatedHeight / 2 < margin ||
     y + rotatedHeight / 2 > alg.viewportHeight - margin then
    true
  else
    let newCharShape := alg.analyze newChar
    let newCharTransform : Transform K := ⟨x, y, rotation, scale / 100⟩
    existingCharacters.any fun existingChar =>
      let existingCharShape := alg.analyze existingChar.char
      checkPathCollision env newCharShape newCharTransform existingCharShape
        ⟨existingChar.x, existingChar.y, existingChar.rotation,
          existingChar.scale / 100⟩ 5

/-- The binary-search loop of `NestingAlgorithm.calculateMaxScale`: at most
`fuel` further iterations of the source's 15-iteration `for` loop with state
`(low, high, maxScale)`; on collision the upper bound shrinks to the
midpoint, otherwise the lower bound and the recorded `maxScale` move up to
it, and the loop breaks once `high - low < 2` (checked after the update, as
in the source). -/
def maxScaleLoop (env : MathEnv K) (alg : NestingAlg K)
    (existingCharacters : List (Character K)) (newChar : String)
    (x y rotation : K) : ℕ → K → K → K → K
  | 0, _, _, maxScale => maxScale
  | fuel + 1, low, high, maxScale =>
    let mid := (low + high) / 2
    if checkCollision env alg existingCharacters newChar x y rotation mid then
      if mid - low < 2 then maxScale
      else maxScaleLoop env alg existingCharacters newChar x y rotation
        fuel low mid maxScale
    else
      if high - mid < 2 then mid
      else maxScaleLoop env alg existingCharacters newChar x y rotation
        fuel mid high mid

/-- `NestingAlgorithm.calculateMaxScale(existing, newChar, x, y, rotation)`:
15 binary-search iterations between the lower bound `10` and
`0.8 × min(viewport)`; `0` when every probed scale collides. -/
def calculateMaxScale (env : MathEnv K) (alg : NestingAlg K)
    (existingCharacters : List (Character K)) (newChar : String)
    (x y rotation : K) : K :=
  maxScaleLoop env alg existingCharacters newChar x y rotation 15
    10 (min alg.viewportWidth alg.viewportHeight * (8/10)) 0

/-- One rotation step of the inner loop of
`NestingAlgorithm.findBestPlacement`: rotation `r * 360 / 8`, candidate
scale from the binary search; the running best is replaced exactly when the
candidate's scale strictly exceeds it. -/
def bestForRotation (env : MathEnv K) (alg : NestingAlg K)
    (existingCharacters : List (Character K)) (newChar : String)
    (x y : K) (best : PlacementResult K) (r : ℕ) : PlacementResult K :=
  let rotation := (r : K) * 360 / 8
  let maxScale := calculateMaxScale env alg existingCharacters newChar
    x y rotation
  if best.scale < maxScale then ⟨x, y, rotation, maxScale, maxScale⟩ else best

/-- One random attempt of `findBestPlacement`: the two `Math.random()` draws
scale to a position inside the viewport, and the 8 rotation steps are folded
over the running best. -/
def bestForAttempt (env : MathEnv K) (alg : NestingAlg K)
    (existingCharacters : List (Character K)) (newChar : String)
    (best : PlacementResult K) (rnd : K × K) : PlacementResult K :=
  let x := rnd.1 * alg.viewportWidth
  let y := rnd.2 * alg.viewportHeight
  (List.range 8).foldl
    (bestForRotation env alg existingCharacters newChar x y) best

/-- `NestingAlgorithm.findBestPlacement(existing, newChar)`, with the
`attempts = 200` stream of `Math.random()` pairs passed explicitly: fold the
attempts over the initial center placement
`{x: W/2, y: H/2, rotation: 0, scale: 10, score: 0}`, then clamp the scale
up to the minimum `15` (only the scale is clamped; the other fields are
kept). -/
def findBestPlacement (env : MathEnv K) (alg : NestingAlg K)
    (existingCharacters : List (Character K)) (newChar : String)
    (randoms : List (K × K)) : PlacementResult K :=
  let bestPlacement : PlacementResult K :=
    ⟨alg.viewportWidth / 2, alg.viewportHeight / 2, 0, 10, 0⟩
  let best := randoms.foldl
    (bestForAttempt env alg existingCharacters newChar) bestPlacement
  if best.scale < 15 then ⟨best.x, best.y, best.rotation, 15, best.score⟩
  else best

/-- `NestingAlgorithm.calculateOptimalPlacement(existing, newChar)`: the
first character goes to the center at maximal scale; otherwise the random
search runs. -/
def calculateOptimalPlacement (env : MathEnv K) (alg : NestingAlg K)
    (existingCharacters : List (Character K)) (newChar : String)
    (randoms : List (K × K)) : PlacementResult K :=
  if existingCharacters.length = 0 then placeFirstCharacter alg newChar
  else findBestPlacement env alg existingCharacters newChar randoms

/-- The loop of `NestingAlgorithm.recalculateAllPlacements` over the
composing characters: each is placed against the growing `result` list by
`calculateOptimalPlacement` (the `k`-th call consumes the `k`-th random
stream) and appended with its new pose; all other fields pass through. -/
def recalcLoop (env : MathEnv K) (alg : NestingAlg K)
    (randomsFor : ℕ → List (K × K)) :
    ℕ → List (Character K) → List (Character K) → List (Character K)
  | _, result, [] => result
  | k, result, c :: cs =>
    let placement := calculateOptimalPlacement env alg result c.char
      (randomsFor k)
    recalcLoop env alg randomsFor (k + 1)
      (result ++
        [{ c with
            x := placement.x
            y := placement.y
            rotation := placement.rotation
            scale := placement.scale }]) cs

/-- `NestingAlgorithm.recalculateAllPlacements(characters)`: empty input
short-circuits to `[]`; otherwise the confirmed (non-composing) characters
pass through first, unchanged, and the composing ones are re-placed one at a
time against the growing result. -/
def recalculateAllPlacements (env : MathEnv K) (alg : NestingAlg K)
    (randomsFor : ℕ → List (K × K)) (characters : List (Character K)) :
    List (Character K) :=
  if characters.length = 0 then []
  else
    let confirmedChars := characters.filter fun c => !c.isComposing
    let composingChars := characters.filter fun c => c.isComposing
    recalcLoop env alg randomsFor 0 confirmedChars composingChars

/-! ## The layout worker (`layoutWorker.ts`) and the `main.ts` fallback -/

/-- `LayoutCalculationMessage` of `types.ts` (the `type: 'calculate'`
discriminant is implicit in the model). -/
structure LayoutCalculationMessage (K : Type) where
  characterId : String
  characters : List (Character K)
  newChar : String
  viewportWidth : K
  viewportHeight : K
  fontMetrics : FontMetrics K

/-- `LayoutResultMessage` of `types.ts` (the `type: 'result'` discriminant
is implicit in the model). -/
structure LayoutResultMessage (K : Type) where
  characterId : String
  placement : PlacementResult K
  characters : List (Character K)
deriving DecidableEq

/-- The fallback placement built in the worker's `catch` branch
(`layoutWorker.ts`): screen center, random rotation `r * 360`, scale
`Math.min(100, 0.2 × min(viewport))`, score `0`. -/
def workerFallbackPlacement (viewportWidth viewportHeight r : K) :
    PlacementResult K :=
  ⟨viewportWidth / 2, viewportHeight / 2, r * 360,
    min 100 (min viewportWidth viewportHeight * (2/10)), 0⟩

/-- The fallback placement built in the `catch` branch of
`main.ts`'s `calculateLayout`: window center, random rotation, fixed scale
`50`, score `0`. -/
def mainFallbackPlacement (innerWidth innerHeight r : K) :
    PlacementResult K :=
  ⟨innerWidth / 2, innerHeight / 2, r * 360, 50, 0⟩

/-- The worker's handler for a `'calculate'` message (`layoutWorker.ts`):
the `try` around `calculateOptimalPlacement` is abstracted as an `Except`
outcome (only the unmodelled canvas layer can throw); the handler always
posts a result message carrying the request's `characterId` — the computed
placement on success, the fallback (with the `Math.random()` draw `r`) on
failure. -/
def handleCalculateMessage (msg : LayoutCalculationMessage K)
    (outcome : Except Unit (PlacementResult K)) (r : K) :
    LayoutResultMessage K :=
  match outcome with
  | .ok placement => ⟨msg.characterId, placement, msg.characters⟩
  | .error _ =>
    ⟨msg.characterId,
      workerFallbackPlacement msg.viewportWidth msg.viewportHeight r,
      msg.characters⟩

/-- The rotated-bounding-box viewport condition of claim C1: a character of
the given scale at `(x, y)` under the given rotation has its rotated box
(width `|cos|·w + |sin|·h`, height `|sin|·w + |cos|·h`) entirely within
`[20, viewportWidth - 20] × [20, viewportHeight - 20]`. -/
def withinViewportBounds (env : MathEnv K) (alg : NestingAlg K)
    (x y rotation scale : K) : Prop :=
  let dims := getCharacterDimensions alg scale
  let c := mabs (env.cos (rotation * env.pi / 180))
  let s := mabs (env.sin (rotation * env.pi / 180))
  let rw := dims.1 * c + dims.2 * s
  let rh := dims.1 * s + dims.2 * c
  20 ≤ x - rw / 2 ∧ x + rw / 2 ≤ alg.viewportWidth - 20 ∧
  20 ≤ y - rh / 2 ∧ y + rh / 2 ≤ alg.viewportHeight - 20


/-! ## C2: the first placed character -/

/-- Claim C2, confirmed.  With no existing shapes `calculateOptimalPlacement`
returns exactly the center placement with `scale = 0.8 × min(viewport)`,
rotation `0` and score `1.0`, for every glyph, viewport, environment and
random stream; in particular a `1000 × 800` viewport yields
`{x: 500, y: 400, rotation: 0, scale: 640, score: 1.0}`. -/
theorem calculateOptimalPlacement_first (env : MathEnv K) (alg : NestingAlg K)
    (newChar : String) (randoms : List (K × K)) :
    calculateOptimalPlacement env alg [] newChar randoms =
      ⟨alg.viewportWidth / 2, alg.viewportHeight / 2, 0,
        min alg.viewportWidth alg.viewportHeight * (8/10), 1⟩ ∧
    calculateOptimalPlacement trivialEnv
        ⟨1000, 800, ⟨1000, 800, -200⟩, fun _ => ⟨[]⟩⟩ [] "A" [] =
      ⟨500, 400, 0, 640, 1⟩ := by
  constructor
  · rfl
  · norm_num [calculateOptimalPlacement, placeFirstCharacter,
      PlacementResult.mk.injEq, min_def]

/-! ## C9: the failure fallback -/

/-- Claim C9, counterexample.  The worker fallback's scale is
`min(100, 0.2 × min(viewport))` — not a fixed constant: it is `20` on a
`100 × 100` viewport and `100` on a `1000 × 1000` one. -/
theorem fallback_scale_not_fixed_cex :
    (workerFallbackPlacement (100 : ℚ) 100 0).scale = 20 ∧
    (workerFallbackPlacement (1000 : ℚ) 1000 0).scale = 100 ∧
    (workerFallbackPlacement (100 : ℚ) 100 0).scale ≠
      (workerFallbackPlacement (1000 : ℚ) 1000 0).scale := by
  norm_num [workerFallbackPlacement, min_def]

/-- Claim C9, amended.  On failure the worker always answers with a result
message carrying the request's id and the fallback placement: viewport
center, rotation `r·360 ∈ [0, 360)` for a random draw `r ∈ [0, 1)`, score
`0`, and scale `min(100, 0.2 × min(viewport))` — viewport-dependent, not a
fixed constant (the main-thread catch path does use the fixed scale `50`).
A result message is produced for every outcome, so the caller is never left
pending. -/
theorem handleCalculateMessage_spec (msg : LayoutCalculationMessage K)
    (e : Unit) (r : K) (hr0 : 0 ≤ r) (hr1 : r < 1) :
    handleCalculateMessage msg (Except.error e) r =
      ⟨msg.characterId,
        ⟨msg.viewportWidth / 2, msg.viewportHeight / 2, r * 360,
          min 100 (min msg.viewportWidth msg.viewportHeight * (2/10)), 0⟩,
        msg.characters⟩ ∧
    0 ≤ r * 360 ∧ r * 360 < 360 ∧
    (∀ outcome : Except Unit (PlacementResult K),
      (handleCalculateMessage msg outcome r).characterId =
        msg.characterId) ∧
    (∀ w h r2 : K, (mainFallbackPlacement w h r2).scale = 50) := by
  refine ⟨rfl, ?_, ?_, ?_, fun w h r2 => rfl⟩
  · exact mul_nonneg hr0 (by norm_num)
  · nlinarith
  · intro outcome
    cases outcome <;> rfl

/-- The concrete request used by the C9 witness. -/
def c9msg : LayoutCalculationMessage ℚ :=
  ⟨"char-1", [], "A", 1000, 800, ⟨1000, 800, -200⟩⟩

/-- Witness for `handleCalculateMessage_spec` at the request `c9msg` with
random draw `1/2`: the failure response is the fallback
`{x: 500, y: 400, rotation: 180, scale: 100, score: 0}`. -/
theorem handleCalculateMessage_spec_witness :
    (0 ≤ (1/2 : ℚ) ∧ (1/2 : ℚ) < 1) ∧
    handleCalculateMessage c9msg (Except.error ()) (1/2) =
      ⟨"char-1", ⟨500, 400, 180, 100, 0⟩, []⟩ := by
  refine ⟨⟨by norm_num, by norm_num⟩, ?_⟩
  have h := (handleCalculateMessage_spec c9msg () (1/2) (by norm_num)
    (by norm_num)).1
  rw [h]
  norm_num [c9msg, LayoutResultMessage.mk.injEq, PlacementResult.mk.injEq,
    min_def]


/-! ## C7 and C10: relayout structure -/

/-- The identity-carrying fields of a `Character` that relayout may never
invent or reorder: id, glyph and composition flag. -/
def charKey (c : Character K) : String × String × Bool :=
  (c.id, c.char, c.isComposing)

/-- The relayout loop appends exactly one repositioned copy of each pending
character to the accumulator, in order: its result is the accumulator
followed by a list with the same keys as the pending list. -/
theorem recalcLoop_structure (env : MathEnv K) (alg : NestingAlg K)
    (randomsFor : ℕ → List (K × K)) (rest : List (Character K)) :
    ∀ (acc : List (Character K)) (k : ℕ),
      ∃ rest2 : List (Character K),
        recalcLoop env alg randomsFor k acc rest = acc ++ rest2 ∧
        rest2.map charKey = rest.map charKey := by
  induction rest with
  | nil =>
    intro acc k
    exact ⟨[], by simp [recalcLoop], rfl⟩
  | cons c cs ih =>
    intro acc k
    simp only [recalcLoop]
    obtain ⟨cs2, h1, h2⟩ := ih (acc ++
      [{ c with
          x := (calculateOptimalPlacement env alg acc c.char
            (randomsFor k)).x
          y := (calculateOptimalPlacement env alg acc c.char
            (randomsFor k)).y
          rotation := (calculateOptimalPlacement env alg acc c.char
            (randomsFor k)).rotation
          scale := (calculateOptimalPlacement env alg acc c.char
            (randomsFor k)).scale }]) (k + 1)
    refine ⟨{ c with
        x := (calculateOptimalPlacement env alg acc c.char (randomsFor k)).x
        y := (calculateOptimalPlacement env alg acc c.char (randomsFor k)).y
        rotation := (calculateOptimalPlacement env alg acc c.char
          (randomsFor k)).rotation
        scale := (calculateOptimalPlacement env alg acc c.char
          (randomsFor k)).scale } :: cs2, ?_, ?_⟩
    · rw [h1]
      simp
    · simp only [List.map_cons, h2]
      rfl


/-- Claim C7, confirmed.  `recalculateAllPlacements` passes every confirmed
(non-composing) character through unchanged — position, rotation and scale
included — and in input order: filtering the output to the non-composing
characters returns exactly the non-composing input characters. -/
theorem recalc_preserves_confirmed (env : MathEnv K) (alg : NestingAlg K)
    (randomsFor : ℕ → List (K × K)) (characters : List (Character K)) :
    (recalculateAllPlacements env alg randomsFor characters).filter
      (fun c => !c.isComposing) =
    characters.filter (fun c => !c.isComposing) := by
  unfold recalculateAllPlacements
  by_cases h : characters.length = 0
  · rw [if_pos h, List.length_eq_zero.mp h]
  · rw [if_neg h]
    obtain ⟨rest2, h1, h2⟩ := recalcLoop_structure env alg randomsFor
      (characters.filter fun c => c.isComposing)
      (characters.filter fun c => !c.isComposing) 0
    rw [h1, List.filter_append]
    have hconf : (characters.filter fun c => !c.isComposing).filter
        (fun c => !c.isComposing) =
        characters.filter fun c => !c.isComposing := by
      rw [List.filter_eq_self]
      intro a ha
      exact (List.mem_filter.mp ha).2
    have hrest : rest2.filter (fun c => !c.isComposing) = [] := by
      rw [List.filter_eq_nil_iff]
      intro a ha
      have hmem : charKey a ∈ rest2.map charKey :=
        List.mem_map_of_mem charKey ha
      rw [h2] at hmem
      obtain ⟨b, hb, hkey⟩ := List.mem_map.mp hmem
      have hbcomp : b.isComposing = true := by
        have := (List.mem_filter.mp hb).2
        simpa using this
      have hac : a.isComposing = b.isComposing := by
        have h3 := congrArg (fun p => p.2.2) hkey
        simpa [charKey] using h3.symm
      simp [hac, hbcomp]
    rw [hconf, hrest, List.append_nil]

/-- Claim C10, confirmed (implicit claim).  `recalculateAllPlacements` does
not preserve the interleaved input order: the output is all confirmed
(non-composing) characters first, unchanged and in input order, followed by
the composing characters in input order (with possibly new poses, same id,
glyph and composing flag); the empty input yields the empty output. -/
theorem recalc_partitions (env : MathEnv K) (alg : NestingAlg K)
    (randomsFor : ℕ → List (K × K)) (characters : List (Character K)) :
    recalculateAllPlacements env alg randomsFor ([] : List (Character K))
      = [] ∧
    (recalculateAllPlacements env alg randomsFor characters).take
      ((characters.filter fun c => !c.isComposing).length) =
      characters.filter (fun c => !c.isComposing) ∧
    ((recalculateAllPlacements env alg randomsFor characters).drop
      ((characters.filter fun c => !c.isComposing).length)).map charKey =
      (characters.filter fun c => c.isComposing).map charKey := by
  refine ⟨by simp [recalculateAllPlacements], ?_⟩
  unfold recalculateAllPlacements
  by_cases h : characters.length = 0
  · rw [List.length_eq_zero.mp h]
    simp
  · rw [if_neg h]
    obtain ⟨rest2, h1, h2⟩ := recalcLoop_structure env alg randomsFor
      (characters.filter fun c => c.isComposing)
      (characters.filter fun c => !c.isComposing) 0
    rw [h1]
    constructor
    · exact List.take_left _ _
    · rw [List.drop_left, h2]


/-! ## C1: bounds of subsequent placements -/

/-- Binary-search soundness: the returned `maxScale` is either still the
initial `0` or a midpoint that passed the collision check. -/
theorem maxScaleLoop_sound (env : MathEnv K) (alg : NestingAlg K)
    (existingCharacters : List (Character K)) (newChar : String)
    (x y rotation : K) (fuel : ℕ) :
    ∀ low high maxScale,
      (maxScale = 0 ∨ checkCollision env alg existingCharacters newChar
        x y rotation maxScale = false) →
      (maxScaleLoop env alg existingCharacters newChar x y rotation
          fuel low high maxScale = 0 ∨
        checkCollision env alg existingCharacters newChar x y rotation
          (maxScaleLoop env alg existingCharacters newChar x y rotation
            fuel low high maxScale) = false) := by
  induction fuel with
  | zero =>
    intro low high maxScale h
    simpa [maxScaleLoop] using h
  | succ n ih =>
    intro low high maxScale h
    simp only [maxScaleLoop]
    by_cases hc : checkCollision env alg existingCharacters newChar x y
        rotation ((low + high) / 2) = true
    · rw [if_pos hc]
      split
      · exact h
      · exact ih low ((low + high) / 2) maxScale h
    · have hc2 : checkCollision env alg existingCharacters newChar x y
          rotation ((low + high) / 2) = false := by
        simpa using hc
      rw [if_neg hc]
      split
      · exact Or.inr hc2
      · exact ih ((low + high) / 2) high ((low + high) / 2) (Or.inr hc2)

/-- A pose that passes `checkCollision` satisfies the claim's rotated
bounding-box condition: the boundary test is the first, short-circuiting
part of the collision check. -/
theorem bounds_of_no_collision (env : MathEnv K) (alg : NestingAlg K)
    (existingCharacters : List (Character K)) (newChar : String)
    (x y rotation scale : K)
    (h : checkCollision env alg existingCharacters newChar
      x y rotation scale = false) :
    withinViewportBounds env alg x y rotation scale := by
  unfold checkCollision at h
  unfold withinViewportBounds
  by_cases hb : (x - ((getCharacterDimensions alg scale).1 *
      mabs (env.cos (rotation * env.pi / 180)) +
      (getCharacterDimensions alg scale).2 *
      mabs (env.sin (rotation * env.pi / 180))) / 2 < 20 ||
      x + ((getCharacterDimensions alg scale).1 *
      mabs (env.cos (rotation * env.pi / 180)) +
      (getCharacterDimensions alg scale).2 *
      mabs (env.sin (rotation * env.pi / 180))) / 2 >
        alg.viewportWidth - 20 ||
      y - ((getCharacterDimensions alg scale).1 *
      mabs (env.sin (rotation * env.pi / 180)) +
      (getCharacterDimensions alg scale).2 *
      mabs (env.cos (rotation * env.pi / 180))) / 2 < 20 ||
      y + ((getCharacterDimensions alg scale).1 *
      mabs (env.sin (rotation * env.pi / 180)) +
      (getCharacterDimensions alg scale).2 *
      mabs (env.cos (rotation * env.pi / 180))) / 2 >
        alg.viewportHeight - 20) = true
  · rw [if_pos hb] at h
    exact absurd h (by simp)
  · simp only [Bool.or_eq_true, decide_eq_true_eq, not_or] at hb
    obtain ⟨⟨⟨h1, h2⟩, h3⟩, h4⟩ := hb
    exact ⟨not_lt.mp h1, not_lt.mp h2, not_lt.mp h3, not_lt.mp h4⟩


/-- The invariant carried by the search's running best: the scale never
drops below the initial `10`, and any best other than the untouched initial
one records a pose that passed the collision check at its own scale. -/
def goodBest (env : MathEnv K) (alg : NestingAlg K)
    (existingCharacters : List (Character K)) (newChar : String)
    (best : PlacementResult K) : Prop :=
  10 ≤ best.scale ∧
  (best.scale = 10 ∨
    checkCollision env alg existingCharacters newChar
      best.x best.y best.rotation best.scale = false)

theorem bestForRotation_good (env : MathEnv K) (alg : NestingAlg K)
    (existingCharacters : List (Character K)) (newChar : String)
    (x y : K) (best : PlacementResult K) (r : ℕ)
    (h : goodBest env alg existingCharacters newChar best) :
    goodBest env alg existingCharacters newChar
      (bestForRotation env alg existingCharacters newChar x y best r) := by
  unfold bestForRotation
  show goodBest env alg existingCharacters newChar
    (if best.scale < calculateMaxScale env alg existingCharacters newChar
        x y ((r : K) * 360 / 8) then
      ⟨x, y, (r : K) * 360 / 8,
        calculateMaxScale env alg existingCharacters newChar x y
          ((r : K) * 360 / 8),
        calculateMaxScale env alg existingCharacters newChar x y
          ((r : K) * 360 / 8)⟩
     else best)
  have hms : calculateMaxScale env alg existingCharacters newChar x y
      ((r : K) * 360 / 8) = 0 ∨
      checkCollision env alg existingCharacters newChar x y
        ((r : K) * 360 / 8)
        (calculateMaxScale env alg existingCharacters newChar x y
          ((r : K) * 360 / 8)) = false :=
    maxScaleLoop_sound env alg existingCharacters newChar
      x y ((r : K) * 360 / 8) 15 10
      (min alg.viewportWidth alg.viewportHeight * (8/10)) 0 (Or.inl rfl)
  split
  case isTrue hlt =>
    rcases hms with h0 | hcf
    · exfalso
      rw [h0] at hlt
      have := h.1
      linarith
    · exact ⟨by have := h.1; linarith, Or.inr hcf⟩
  case isFalse => exact h

theorem foldRotations_good (env : MathEnv K) (alg : NestingAlg K)
    (existingCharacters : List (Character K)) (newChar : String)
    (x y : K) (l : List ℕ) :
    ∀ best : PlacementResult K,
      goodBest env alg existingCharacters newChar best →
      goodBest env alg existingCharacters newChar
        (l.foldl (bestForRotation env alg existingCharacters newChar x y)
          best) := by
  induction l with
  | nil => intro best h; exact h
  | cons r rs ih =>
    intro best h
    exact ih _ (bestForRotation_good env alg existingCharacters newChar
      x y best r h)

theorem foldAttempts_good (env : MathEnv K) (alg : NestingAlg K)
    (existingCharacters : List (Character K)) (newChar : String)
    (randoms : List (K × K)) :
    ∀ best : PlacementResult K,
      goodBest env alg existingCharacters newChar best →
      goodBest env alg existingCharacters newChar
        (randoms.foldl (bestForAttempt env alg existingCharacters newChar)
          best) := by
  induction randoms with
  | nil => intro best h; exact h
  | cons rnd rs ih =>
    intro best h
    refine ih _ ?_
    unfold bestForAttempt
    exact foldRotations_good env alg existingCharacters newChar _ _ _ best h

/-- Claim C1, amended.  For every placement request against a non-empty set
of existing shapes, the returned scale is at least the floor `15`; and
whenever the returned scale exceeds `15` (that is, whenever the final
minimum-scale clamp did not fire and the search's result was not the
untouched default), the rotated bounding box at the returned pose lies
entirely within `[20, viewportWidth-20] × [20, viewportHeight-20]`.  The
box condition alone is refuted by `placement_bounds_cex`: when the search
finds nothing (or finds only scales below 15), the returned default/clamped
placement was never boundary-checked. -/
theorem calculateOptimalPlacement_bounds (env : MathEnv K)
    (alg : NestingAlg K) (existingCharacters : List (Character K))
    (newChar : String) (randoms : List (K × K))
    (hne : existingCharacters ≠ []) :
    15 ≤ (calculateOptimalPlacement env alg existingCharacters newChar
      randoms).scale ∧
    ((calculateOptimalPlacement env alg existingCharacters newChar
        randoms).scale = 15 ∨
      withinViewportBounds env alg
        (calculateOptimalPlacement env alg existingCharacters newChar
          randoms).x
        (calculateOptimalPlacement env alg existingCharacters newChar
          randoms).y
        (calculateOptimalPlacement env alg existingCharacters newChar
          randoms).rotation
        (calculateOptimalPlacement env alg existingCharacters newChar
          randoms).scale) := by
  unfold calculateOptimalPlacement
  rw [if_neg (by simpa using hne)]
  unfold findBestPlacement
  have hinit : goodBest env alg existingCharacters newChar
      ⟨alg.viewportWidth / 2, alg.viewportHeight / 2, 0, 10, 0⟩ :=
    ⟨le_refl 10, Or.inl rfl⟩
  have hgood := foldAttempts_good env alg existingCharacters newChar
    randoms _ hinit
  simp only
  split
  case isTrue h => exact ⟨le_refl 15, Or.inl rfl⟩
  case isFalse h =>
    have h15 : 15 ≤ (randoms.foldl
        (bestForAttempt env alg existingCharacters newChar)
        ⟨alg.viewportWidth / 2, alg.viewportHeight / 2, 0, 10, 0⟩).scale :=
      not_lt.mp h
    refine ⟨h15, ?_⟩
    rcases eq_or_lt_of_le h15 with heq | hgt
    · exact Or.inl heq.symm
    · right
      rcases hgood.2 with h10 | hcf
      · exfalso
        rw [h10] at hgt
        linarith
      · exact bounds_of_no_collision env alg existingCharacters newChar
          _ _ _ _ hcf


/-- The viewport/metrics instance of the C1 counterexample: a `30 × 30`
viewport, so small that the margin-20 boundary band leaves no admissible
position at all. -/
def alg30 : NestingAlg ℚ := ⟨30, 30, ⟨1000, 800, -200⟩, fun _ => ⟨[]⟩⟩

/-- The single existing character of the C1 counterexample. -/
def c1ex : Character ℚ := ⟨"c0", "A", 15, 15, 0, 15, false⟩

/-- On the `30 × 30` viewport every pose of every nonnegative scale violates
the boundary test, so `checkCollision` is identically `true`. -/
theorem c1_allcollide (x y rot s : ℚ) (hs : 0 ≤ s) :
    checkCollision trivialEnv alg30 [c1ex] "X" x y rot s = true := by
  by_contra hfalse
  have h2 : checkCollision trivialEnv alg30 [c1ex] "X" x y rot s = false := by
    simpa using hfalse
  have hb := bounds_of_no_collision trivialEnv alg30 [c1ex] "X" x y rot s h2
  unfold withinViewportBounds at hb
  norm_num [getCharacterDimensions, alg30, trivialEnv, mabs] at hb
  obtain ⟨hb1, hb2, hb3, hb4⟩ := hb
  linarith

theorem c1_maxScaleLoop_zero (x y rot : ℚ) (fuel : ℕ) :
    ∀ low high : ℚ, 0 ≤ low → 0 ≤ high →
      maxScaleLoop trivialEnv alg30 [c1ex] "X" x y rot fuel low high 0 = 0 := by
  induction fuel with
  | zero =>
    intro low high _ _
    rfl
  | succ n ih =>
    intro low high hl hh
    have hmid : (0 : ℚ) ≤ (low + high) / 2 := by linarith
    simp only [maxScaleLoop]
    rw [if_pos (c1_allcollide x y rot _ hmid)]
    split
    · rfl
    · exact ih low ((low + high) / 2) hl hmid

theorem c1_calculateMaxScale_zero (x y rot : ℚ) :
    calculateMaxScale trivialEnv alg30 [c1ex] "X" x y rot = 0 := by
  unfold calculateMaxScale
  exact c1_maxScaleLoop_zero x y rot 15 10 _ (by norm_num)
    (by norm_num [alg30, min_def])

theorem c1_bestForRotation_id (x y : ℚ) (best : PlacementResult ℚ) (r : ℕ)
    (hbs : 0 ≤ best.scale) :
    bestForRotation trivialEnv alg30 [c1ex] "X" x y best r = best := by
  unfold bestForRotation
  show (if best.scale < calculateMaxScale trivialEnv alg30 [c1ex] "X" x y
      ((r : ℚ) * 360 / 8) then
      (⟨x, y, (r : ℚ) * 360 / 8,
        calculateMaxScale trivialEnv alg30 [c1ex] "X" x y ((r : ℚ) * 360 / 8),
        calculateMaxScale trivialEnv alg30 [c1ex] "X" x y
          ((r : ℚ) * 360 / 8)⟩ : PlacementResult ℚ)
    else best) = best
  rw [if_neg]
  rw [c1_calculateMaxScale_zero]
  exact not_lt.mpr hbs

theorem c1_foldRotations_id (x y : ℚ) (l : List ℕ) (best : PlacementResult ℚ)
    (hbs : 0 ≤ best.scale) :
    l.foldl (bestForRotation trivialEnv alg30 [c1ex] "X" x y) best = best := by
  induction l with
  | nil => rfl
  | cons r rs ih =>
    simp only [List.foldl_cons, c1_bestForRotation_id x y best r hbs]
    exact ih

theorem c1_foldAttempts_id (randoms : List (ℚ × ℚ))
    (best : PlacementResult ℚ) (hbs : 0 ≤ best.scale) :
    randoms.foldl (bestForAttempt trivialEnv alg30 [c1ex] "X") best = best := by
  induction randoms with
  | nil => rfl
  | cons rnd rs ih =>
    have hstep : bestForAttempt trivialEnv alg30 [c1ex] "X" best rnd = best := by
      unfold bestForAttempt
      exact c1_foldRotations_id _ _ _ best hbs
    simp only [List.foldl_cons, hstep]
    exact ih

/-- Claim C1, counterexample.  On the `30 × 30` viewport, with one existing
character and any stream of random draws (here 200 copies of `(1/2, 1/2)`),
every candidate collides, so `calculateOptimalPlacement` returns the default
center placement clamped to scale `15` — and that placement's rotated
bounding box does *not* lie within `[20, 10] × [20, 10]` (which is empty):
the claim's boundary condition fails even though the scale floor holds. -/
theorem placement_bounds_cex :
    calculateOptimalPlacement trivialEnv alg30 [c1ex] "X"
      (List.replicate 200 (1/2, 1/2)) = ⟨15, 15, 0, 15, 0⟩ ∧
    ¬ withinViewportBounds trivialEnv alg30 15 15 0 15 := by
  constructor
  · have hfold := c1_foldAttempts_id (List.replicate 200 ((1 : ℚ)/2, 1/2))
      ⟨alg30.viewportWidth / 2, alg30.viewportHeight / 2, 0, 10, 0⟩
      (by norm_num)
    unfold calculateOptimalPlacement
    rw [if_neg (by norm_num)]
    simp only [findBestPlacement, hfold]
    norm_num [alg30, PlacementResult.mk.injEq]
  · unfold withinViewportBounds
    norm_num [getCharacterDimensions, alg30, trivialEnv, mabs]

/-- The viewport/metrics instance of the C1 witness. -/
def w1alg : NestingAlg ℚ := ⟨1000, 800, ⟨1000, 800, -200⟩, fun _ => ⟨[]⟩⟩

/-- The single existing character of the C1 witness. -/
def w1ex : Character ℚ := ⟨"c0", "A", 500, 400, 0, 640, false⟩

/-- Witness for `calculateOptimalPlacement_bounds` at a concrete non-empty
request. -/
theorem calculateOptimalPlacement_bounds_witness :
    ([w1ex] ≠ ([] : List (Character ℚ))) ∧
    (15 ≤ (calculateOptimalPlacement trivialEnv w1alg [w1ex] "B" []).scale ∧
      ((calculateOptimalPlacement trivialEnv w1alg [w1ex] "B" []).scale = 15 ∨
        withinViewportBounds trivialEnv w1alg
          (calculateOptimalPlacement trivialEnv w1alg [w1ex] "B" []).x
          (calculateOptimalPlacement trivialEnv w1alg [w1ex] "B" []).y
          (calculateOptimalPlacement trivialEnv w1alg [w1ex] "B" []).rotation
          (calculateOptimalPlacement trivialEnv w1alg [w1ex] "B" []).scale)) :=
  ⟨by simp,
    calculateOptimalPlacement_bounds trivialEnv w1alg [w1ex] "B" []
      (by simp)⟩


/-! ## Claim C4: convex hull -/

theorem c4_hull1 : calculateConvexHull c4P1 = [⟨0, 0⟩, ⟨0, 2⟩, ⟨0, 0⟩] := by
  show calculateConvexHull ([⟨0, 0⟩, ⟨0, 1⟩, ⟨0, 2⟩] : List (Pt ℚ)) = _
  have hd : removeDuplicates ([⟨0, 0⟩, ⟨0, 1⟩, ⟨0, 2⟩] : List (Pt ℚ)) = [⟨0, 0⟩, ⟨0, 1⟩, ⟨0, 2⟩] := by
    norm_num [c4P1, removeDuplicates, mabs]
  have hy : (([⟨0, 0⟩, ⟨0, 1⟩, ⟨0, 2⟩] : List (Pt ℚ)).mergeSort sortPointY) =
      [⟨0, 0⟩, ⟨0, 1⟩, ⟨0, 2⟩] := by
    apply List.mergeSort_of_sorted
    norm_num [sortPointY]
  have hx : (([⟨0, 0⟩, ⟨0, 1⟩, ⟨0, 2⟩] : List (Pt ℚ)).mergeSort sortPointX) =
      [⟨0, 0⟩, ⟨0, 1⟩, ⟨0, 2⟩] := by
    apply List.mergeSort_of_sorted
    norm_num [sortPointX]
  have hm : minmaxIdx ([⟨0, 0⟩, ⟨0, 1⟩, ⟨0, 2⟩] : List (Pt ℚ)) = 2 := by
    norm_num [minmaxIdx, List.findIdx?]
  rw [calculateConvexHull]
  norm_num [hd, hy, hx, hm, chainHull2D, List.getD]

theorem c4_hull2 : calculateConvexHull c4P2 = [⟨0, 0⟩, ⟨2, 2⟩] := by
  show calculateConvexHull ([⟨0, 0⟩, ⟨1, 1⟩, ⟨2, 2⟩] : List (Pt ℚ)) = _
  have hd : removeDuplicates ([⟨0, 0⟩, ⟨1, 1⟩, ⟨2, 2⟩] : List (Pt ℚ)) = [⟨0, 0⟩, ⟨1, 1⟩, ⟨2, 2⟩] := by
    norm_num [c4P2, removeDuplicates, mabs]
  have hy : (([⟨0, 0⟩, ⟨1, 1⟩, ⟨2, 2⟩] : List (Pt ℚ)).mergeSort sortPointY) =
      [⟨0, 0⟩, ⟨1, 1⟩, ⟨2, 2⟩] := by
    apply List.mergeSort_of_sorted
    norm_num [sortPointY]
  have hx : (([⟨0, 0⟩, ⟨1, 1⟩, ⟨2, 2⟩] : List (Pt ℚ)).mergeSort sortPointX) =
      [⟨0, 0⟩, ⟨1, 1⟩, ⟨2, 2⟩] := by
    apply List.mergeSort_of_sorted
    norm_num [sortPointX]
  have hm : minmaxIdx ([⟨0, 0⟩, ⟨1, 1⟩, ⟨2, 2⟩] : List (Pt ℚ)) = 0 := by
    norm_num [minmaxIdx, List.findIdx?]
  have hM : maxminIdx ([⟨0, 0⟩, ⟨1, 1⟩, ⟨2, 2⟩] : List (Pt ℚ)) = 2 := by
    norm_num [maxminIdx, List.findIdx?]
  rw [calculateConvexHull]
  norm_num [hd, hy, hx, hm, hM, chainHull2D, List.range',
    lowerStep, upperLoop, chainPop, isLeft, List.getD]

theorem c4_hull3 : calculateConvexHull c4P3 = [⟨0, 0⟩, ⟨1, 1⟩, ⟨0, 1⟩, ⟨0, 0⟩] := by
  show calculateConvexHull ([⟨0, 0⟩, ⟨0, 1⟩, ⟨1, 1⟩] : List (Pt ℚ)) = _
  have hd : removeDuplicates ([⟨0, 0⟩, ⟨0, 1⟩, ⟨1, 1⟩] : List (Pt ℚ)) = [⟨0, 0⟩, ⟨0, 1⟩, ⟨1, 1⟩] := by
    norm_num [c4P3, removeDuplicates, mabs]
  have hy : (([⟨0, 0⟩, ⟨0, 1⟩, ⟨1, 1⟩] : List (Pt ℚ)).mergeSort sortPointY) =
      [⟨0, 0⟩, ⟨0, 1⟩, ⟨1, 1⟩] := by
    apply List.mergeSort_of_sorted
    norm_num [sortPointY]
  have hx : (([⟨0, 0⟩, ⟨0, 1⟩, ⟨1, 1⟩] : List (Pt ℚ)).mergeSort sortPointX) =
      [⟨0, 0⟩, ⟨0, 1⟩, ⟨1, 1⟩] := by
    apply List.mergeSort_of_sorted
    norm_num [sortPointX]
  have hm : minmaxIdx ([⟨0, 0⟩, ⟨0, 1⟩, ⟨1, 1⟩] : List (Pt ℚ)) = 1 := by
    norm_num [minmaxIdx, List.findIdx?]
  have hM : maxminIdx ([⟨0, 0⟩, ⟨0, 1⟩, ⟨1, 1⟩] : List (Pt ℚ)) = 2 := by
    norm_num [maxminIdx, List.findIdx?]
  rw [calculateConvexHull]
  norm_num [hd, hy, hx, hm, hM, chainHull2D, List.range',
    lowerStep, upperLoop, chainPop, isLeft, List.getD]

theorem c4_hull4 : calculateConvexHull c4P4 = [⟨0, 0⟩, ⟨3, 1⟩, ⟨4, 5⟩] := by
  show calculateConvexHull ([⟨0, 0⟩, ⟨3, 1⟩, ⟨4, 5⟩, ⟨-1/100000000000, 0⟩] : List (Pt ℚ)) = _
  have hd : removeDuplicates ([⟨0, 0⟩, ⟨3, 1⟩, ⟨4, 5⟩, ⟨-1/100000000000, 0⟩] : List (Pt ℚ)) = [⟨0, 0⟩, ⟨3, 1⟩, ⟨4, 5⟩] := by
    norm_num [c4P4, removeDuplicates, mabs]
  have hy : (([⟨0, 0⟩, ⟨3, 1⟩, ⟨4, 5⟩] : List (Pt ℚ)).mergeSort sortPointY) =
      [⟨0, 0⟩, ⟨3, 1⟩, ⟨4, 5⟩] := by
    apply List.mergeSort_of_sorted
    norm_num [sortPointY]
  have hx : (([⟨0, 0⟩, ⟨3, 1⟩, ⟨4, 5⟩] : List (Pt ℚ)).mergeSort sortPointX) =
      [⟨0, 0⟩, ⟨3, 1⟩, ⟨4, 5⟩] := by
    apply List.mergeSort_of_sorted
    norm_num [sortPointX]
  have hm : minmaxIdx ([⟨0, 0⟩, ⟨3, 1⟩, ⟨4, 5⟩] : List (Pt ℚ)) = 0 := by
    norm_num [minmaxIdx, List.findIdx?]
  have hM : maxminIdx ([⟨0, 0⟩, ⟨3, 1⟩, ⟨4, 5⟩] : List (Pt ℚ)) = 2 := by
    norm_num [maxminIdx, List.findIdx?]
  rw [calculateConvexHull]
  simp only [hd, hy, hx]
  norm_num [hm, hM, chainHull2D, List.range',
    lowerStep, upperLoop, chainPop, isLeft, List.getD]

/-- **C4** (counterexample).  `calculateConvexHull` does not always return a
strictly convex counter-clockwise cycle, and a point removed as a
near-duplicate need not lie inside the hull: a vertical collinear input
yields the degenerate cycle `[bottom, top, bottom]`; a non-vertical collinear
input yields a two-point cycle; an input whose minimum `x`-coordinate is tied
yields a cycle that repeats its starting vertex, so the wrap-around triple is
degenerate; and an input point within the `1e-10` deduplication tolerance of
a kept vertex can lie strictly outside the returned hull. -/
theorem calculateConvexHull_cex :
    (3 ≤ c4P1.length ∧ ¬ ccwTriples (calculateConvexHull c4P1)) ∧
    (3 ≤ c4P2.length ∧ ¬ ccwTriples (calculateConvexHull c4P2)) ∧
    (3 ≤ c4P3.length ∧ ¬ ccwTriples (calculateConvexHull c4P3)) ∧
    (3 ≤ c4P4.length ∧ (⟨-1/100000000000, 0⟩ : Pt ℚ) ∈ c4P4 ∧
      ¬ insideOrOn (calculateConvexHull c4P4) ⟨-1/100000000000, 0⟩) := by
  refine ⟨⟨by norm_num [c4P1], fun h => ?_⟩, ⟨by norm_num [c4P2], fun h => ?_⟩,
    ⟨by norm_num [c4P3], fun h => ?_⟩,
    ⟨by norm_num [c4P4], by norm_num [c4P4], fun h => ?_⟩⟩
  · have h0 := h 0 (by rw [c4_hull1]; norm_num)
    rw [c4_hull1] at h0
    norm_num [hullVtx, isLeft, List.getD] at h0
  · have h0 := h 0 (by rw [c4_hull2]; norm_num)
    rw [c4_hull2] at h0
    norm_num [hullVtx, isLeft, List.getD] at h0
  · have h0 := h 3 (by rw [c4_hull3]; norm_num)
    rw [c4_hull3] at h0
    norm_num [hullVtx, isLeft, List.getD] at h0
  · have h0 := h 2 (by rw [c4_hull4]; norm_num)
    rw [c4_hull4] at h0
    norm_num [hullVtx, isLeft, List.getD] at h0

theorem removeDuplicates_aux (pts acc : List (Pt K)) :
    ∀ q ∈ pts.foldl (fun unique point =>
      if unique.any (fun existing =>
          decide (mabs (existing.x - point.x) < 1 / 10000000000) &&
          decide (mabs (existing.y - point.y) < 1 / 10000000000)) then
        unique
      else unique ++ [point]) acc, q ∈ acc ∨ q ∈ pts := by
  induction pts generalizing acc with
  | nil => exact fun q hq => Or.inl hq
  | cons p rest ih =>
    intro q hq
    simp only [List.foldl_cons] at hq
    by_cases hc : acc.any (fun existing =>
        decide (mabs (existing.x - p.x) < 1 / 10000000000) &&
        decide (mabs (existing.y - p.y) < 1 / 10000000000)) = true
    · rw [if_pos hc] at hq
      rcases ih acc q hq with h | h
      · exact Or.inl h
      · exact Or.inr (List.mem_cons_of_mem _ h)
    · rw [if_neg hc] at hq
      rcases ih (acc ++ [p]) q hq with h | h
      · rcases List.mem_append.mp h with h | h
        · exact Or.inl h
        · rw [List.mem_singleton] at h
          exact Or.inr (h ▸ List.mem_cons_self _ _)
      · exact Or.inr (List.mem_cons_of_mem _ h)

theorem removeDuplicates_subset (pts : List (Pt K)) :
    ∀ q ∈ removeDuplicates pts, q ∈ pts := by
  intro q hq
  rcases removeDuplicates_aux pts [] q hq with h | h
  · exact absurd h (List.not_mem_nil q)
  · exact h

theorem minmaxIdx_lt_length (S : List (Pt K)) (hne : S ≠ []) :
    minmaxIdx S < S.length := by
  obtain ⟨p0, rest, rfl⟩ := List.exists_cons_of_ne_nil hne
  rw [minmaxIdx]
  cases hfi : rest.findIdx? (fun q => decide (q.x ≠ p0.x)) with
  | none => simp
  | some j =>
    have hj := (List.findIdx?_eq_some_iff_findIdx_eq.mp hfi).1
    simp only [List.length_cons]
    omega

theorem maxminIdx_le (S : List (Pt K)) (hne : S ≠ []) :
    maxminIdx S ≤ S.length - 1 := by
  obtain ⟨pl, rest', hRe⟩ := List.exists_cons_of_ne_nil
    (fun h => hne (List.reverse_eq_nil_iff.mp h))
  cases hfi : rest'.findIdx? (fun q => decide (q.x ≠ pl.x)) with
  | none =>
    have hm : maxminIdx S = 0 := by
      rw [maxminIdx, hRe]
      simp only [hfi]
    omega
  | some j =>
    have hm : maxminIdx S = S.length - 1 - j := by
      rw [maxminIdx, hRe]
      simp only [hfi]
    omega

theorem getD_mem_of_lt (S : List (Pt K)) (i : ℕ) (h : i < S.length) :
    S.getD i ⟨0, 0⟩ ∈ S := by
  rw [List.getD_eq_getElem S _ h]
  exact List.getElem_mem h

theorem chainPop_subset (bot : ℕ) (p : Pt K) (r : List (Pt K)) :
    ∀ v ∈ chainPop bot p r, v ∈ r := by
  induction r with
  | nil => simp [chainPop]
  | cons a r ih =>
    cases r with
    | nil => simp [chainPop]
    | cons b rest =>
      rw [chainPop]
      by_cases hc : bot + 1 < (a :: b :: rest).length ∧ ¬(0 < isLeft b a p)
      · rw [if_pos hc]
        exact fun v hv => List.mem_cons_of_mem a (ih v hv)
      · rw [if_neg hc]
        exact fun v hv => hv

theorem lowerFold_subset (S : List (Pt K)) (M : ℕ) (idxs : List ℕ) :
    ∀ (r0 : List (Pt K)), ∀ v ∈ idxs.foldl (lowerStep S M) r0,
      v ∈ r0 ∨ ∃ i ∈ idxs, v = S.getD i ⟨0, 0⟩ := by
  induction idxs with
  | nil => exact fun r0 v hv => Or.inl hv
  | cons i is ih =>
    intro r0 v hv
    rw [List.foldl_cons] at hv
    rcases ih (lowerStep S M r0 i) v hv with h | ⟨i', hi', hv'⟩
    · rw [lowerStep] at h
      by_cases hc : 0 ≤ isLeft (S.getD 0 ⟨0, 0⟩) (S.getD M ⟨0, 0⟩)
          (S.getD i ⟨0, 0⟩) ∧ i < M
      · rw [if_pos hc] at h
        exact Or.inl h
      · rw [if_neg hc] at h
        rcases List.mem_cons.mp h with rfl | h'
        · exact Or.inr ⟨i, List.mem_cons_self _ _, rfl⟩
        · exact Or.inl (chainPop_subset 0 _ r0 v h')
    · exact Or.inr ⟨i', List.mem_cons_of_mem _ hi', hv'⟩

theorem upperLoop_subset (S : List (Pt K)) (maxmax minmax bot : ℕ)
    (h0 : Pt K) (idxs : List ℕ) :
    ∀ (r0 : List (Pt K)),
      ∀ v ∈ (upperLoop S maxmax minmax bot h0 idxs r0).1,
        v ∈ r0 ∨ ∃ i ∈ idxs, v = S.getD i ⟨0, 0⟩ := by
  induction idxs with
  | nil => exact fun r0 v hv => Or.inl hv
  | cons i is ih =>
    intro r0 v hv
    rw [upperLoop] at hv
    by_cases hc : 0 ≤ isLeft (S.getD maxmax ⟨0, 0⟩) (S.getD minmax ⟨0, 0⟩)
        (S.getD i ⟨0, 0⟩) ∧ minmax < i
    · rw [if_pos hc] at hv
      rcases ih r0 v hv with h | ⟨i', hi', hv'⟩
      · exact Or.inl h
      · exact Or.inr ⟨i', List.mem_cons_of_mem _ hi', hv'⟩
    · rw [if_neg hc] at hv
      simp only [] at hv
      by_cases hc2 : (S.getD i ⟨0, 0⟩).x = h0.x ∧ (S.getD i ⟨0, 0⟩).y = h0.y
      · rw [if_pos hc2] at hv
        exact Or.inl (chainPop_subset bot _ r0 v hv)
      · rw [if_neg hc2] at hv
        rcases ih _ v hv with h | ⟨i', hi', hv'⟩
        · rcases List.mem_cons.mp h with rfl | h'
          · exact Or.inr ⟨i, List.mem_cons_self _ _, rfl⟩
          · exact Or.inl (chainPop_subset bot _ r0 v h')
        · exact Or.inr ⟨i', List.mem_cons_of_mem _ hi', hv'⟩

theorem chainHull2D_subset (S : List (Pt K)) (hne : S ≠ []) :
    ∀ v ∈ chainHull2D S, v ∈ S := by
  intro v hv
  have hn0 : 0 < S.length := List.length_pos.mpr hne
  have hm := minmaxIdx_lt_length S hne
  have hM := maxminIdx_le S hne
  rw [chainHull2D] at hv
  by_cases hdeg : minmaxIdx S = S.length - 1
  · rw [if_pos hdeg] at hv
    rcases List.mem_cons.mp hv with rfl | hv'
    · exact getD_mem_of_lt S 0 hn0
    · rcases List.mem_append.mp hv' with h | h
      · by_cases hy : (S.getD (minmaxIdx S) ⟨0, 0⟩).y ≠ (S.getD 0 ⟨0, 0⟩).y
        · rw [if_pos hy] at h
          rw [List.mem_singleton] at h
          exact h ▸ getD_mem_of_lt S _ hm
        · rw [if_neg hy] at h
          cases h
      · rw [List.mem_singleton] at h
        exact h ▸ getD_mem_of_lt S 0 hn0
  · rw [if_neg hdeg] at hv
    set lowerStack :=
      (List.range' (minmaxIdx S + 1) (maxminIdx S - minmaxIdx S)).foldl
        (lowerStep S (maxminIdx S)) [S.getD 0 ⟨0, 0⟩] with hls
    set stack2 := if S.length - 1 ≠ maxminIdx S then
        S.getD (S.length - 1) ⟨0, 0⟩ :: lowerStack
      else lowerStack with hs2
    have hstack2 : ∀ w ∈ stack2, w ∈ S := by
      intro w hw
      have hlower : ∀ u ∈ lowerStack, u ∈ S := by
        intro u hu
        rcases lowerFold_subset S (maxminIdx S) _ _ u hu with h | ⟨i, hi, rfl⟩
        · rw [List.mem_singleton] at h
          exact h ▸ getD_mem_of_lt S 0 hn0
        · rw [List.mem_range'_1] at hi
          exact getD_mem_of_lt S i (by omega)
      rw [hs2] at hw
      by_cases hmm : S.length - 1 ≠ maxminIdx S
      · rw [if_pos hmm] at hw
        rcases List.mem_cons.mp hw with rfl | hw'
        · exact getD_mem_of_lt S _ (by omega)
        · exact hlower w hw'
      · rw [if_neg hmm] at hw
        exact hlower w hw
    have hres : ∀ w ∈ (upperLoop S (S.length - 1) (minmaxIdx S)
        (stack2.length - 1) (S.getD 0 ⟨0, 0⟩)
        ((List.range' (minmaxIdx S) (maxminIdx S - minmaxIdx S)).reverse)
        stack2).1, w ∈ S := by
      intro w hw
      rcases upperLoop_subset S _ _ _ _ _ _ w hw with h | ⟨i, hi, rfl⟩
      · exact hstack2 w h
      · rw [List.mem_reverse, List.mem_range'_1] at hi
        exact getD_mem_of_lt S i (by omega)
    by_cases hearly : (upperLoop S (S.length - 1) (minmaxIdx S)
        (stack2.length - 1) (S.getD 0 ⟨0, 0⟩)
        ((List.range' (minmaxIdx S) (maxminIdx S - minmaxIdx S)).reverse)
        stack2).2 = true
    · rw [if_pos hearly] at hv
      rw [List.mem_reverse] at hv
      exact hres v hv
    · rw [if_neg hearly] at hv
      rw [List.mem_reverse] at hv
      by_cases hm0 : minmaxIdx S ≠ 0
      · rw [if_pos hm0] at hv
        rcases List.mem_cons.mp hv with rfl | hv'
        · exact getD_mem_of_lt S 0 hn0
        · exact hres v hv'
      · rw [if_neg hm0] at hv
        exact hres v hv

/-- Every vertex of the polygon returned by `calculateConvexHull` is one of
the input points: the algorithm never invents coordinates, on any input. -/
theorem calculateConvexHull_vertices (points : List (Pt K)) :
    ∀ v ∈ calculateConvexHull points, v ∈ points := by
  intro v hv
  rw [calculateConvexHull] at hv
  by_cases h3 : points.length < 3
  · rw [if_pos h3] at hv
    exact hv
  · rw [if_neg h3] at hv
    simp only [] at hv
    by_cases hu3 : (removeDuplicates points).length < 3
    · rw [if_pos hu3] at hv
      exact removeDuplicates_subset points v hv
    · rw [if_neg hu3] at hv
      have hperm : (((removeDuplicates points).mergeSort sortPointY).mergeSort
          sortPointX).Perm (removeDuplicates points) :=
        (List.mergeSort_perm _ sortPointX).trans (List.mergeSort_perm _ sortPointY)
      have hne : ((removeDuplicates points).mergeSort sortPointY).mergeSort
          sortPointX ≠ [] := by
        intro h
        have := hperm.length_eq
        rw [h] at this
        simp at this
        omega
      have := chainHull2D_subset _ hne v hv
      exact removeDuplicates_subset points v (hperm.subset this)

/-- The hull vertex `(0,0)` of the computed hull of `c4P4` is indeed an
input point. -/
theorem calculateConvexHull_vertices_witness :
    (⟨0, 0⟩ : Pt ℚ) ∈ c4P4 :=
  calculateConvexHull_vertices c4P4 ⟨0, 0⟩ (by rw [c4_hull4]; simp)

/-- Strict lexicographic order on points (x, then y). -/
def lexLt (a b : Pt K) : Prop :=
  a.x < b.x ∨ (a.x = b.x ∧ a.y < b.y)

/-- The separation guaranteed between two points kept by `removeDuplicates`. -/
def farApart (a b : Pt K) : Prop :=
  ¬ (mabs (a.x - b.x) < 1 / 10000000000 ∧ mabs (a.y - b.y) < 1 / 10000000000)

theorem farApart_ne {a b : Pt K} (h : farApart a b) : a ≠ b := by
  rintro rfl
  exact h (by norm_num [mabs])

theorem removeDuplicates_far_aux (pts acc : List (Pt K))
    (hacc : acc.Pairwise farApart) :
    (pts.foldl (fun unique point =>
      if unique.any (fun existing =>
          decide (mabs (existing.x - point.x) < 1 / 10000000000) &&
          decide (mabs (existing.y - point.y) < 1 / 10000000000)) then
        unique
      else unique ++ [point]) acc).Pairwise farApart ∧
    ∀ q ∈ pts.foldl (fun unique point =>
      if unique.any (fun existing =>
          decide (mabs (existing.x - point.x) < 1 / 10000000000) &&
          decide (mabs (existing.y - point.y) < 1 / 10000000000)) then
        unique
      else unique ++ [point]) acc, q ∈ acc ∨ q ∈ pts := by
  induction pts generalizing acc with
  | nil => exact ⟨hacc, fun q hq => Or.inl hq⟩
  | cons p rest ih =>
    simp only [List.foldl_cons]
    by_cases hc : acc.any (fun existing =>
        decide (mabs (existing.x - p.x) < 1 / 10000000000) &&
        decide (mabs (existing.y - p.y) < 1 / 10000000000)) = true
    · rw [if_pos hc]
      refine ⟨(ih acc hacc).1, fun q hq => ?_⟩
      rcases (ih acc hacc).2 q hq with h | h
      · exact Or.inl h
      · exact Or.inr (List.mem_cons_of_mem _ h)
    · rw [if_neg hc]
      have hacc2 : (acc ++ [p]).Pairwise farApart := by
        rw [List.pairwise_append]
        refine ⟨hacc, List.pairwise_singleton _ _, fun a ha b hb => ?_⟩
        rw [List.mem_singleton] at hb
        subst hb
        simp only [List.any_eq_true, not_exists, not_and, Bool.and_eq_true,
          decide_eq_true_eq] at hc
        push_neg at hc
        exact fun hcon => absurd hcon.2 (not_lt.mpr (hc a ha hcon.1))
      refine ⟨(ih _ hacc2).1, fun q hq => ?_⟩
      rcases (ih _ hacc2).2 q hq with h | h
      · rcases List.mem_append.mp h with h | h
        · exact Or.inl h
        · rw [List.mem_singleton] at h
          exact Or.inr (h ▸ List.mem_cons_self _ _)
      · exact Or.inr (List.mem_cons_of_mem _ h)

theorem removeDuplicates_pairwise (pts : List (Pt K)) :
    (removeDuplicates pts).Pairwise farApart :=
  (removeDuplicates_far_aux pts [] (List.Pairwise.nil)).1

theorem removeDuplicates_nodup (pts : List (Pt K)) :
    (removeDuplicates pts).Nodup :=
  (removeDuplicates_pairwise pts).imp farApart_ne

/-- The sorted point list actually handed to `chainHull2D` by
`calculateConvexHull`. -/
def sortedPts (pts : List (Pt K)) : List (Pt K) :=
  ((removeDuplicates pts).mergeSort sortPointY).mergeSort sortPointX

theorem sortedPts_perm (pts : List (Pt K)) :
    (sortedPts pts).Perm (removeDuplicates pts) :=
  (List.mergeSort_perm _ sortPointX).trans (List.mergeSort_perm _ sortPointY)

theorem sortedPts_nodup (pts : List (Pt K)) : (sortedPts pts).Nodup :=
  ((sortedPts_perm pts).nodup_iff).mpr (removeDuplicates_nodup pts)

theorem sortPointX_trans : ∀ a b c : Pt K,
    sortPointX a b = true → sortPointX b c = true → sortPointX a c = true := by
  intro a b c hab hbc
  simp only [sortPointX, decide_eq_true_eq] at *
  exact le_trans hab hbc

theorem sortPointX_total : ∀ a b : Pt K,
    (sortPointX a b || sortPointX b a) = true := by
  intro a b
  simp only [sortPointX, Bool.or_eq_true, decide_eq_true_eq]
  exact le_total a.x b.x

theorem sortPointY_trans : ∀ a b c : Pt K,
    sortPointY a b = true → sortPointY b c = true → sortPointY a c = true := by
  intro a b c hab hbc
  simp only [sortPointY, decide_eq_true_eq] at *
  exact le_trans hab hbc

theorem sortPointY_total : ∀ a b : Pt K,
    (sortPointY a b || sortPointY b a) = true := by
  intro a b
  simp only [sortPointY, Bool.or_eq_true, decide_eq_true_eq]
  exact le_total a.y b.y

theorem sortedPts_pairwise_x (pts : List (Pt K)) :
    (sortedPts pts).Pairwise (fun a b => a.x ≤ b.x) := by
  have := List.sorted_mergeSort sortPointX_trans sortPointX_total
    ((removeDuplicates pts).mergeSort sortPointY)
  exact this.imp (by simp only [sortPointX, decide_eq_true_eq]; exact fun h => h)

/-- Two distinct members of any list occur in one of the two orders as an
embedded pair. -/
theorem pair_sublist_of_mem {l : List (Pt K)} {a b : Pt K}
    (ha : a ∈ l) (hb : b ∈ l) (hne : a ≠ b) :
    [a, b].Sublist l ∨ [b, a].Sublist l := by
  induction l with
  | nil => exact absurd ha (List.not_mem_nil a)
  | cons c t ih =>
    rcases List.mem_cons.mp ha with rfl | ha'
    · have hb' : b ∈ t := by
        rcases List.mem_cons.mp hb with rfl | hb'
        · exact absurd rfl hne
        · exact hb'
      exact Or.inl ((List.singleton_sublist.mpr hb').cons₂ a)
    · rcases List.mem_cons.mp hb with rfl | hb'
      · exact Or.inr ((List.singleton_sublist.mpr ha').cons₂ b)
      · rcases ih ha' hb' with h | h
        · exact Or.inl (h.cons c)
        · exact Or.inr (h.cons c)

/-- In a duplicate-free list the two orders of an embedded pair are mutually
exclusive. -/
theorem nodup_pair_sublist {l : List (Pt K)} {a b : Pt K} (hnd : l.Nodup)
    (h1 : [a, b].Sublist l) (h2 : [b, a].Sublist l) : a = b := by
  induction l with
  | nil => exact absurd (List.sublist_nil.mp h1) (by simp)
  | cons c t ih =>
    cases h1 with
    | cons _ h1' =>
      cases h2 with
      | cons _ h2' => exact ih (List.nodup_cons.mp hnd).2 h1' h2'
      | cons₂ _ h2' =>
        have hb : b ∈ t := h1'.subset (by simp)
        exact absurd hb (List.nodup_cons.mp hnd).1
    | cons₂ _ h1' =>
      cases h2 with
      | cons _ h2' =>
        have ha : a ∈ t := h2'.subset (by simp)
        exact absurd ha (List.nodup_cons.mp hnd).1
      | cons₂ _ h2' => rfl

/-- Stability of the second (stable) sort: members of `sortedPts` with equal
`x` keep their `y`-order from the first sort. -/
theorem sortedPts_tie_stable (pts : List (Pt K)) :
    (sortedPts pts).Pairwise (fun a b => a.x = b.x → a.y ≤ b.y) := by
  set Y := (removeDuplicates pts).mergeSort sortPointY with hY
  have hYsorted : Y.Pairwise (fun a b => a.y ≤ b.y) := by
    have := List.sorted_mergeSort sortPointY_trans sortPointY_total
      (removeDuplicates pts)
    exact this.imp (by simp only [sortPointY, decide_eq_true_eq]; exact fun h => h)
  have hYnodup : Y.Nodup := by
    rw [hY, List.Perm.nodup_iff (List.mergeSort_perm _ _)]
    exact removeDuplicates_nodup pts
  rw [List.pairwise_iff_forall_sublist]
  intro a b hab hx
  by_contra hy
  push_neg at hy
  have hne : a ≠ b := by
    rintro rfl
    exact absurd rfl (ne_of_gt hy)
  have haY : a ∈ Y := (List.mergeSort_perm Y sortPointX).subset
    (hab.subset (by simp))
  have hbY : b ∈ Y := (List.mergeSort_perm Y sortPointX).subset
    (hab.subset (by simp))
  rcases pair_sublist_of_mem haY hbY hne with h | h
  · rw [List.pairwise_iff_forall_sublist] at hYsorted
    exact absurd (hYsorted h) (not_le.mpr hy)
  · have hsx : [b, a].Pairwise (fun p q => sortPointX p q = true) := by
      simp only [List.pairwise_cons, List.mem_singleton, sortPointX,
        decide_eq_true_eq, List.pairwise_singleton]
      exact ⟨fun c hc => hc ▸ le_of_eq hx.symm, by simp, List.Pairwise.nil⟩
    have hba : [b, a].Sublist (sortedPts pts) :=
      List.sublist_mergeSort sortPointX_trans sortPointX_total hsx h
    exact hne (nodup_pair_sublist (sortedPts_nodup pts) hab hba)

/-- The list handed to `chainHull2D` is strictly lexicographically sorted. -/
theorem sortedPts_pairwise_lexLt (pts : List (Pt K)) :
    (sortedPts pts).Pairwise lexLt := by
  have h1 := sortedPts_pairwise_x pts
  have h2 := sortedPts_tie_stable pts
  have h3 : (sortedPts pts).Pairwise (· ≠ ·) := sortedPts_nodup pts
  have h12 := h1.and (h2.and h3)
  refine h12.imp ?_
  rintro a b ⟨hx, hxy, hne⟩
  rcases lt_or_eq_of_le hx with h | h
  · exact Or.inl h
  · refine Or.inr ⟨h, lt_of_le_of_ne (hxy h) fun hy => hne ?_⟩
    cases a; cases b
    simp only [Pt.mk.injEq]
    exact ⟨h, hy⟩

/-! ## Index scans of `chainHull2D` -/

theorem minmaxIdx_x_eq (S : List (Pt K)) (hne : S ≠ []) (i : ℕ)
    (hi : i ≤ minmaxIdx S) (hilen : i < S.length) (h0 : 0 < S.length) :
    S[i].x = S[0].x := by
  obtain ⟨p0, rest, rfl⟩ := List.exists_cons_of_ne_nil hne
  rcases Nat.eq_zero_or_pos i with rfl | hpos
  · rfl
  rw [minmaxIdx] at hi
  have hb : i - 1 < rest.length := by
    simp only [List.length_cons] at hilen
    omega
  have hS : (p0 :: rest)[i] = rest[i - 1] := by
    rcases i with _ | k
    · omega
    · simp
  rw [hS]
  cases hfi : rest.findIdx? (fun q => decide (q.x ≠ p0.x)) with
  | none =>
    have := List.findIdx?_eq_none_iff.mp hfi (rest[i - 1]) (List.getElem_mem _)
    simpa using this
  | some j =>
    simp only [hfi] at hi
    have hj := List.findIdx?_eq_some_iff_findIdx_eq.mp hfi
    have hj2 := hj.2
    have hlt : i - 1 < List.findIdx (fun q => decide (q.x ≠ p0.x)) rest := by
      omega
    have := List.not_of_lt_findIdx hlt
    simpa using this

theorem minmaxIdx_x_ne (S : List (Pt K)) (hne : S ≠ [])
    (hlt : minmaxIdx S + 1 < S.length) (h0 : 0 < S.length) :
    S[minmaxIdx S + 1].x ≠ S[0].x := by
  obtain ⟨p0, rest, rfl⟩ := List.exists_cons_of_ne_nil hne
  cases hfi : rest.findIdx? (fun q => decide (q.x ≠ p0.x)) with
  | none =>
    have hm : minmaxIdx (p0 :: rest) = rest.length := by
      rw [minmaxIdx, hfi]
    rw [hm] at hlt
    simp at hlt
  | some j =>
    have hm : minmaxIdx (p0 :: rest) = j := by
      rw [minmaxIdx, hfi]
    simp only [hm] at hlt ⊢
    have hj := List.findIdx?_eq_some_iff_findIdx_eq.mp hfi
    have hbj : j < rest.length := by
      simp only [List.length_cons] at hlt
      omega
    have hblt : j + 1 < (p0 :: rest).length := by simpa using hlt
    have hS : (p0 :: rest)[j + 1] = rest[j] := by
      simp
    rw [hS]
    have := @List.findIdx_getElem _ (fun q => decide (q.x ≠ p0.x)) rest
      (by omega)
    simp only [hj.2] at this
    simpa using this

theorem maxminIdx_x_eq (S : List (Pt K)) (hne : S ≠ []) (i : ℕ)
    (hi : maxminIdx S ≤ i) (hilen : i < S.length) (hl : S.length - 1 < S.length) :
    S[i].x = S[S.length - 1].x := by
  obtain ⟨pl, rest', hRe⟩ := List.exists_cons_of_ne_nil
    (fun h => hne (List.reverse_eq_nil_iff.mp h))
  have hrlen : rest'.length = S.length - 1 := by
    have := congrArg List.length hRe
    simp only [List.length_reverse, List.length_cons] at this
    omega
  have hpl : pl = S[S.length - 1] := by
    have hb0 : 0 < S.reverse.length := by
      rw [hRe]
      simp
    have h0 : S.reverse[0] = pl := by
      simp [hRe]
    rw [← h0, List.getElem_reverse]
    simp
  have hrk : ∀ (k : ℕ) (hk : k < rest'.length),
      rest'[k] = S[S.length - 2 - k] := by
    intro k hk
    have hbk : k + 1 < S.reverse.length := by
      rw [hRe]
      simp only [List.length_cons]
      omega
    have h1 : S.reverse[k + 1] = rest'[k] := by
      simp [hRe]
    rw [← h1, List.getElem_reverse]
    congr 1
    omega
  rcases Nat.lt_or_ge i (S.length - 1) with hi2 | hi2
  case inr =>
    have heq : i = S.length - 1 := by omega
    subst heq
    rfl
  case inl =>
    rw [← hpl]
    cases hfi : rest'.findIdx? (fun q => decide (q.x ≠ pl.x)) with
    | none =>
      have hbm : S.length - 2 - i < rest'.length := by omega
      have hmem : rest'[S.length - 2 - i] ∈ rest' := List.getElem_mem _
      have hfalse := List.findIdx?_eq_none_iff.mp hfi _ hmem
      rw [hrk (S.length - 2 - i) (by omega)] at hfalse
      have heq : S.length - 2 - (S.length - 2 - i) = i := by omega
      simp only [heq] at hfalse
      simpa using hfalse
    | some j =>
      have hm : maxminIdx S = S.length - 1 - j := by
        rw [maxminIdx, hRe]
        simp only [hfi]
      have hj := List.findIdx?_eq_some_iff_findIdx_eq.mp hfi
      have hk : S.length - 2 - i < List.findIdx (fun q => decide (q.x ≠ pl.x)) rest' := by
        omega
      have hfalse := List.not_of_lt_findIdx hk
      rw [hrk (S.length - 2 - i) (by omega)] at hfalse
      have heq : S.length - 2 - (S.length - 2 - i) = i := by omega
      simp only [heq] at hfalse
      simpa using hfalse

theorem maxminIdx_x_ne (S : List (Pt K)) (hne : S ≠ [])
    (hpos : 0 < maxminIdx S) (hl : S.length - 1 < S.length)
    (hm1 : maxminIdx S - 1 < S.length) :
    S[maxminIdx S - 1].x ≠ S[S.length - 1].x := by
  obtain ⟨pl, rest', hRe⟩ := List.exists_cons_of_ne_nil
    (fun h => hne (List.reverse_eq_nil_iff.mp h))
  have hrlen : rest'.length = S.length - 1 := by
    have := congrArg List.length hRe
    simp only [List.length_reverse, List.length_cons] at this
    omega
  have hpl : pl = S[S.length - 1] := by
    have hb0 : 0 < S.reverse.length := by
      rw [hRe]
      simp
    have h0 : S.reverse[0] = pl := by
      simp [hRe]
    rw [← h0, List.getElem_reverse]
    simp
  have hrk : ∀ (k : ℕ) (hk : k < rest'.length),
      rest'[k] = S[S.length - 2 - k] := by
    intro k hk
    have hbk : k + 1 < S.reverse.length := by
      rw [hRe]
      simp only [List.length_cons]
      omega
    have h1 : S.reverse[k + 1] = rest'[k] := by
      simp [hRe]
    rw [← h1, List.getElem_reverse]
    congr 1
    omega
  cases hfi : rest'.findIdx? (fun q => decide (q.x ≠ pl.x)) with
  | none =>
    have hm : maxminIdx S = 0 := by
      rw [maxminIdx, hRe]
      simp only [hfi]
    omega
  | some j =>
    have hm : maxminIdx S = S.length - 1 - j := by
      rw [maxminIdx, hRe]
      simp only [hfi]
    have hj := List.findIdx?_eq_some_iff_findIdx_eq.mp hfi
    have htrue := @List.findIdx_getElem _ (fun q => decide (q.x ≠ pl.x)) rest'
      (by omega)
    simp only [hj.2] at htrue
    rw [hrk j hj.1] at htrue
    simp only [hpl] at htrue
    have heq : maxminIdx S - 1 = S.length - 2 - j := by omega
    simp only [heq]
    simpa using htrue

/-! ## Core cross-product sign lemmas -/

theorem cross_mul_key (ux uy vx vy zx zy : K) :
    (vx * zy - zx * vy) * ux =
      -((ux * vy - vx * uy) * zx) + (ux * zy - zx * uy) * vx := by
  ring

theorem alg_ascend (ux uy vx vy zx zy : K)
    (hux : ux ≤ 0) (hvx : 0 ≤ vx) (hzx : zx ≤ 0)
    (huy : ux = 0 → uy < 0)
    (huv : ux * vy - vx * uy < 0)
    (huz : ux * zy - zx * uy ≤ 0) :
    0 ≤ vx * zy - zx * vy := by
  rcases lt_or_eq_of_le hux with h | h
  · by_contra hX
    push_neg at hX
    nlinarith [cross_mul_key ux uy vx vy zx zy, mul_pos_of_neg_of_neg hX h,
      mul_nonneg (neg_nonneg.mpr huv.le) (neg_nonneg.mpr hzx),
      mul_nonneg (neg_nonneg.mpr huz) hvx]
  · exfalso
    have huy' := huy h
    rw [h] at huv
    nlinarith [mul_nonneg hvx (neg_nonneg.mpr huy'.le)]

theorem alg_descend (ux uy vvx vvy wx wy : K)
    (hux : ux ≤ 0) (hvvx : 0 ≤ vvx) (hwx : 0 ≤ wx)
    (hvvy : vvx = 0 → 0 < vvy)
    (hwy : wx = 0 → 0 ≤ wy)
    (huvv : ux * vvy - vvx * uy < 0)
    (hvvw : 0 ≤ vvx * wy - wx * vvy) :
    ux * wy - wx * uy ≤ 0 := by
  rcases lt_or_eq_of_le hvvx with h | h
  · by_contra hX
    push_neg at hX
    nlinarith [cross_mul_key vvx vvy wx wy ux uy, mul_pos hX h,
      mul_nonneg hvvw (neg_nonneg.mpr hux),
      mul_nonneg (neg_nonneg.mpr huvv.le) hwx]
  · have hvvy' := hvvy h.symm
    rw [← h] at hvvw
    have h1 : wx * vvy ≤ 0 := by nlinarith
    have h2 : 0 ≤ wx * vvy := mul_nonneg hwx hvvy'.le
    have hwx0 : wx = 0 :=
      (mul_eq_zero.mp (le_antisymm h1 h2)).resolve_right (ne_of_gt hvvy')
    have hwy' := hwy hwx0
    rw [hwx0]
    simp only [zero_mul, sub_zero, mul_zero]
    exact mul_nonpos_of_nonpos_of_nonneg hux hwy'

theorem alg_transfer (ux uy vx vy zx zy : K)
    (hux : 0 < ux) (hzx : 0 ≤ zx) (hvx : 0 ≤ vx)
    (huz : 0 ≤ ux * zy - zx * uy)
    (huv : ux * vy - vx * uy ≤ 0) :
    0 ≤ vx * zy - zx * vy := by
  by_contra hX
  push_neg at hX
  nlinarith [cross_mul_key ux uy vx vy zx zy,
    mul_nonneg (neg_nonneg.mpr huv) hzx, mul_nonneg huz hvx]

theorem alg_transfer' (ux uy vx vy zx zy : K)
    (hux : 0 ≤ ux) (huy : ux = 0 → 0 < uy)
    (hzx : 0 < zx) (hvx : 0 ≤ vx)
    (huz : 0 ≤ ux * zy - zx * uy)
    (huv : ux * vy - vx * uy ≤ 0) :
    0 ≤ vx * zy - zx * vy := by
  rcases lt_or_eq_of_le hux with h | h
  · exact alg_transfer ux uy vx vy zx zy h hzx.le hvx huz huv
  · exfalso
    have huy' := huy h.symm
    rw [← h] at huz
    nlinarith [mul_pos hzx huy']

/-! ## Point-level cross lemmas -/

theorem isLeft_cyclic (a b c : Pt K) : isLeft a b c = isLeft b c a := by
  unfold isLeft
  ring

theorem isLeft_swap (a b c : Pt K) : isLeft a c b = -isLeft a b c := by
  unfold isLeft
  ring

theorem isLeft_self_12 (a c : Pt K) : isLeft a a c = 0 := by
  unfold isLeft
  ring

theorem isLeft_self_13 (a b : Pt K) : isLeft a b a = 0 := by
  unfold isLeft
  ring

theorem isLeft_self_23 (a b : Pt K) : isLeft a b b = 0 := by
  unfold isLeft
  ring

/-- Going down a convex chain: if `v` (not beyond `b`) is on or left of the
edge `c → b`, and `a` turns strictly left at `b` over that edge, then `v` is
on or left of the edge `b → a`. -/
theorem isLeft_ascend (b c a v : Pt K)
    (h1 : c.x ≤ b.x) (h2 : b.x ≤ a.x) (h3 : v.x ≤ b.x)
    (h4 : c.x = b.x → c.y < b.y)
    (h5 : 0 < isLeft c b a) (h6 : 0 ≤ isLeft c b v) :
    0 ≤ isLeft b a v := by
  have key := alg_ascend (c.x - b.x) (c.y - b.y) (a.x - b.x) (a.y - b.y)
    (v.x - b.x) (v.y - b.y) (by linarith) (by linarith) (by linarith)
    (fun h => by have := h4 (by linarith); linarith)
    (by unfold isLeft at h5; nlinarith) (by unfold isLeft at h6; nlinarith)
  unfold isLeft
  nlinarith [key]

/-- Going up a convex chain: if `p` (beyond `b`) is on or left of the edge
`b → a`, and the chain turned strictly left at `b`, then `p` is on or left of
the edge `c → b`. -/
theorem isLeft_descend (b c a p : Pt K)
    (h1 : c.x ≤ b.x) (h2 : b.x ≤ a.x) (h3 : b.x ≤ p.x)
    (h4 : a.x = b.x → b.y < a.y)
    (h5 : p.x = b.x → b.y ≤ p.y)
    (h6 : 0 < isLeft c b a) (h7 : 0 ≤ isLeft b a p) :
    0 ≤ isLeft c b p := by
  have key := alg_descend (c.x - b.x) (c.y - b.y) (a.x - b.x) (a.y - b.y)
    (p.x - b.x) (p.y - b.y) (by linarith) (by linarith) (by linarith)
    (fun h => by have := h4 (by linarith); linarith)
    (fun h => by have := h5 (by linarith); linarith)
    (by unfold isLeft at h6; nlinarith) (by unfold isLeft at h7; nlinarith)
  unfold isLeft
  nlinarith [key]

/-- Cover transfer at a pop: if `q` (at or right of `w`) is on or left of the
edge `w → u`, and `p` is on or right of it, then `q` is on or left of the new
edge `w → p`. -/
theorem isLeft_transfer (w u p q : Pt K)
    (h1 : w.x < u.x) (h2 : w.x ≤ q.x) (h3 : w.x ≤ p.x)
    (h4 : 0 ≤ isLeft w u q) (h5 : isLeft w u p ≤ 0) :
    0 ≤ isLeft w p q := by
  have key := alg_transfer (u.x - w.x) (u.y - w.y) (p.x - w.x) (p.y - w.y)
    (q.x - w.x) (q.y - w.y) (by linarith) (by linarith) (by linarith)
    (by unfold isLeft at h4; nlinarith) (by unfold isLeft at h5; nlinarith)
  unfold isLeft
  nlinarith [key]

/-- Variant of `isLeft_transfer` allowing `u` directly above `w`, for `q`
strictly right of `w`. -/
theorem isLeft_transfer' (w u p q : Pt K)
    (h1 : w.x ≤ u.x) (h1' : w.x = u.x → w.y < u.y)
    (h2 : w.x < q.x) (h3 : w.x ≤ p.x)
    (h4 : 0 ≤ isLeft w u q) (h5 : isLeft w u p ≤ 0) :
    0 ≤ isLeft w p q := by
  have key := alg_transfer' (u.x - w.x) (u.y - w.y) (p.x - w.x) (p.y - w.y)
    (q.x - w.x) (q.y - w.y) (by linarith)
    (fun h => by have := h1' (by linarith); linarith)
    (by linarith) (by linarith)
    (by unfold isLeft at h4; nlinarith) (by unfold isLeft at h5; nlinarith)
  unfold isLeft
  nlinarith [key]

/-! ## Stack predicates -/

/-- `q` is on or left of every edge of the chain whose stack (top first) is
`r`; edges are directed from deeper entries to the top. -/
def chainLeft : List (Pt K) → Pt K → Prop
  | a :: b :: rest, q => 0 ≤ isLeft b a q ∧ chainLeft (b :: rest) q
  | _, _ => True

/-- Every push onto the stack `r` (top first) made a strict left turn. -/
def StackCCW : List (Pt K) → Prop
  | a :: b :: c :: rest => 0 < isLeft c b a ∧ StackCCW (b :: c :: rest)
  | _ => True

theorem lexLt_trans {a b c : Pt K} (h1 : lexLt a b) (h2 : lexLt b c) :
    lexLt a c := by
  rcases h1 with h1 | ⟨h1, h1'⟩ <;> rcases h2 with h2 | ⟨h2, h2'⟩
  · exact Or.inl (lt_trans h1 h2)
  · exact Or.inl (h2 ▸ h1)
  · exact Or.inl (h1 ▸ h2)
  · exact Or.inr ⟨h1.trans h2, lt_trans h1' h2'⟩

theorem lexLt.x_le {a b : Pt K} (h : lexLt a b) : a.x ≤ b.x := by
  rcases h with h | ⟨h, _⟩
  · exact h.le
  · exact h.le

theorem lexLt.y_lt {a b : Pt K} (h : lexLt a b) (hx : a.x = b.x) : a.y < b.y := by
  rcases h with h | ⟨_, h⟩
  · exact absurd hx (ne_of_lt h)
  · exact h

theorem lexLt_irrefl {a : Pt K} : ¬ lexLt a a := by
  rintro (h | ⟨_, h⟩) <;> exact lt_irrefl _ h

theorem chainLeft_tail {r : List (Pt K)} {a : Pt K} {q : Pt K}
    (h : chainLeft (a :: r) q) : chainLeft r q := by
  cases r with
  | nil => trivial
  | cons b rest => exact h.2

theorem chainLeft_suffix {d r' : List (Pt K)} {q : Pt K}
    (h : chainLeft (d ++ r') q) : chainLeft r' q := by
  induction d with
  | nil => exact h
  | cons a d ih => exact ih (chainLeft_tail h)

theorem StackCCW_tail {r : List (Pt K)} {a : Pt K}
    (h : StackCCW (a :: r)) : StackCCW r := by
  cases r with
  | nil => trivial
  | cons b rest =>
    cases rest with
    | nil => trivial
    | cons c rest' => exact h.2

/-- Extending on-or-left of the top edge downward through a strictly convex,
sorted stack: a point lexicographically beyond the whole stack that is on or
left of the top edge is on or left of every edge. -/
theorem chainLeft_extend {r : List (Pt K)} {q : Pt K}
    (hccw : StackCCW r) (hord : r.Pairwise (fun a b => lexLt b a))
    (hbey : ∀ w ∈ r, lexLt w q)
    (htop : ∀ a b rest, r = a :: b :: rest → 0 ≤ isLeft b a q) :
    chainLeft r q := by
  induction r with
  | nil => trivial
  | cons a r ih =>
    cases r with
    | nil => trivial
    | cons b rest =>
      refine ⟨htop a b rest rfl, ?_⟩
      have hord' := (List.pairwise_cons.mp hord).2
      have hbey' : ∀ w ∈ b :: rest, lexLt w q := fun w hw =>
        hbey w (List.mem_cons_of_mem _ hw)
      refine ih (StackCCW_tail hccw) hord' hbey' ?_
      rintro b2 c rest2 heq
      injection heq with heq1 heq2
      subst heq1
      subst heq2
      have h6 : 0 < isLeft c b a := hccw.1
      have hba : lexLt b a := (List.pairwise_cons.mp hord).1 b (by simp)
      have hcb : lexLt c b := (List.pairwise_cons.mp hord').1 c (by simp)
      have hbq : lexLt b q := hbey' b (by simp)
      exact isLeft_descend b c a q hcb.x_le hba.x_le hbq.x_le
        (fun hx => hba.y_lt hx.symm) (fun hx => (hbq.y_lt hx.symm).le)
        h6 (htop a b (c :: rest2) rfl)

/-- Every stack entry is on or left of every edge of its own stack. -/
theorem stack_self_contained {r : List (Pt K)}
    (hccw : StackCCW r) (hord : r.Pairwise (fun a b => lexLt b a)) :
    ∀ v ∈ r, chainLeft r v := by
  induction r with
  | nil => intro v hv; cases hv
  | cons a r ih =>
    intro v hv
    cases r with
    | nil => trivial
    | cons b rest =>
      have hord' := (List.pairwise_cons.mp hord).2
      rcases List.mem_cons.mp hv with rfl | hv'
      · refine ⟨le_of_eq (isLeft_self_23 b v).symm, ?_⟩
        refine chainLeft_extend (StackCCW_tail hccw) hord' ?_ ?_
        · exact fun w hw => (List.pairwise_cons.mp hord).1 w hw
        · rintro b2 c rest2 heq
          injection heq with heq1 heq2
          subst heq1
          subst heq2
          exact hccw.1.le
      · have hIH := ih (StackCCW_tail hccw) hord' v hv'
        refine ⟨?_, hIH⟩
        rcases List.mem_cons.mp hv' with rfl | hv'' 
        · exact le_of_eq (isLeft_self_13 v a).symm
        · cases rest with
          | nil => cases hv''
          | cons c rest' =>
            have hba : lexLt b a := (List.pairwise_cons.mp hord).1 b (by simp)
            have hcb : lexLt c b := (List.pairwise_cons.mp hord').1 c (by simp)
            have hvb : lexLt v b := (List.pairwise_cons.mp hord').1 v hv''
            exact isLeft_ascend b c a v hcb.x_le hba.x_le hvb.x_le
              (fun hx => hcb.y_lt hx) hccw.1 hIH.1

/-! ## `chainPop` structure -/

theorem chainPop_spec (bot : ℕ) (p : Pt K) (r : List (Pt K)) :
    ∃ d, r = d ++ chainPop bot p r ∧
      (∀ k < d.length,
        isLeft (r.getD (k + 1) ⟨0, 0⟩) (r.getD k ⟨0, 0⟩) p ≤ 0) ∧
      (bot + 1 < (chainPop bot p r).length →
        0 < isLeft ((chainPop bot p r).getD 1 ⟨0, 0⟩)
          ((chainPop bot p r).getD 0 ⟨0, 0⟩) p) := by
  induction r with
  | nil =>
    refine ⟨[], by simp [chainPop], by simp, ?_⟩
    rw [chainPop]
    intro h
    simp at h
  | cons a r ih =>
    cases r with
    | nil =>
      refine ⟨[], by simp [chainPop], by simp, ?_⟩
      rw [chainPop]
      intro h
      simp at h
    | cons b rest =>
      rw [chainPop]
      by_cases hc : bot + 1 < (a :: b :: rest).length ∧ ¬(0 < isLeft b a p)
      · rw [if_pos hc]
        obtain ⟨d', hd', hcond', hbrk'⟩ := ih
        refine ⟨a :: d', by rw [List.cons_append, ← hd'], ?_, hbrk'⟩
        intro k hk
        cases k with
        | zero =>
          simpa using not_lt.mp hc.2
        | succ k =>
          simp only [List.length_cons] at hk
          simpa using hcond' k (by omega)
      · rw [if_neg hc]
        refine ⟨[], by simp, by simp, ?_⟩
        intro hlen
        simp only [List.length_cons] at hlen
        rcases not_and_or.mp hc with h | h
        · exact absurd (by simpa using hlen) h
        · simpa using not_not.mp h

theorem chainPop_length (bot : ℕ) (p : Pt K) (r : List (Pt K))
    (h : bot + 1 ≤ r.length) : bot + 1 ≤ (chainPop bot p r).length := by
  induction r with
  | nil => simpa [chainPop] using h
  | cons a r ih =>
    cases r with
    | nil => simpa [chainPop] using h
    | cons b rest =>
      rw [chainPop]
      by_cases hc : bot + 1 < (a :: b :: rest).length ∧ ¬(0 < isLeft b a p)
      · rw [if_pos hc]
        exact ih (by simpa using Nat.lt_succ_iff.mp (by simpa using hc.1))
      · rw [if_neg hc]
        exact h

theorem chainPop_ne_nil (bot : ℕ) (p : Pt K) (r : List (Pt K))
    (h : r ≠ []) : chainPop bot p r ≠ [] := by
  induction r with
  | nil => exact absurd rfl h
  | cons a r ih =>
    cases r with
    | nil => simp [chainPop]
    | cons b rest =>
      rw [chainPop]
      by_cases hc : bot + 1 < (a :: b :: rest).length ∧ ¬(0 < isLeft b a p)
      · rw [if_pos hc]
        exact ih (by simp)
      · rw [if_neg hc]
        simp

theorem chainPop_getLast? (bot : ℕ) (p : Pt K) (r : List (Pt K))
    (h : r ≠ []) : (chainPop bot p r).getLast? = r.getLast? := by
  obtain ⟨d, hd, -, -⟩ := chainPop_spec bot p r
  conv_rhs => rw [hd]
  exact (List.getLast?_append_of_ne_nil d (chainPop_ne_nil bot p r h)).symm

/-! ## Helpers for the chain invariants -/

theorem StackCCW_suffix {d r' : List (Pt K)} (h : StackCCW (d ++ r')) :
    StackCCW r' := by
  induction d with
  | nil => exact h
  | cons a d ih => exact ih (StackCCW_tail h)

theorem sorted_getD_lex (S : List (Pt K)) (hS : S.Pairwise lexLt) {i j : ℕ}
    (hij : i < j) (hj : j < S.length) :
    lexLt (S.getD i ⟨0, 0⟩) (S.getD j ⟨0, 0⟩) := by
  rw [List.getD_eq_getElem S _ (lt_trans hij hj), List.getD_eq_getElem S _ hj]
  exact List.pairwise_iff_getElem.mp hS i j _ _ hij

theorem mem_lexLe_headD {r : List (Pt K)} {v : Pt K}
    (hord : r.Pairwise (fun a b => lexLt b a)) (hv : v ∈ r) :
    v = r.headD ⟨0, 0⟩ ∨ lexLt v (r.headD ⟨0, 0⟩) := by
  cases r with
  | nil => cases hv
  | cons a r =>
    rcases List.mem_cons.mp hv with rfl | hv'
    · exact Or.inl rfl
    · exact Or.inr ((List.pairwise_cons.mp hord).1 v hv')

theorem mem_x_le_headD {r : List (Pt K)} {v : Pt K}
    (hord : r.Pairwise (fun a b => lexLt b a)) (hv : v ∈ r) :
    v.x ≤ (r.headD ⟨0, 0⟩).x := by
  rcases mem_lexLe_headD hord hv with rfl | h
  · exact le_refl _
  · exact h.x_le

theorem chainLeft_boundary {d : List (Pt K)} {w : Pt K} {rest : List (Pt K)}
    {q u : Pt K} (hu : d.getLast? = some u)
    (h : chainLeft (d ++ w :: rest) q) :
    0 ≤ isLeft w u q := by
  induction d with
  | nil => cases hu
  | cons a d ih =>
    cases d with
    | nil =>
      cases hu
      exact h.1
    | cons a' d' =>
      rw [List.getLast?_cons_cons] at hu
      exact ih hu (chainLeft_tail h)

theorem getD_append_firstRight {d r' : List (Pt K)} (hne : r' ≠ []) :
    (d ++ r').getD d.length ⟨0, 0⟩ = r'.headD ⟨0, 0⟩ := by
  cases r' with
  | nil => exact absurd rfl hne
  | cons a r' =>
    rw [List.getD_eq_getElem _ _ (by simp)]
    rw [List.getElem_append_right (le_refl d.length)]
    simp

theorem getD_append_lastLeft {d r' : List (Pt K)} {u : Pt K}
    (hu : d.getLast? = some u) :
    (d ++ r').getD (d.length - 1) ⟨0, 0⟩ = u := by
  cases d with
  | nil => cases hu
  | cons a d =>
    have hlen : 0 < (a :: d).length := by simp
    rw [List.getD_eq_getElem _ _ (by simp [List.length_append]; omega)]
    rw [List.getElem_append_left (by simp)]
    rw [List.getLast?_eq_getElem?] at hu
    have : (a :: d).length - 1 < (a :: d).length := by simp
    rw [List.getElem?_eq_getElem this] at hu
    exact (Option.some_injective _ hu).symm ▸ rfl

theorem headD_mem {r : List (Pt K)} (hne : r ≠ []) : r.headD ⟨0, 0⟩ ∈ r := by
  cases r with
  | nil => exact absurd rfl hne
  | cons a t => exact List.mem_cons_self a t

theorem getLast?_of_ne_nil {l : List (Pt K)} (h : l ≠ []) :
    ∃ u, l.getLast? = some u := by
  cases l with
  | nil => exact absurd rfl h
  | cons a t => exact ⟨(a :: t).getLast (by simp), List.getLast?_eq_getLast _ _⟩

/-- Transfer of the off-stack containment clause across one pop-and-push of
the lower chain (`bot = 0`): a processed point on or left of every stack edge
and not beyond the stack top stays on or left of every edge after the pop
loop runs for `p` and `p` is pushed. -/
theorem clause3_transfer (p q A : Pt K) (r : List (Pt K))
    (hne : r ≠ [])
    (hord : r.Pairwise (fun a b => lexLt b a))
    (hlast : r.getLast? = some A)
    (hbey : ∀ v ∈ r, lexLt v p)
    (hq : chainLeft r q)
    (hqx : q.x ≤ (r.headD ⟨0, 0⟩).x)
    (hqA : A.x ≤ q.x)
    (hcol : q.x = A.x → (q = A ∨ A.y < q.y))
    (hpA : A.x < p.x) :
    chainLeft (p :: chainPop 0 p r) q ∧ q.x ≤ p.x := by
  obtain ⟨d, hd, hpops, hbrk⟩ := chainPop_spec 0 p r
  have hr'ne : chainPop 0 p r ≠ [] := chainPop_ne_nil 0 p r hne
  have hq2 : chainLeft (d ++ chainPop 0 p r) q := hd ▸ hq
  have hq' : chainLeft (chainPop 0 p r) q := chainLeft_suffix hq2
  have hqp : q.x ≤ p.x := le_trans hqx (hbey _ (headD_mem hne)).x_le
  refine ⟨?_, hqp⟩
  cases hr'eq : chainPop 0 p r with
  | nil => exact absurd hr'eq hr'ne
  | cons w rrest =>
    have hsubr : (w :: rrest).Sublist r := by
      rw [hd, hr'eq]
      exact List.sublist_append_right d _
    have hwr : w ∈ r := hsubr.subset (List.mem_cons_self _ _)
    have hwp : lexLt w p := hbey w hwr
    refine ⟨?_, by rw [← hr'eq]; exact hq'⟩
    rcases lt_or_le w.x q.x with hqw | hqw
    · -- q strictly right of w, so the pop loop ran at least once
      have hdne : d ≠ [] := by
        rintro rfl
        have hw : r.headD ⟨0, 0⟩ = w := by
          rw [hd, List.nil_append, hr'eq]
          rfl
        rw [hw] at hqx
        exact absurd hqx (not_le.mpr hqw)
      obtain ⟨u, hu⟩ := getLast?_of_ne_nil hdne
      have hklt : d.length - 1 < d.length := by
        cases d
        · exact absurd rfl hdne
        · simp
      have hpop := hpops (d.length - 1) hklt
      have hident : r.getD (d.length - 1 + 1) ⟨0, 0⟩ = w := by
        have h1 : d.length - 1 + 1 = d.length := by
          cases d
          · exact absurd rfl hdne
          · simp
        rw [h1, hd, hr'eq, getD_append_firstRight (by simp)]
        rfl
      have hident2 : r.getD (d.length - 1) ⟨0, 0⟩ = u := by
        rw [hd]
        exact getD_append_lastLeft hu
      rw [hident, hident2] at hpop
      have hbound : 0 ≤ isLeft w u q := by
        apply chainLeft_boundary hu
        rw [hr'eq] at hq2
        exact hq2
      have hsubuw : [u, w].Sublist r := by
        obtain ⟨d₀, rfl⟩ := List.getLast?_eq_some_iff.mp hu
        rw [hd, hr'eq, List.append_assoc, List.singleton_append]
        have h2 : [u, w].Sublist (u :: w :: rrest) :=
          List.Sublist.cons₂ _ (List.Sublist.cons₂ _ (List.nil_sublist _))
        exact h2.trans (List.sublist_append_right d₀ _)
      have hwu : lexLt w u := List.pairwise_iff_forall_sublist.mp hord hsubuw
      exact isLeft_transfer' w u p q hwu.x_le (fun hx => hwu.y_lt hx) hqw
        hwp.x_le hbound hpop
    · cases rrest with
      | nil =>
        have hwA : w = A := by
          have hgl := chainPop_getLast? 0 p r hne
          rw [hr'eq, hlast] at hgl
          simpa using hgl
        rw [hwA] at hqw ⊢
        have hqxA : q.x = A.x := le_antisymm hqw hqA
        rcases hcol hqxA with hqA2 | hy
        · rw [hqA2]
          exact le_of_eq (isLeft_self_13 A p).symm
        · have h1 : (q.x - A.x) * (p.y - A.y) = 0 := by
            rw [hqxA]
            ring
          unfold isLeft
          nlinarith [mul_pos (sub_pos.mpr hpA) (sub_pos.mpr hy), h1]
      | cons w8 rrest' =>
        have hbr := hbrk (by rw [hr'eq]; simp)
        rw [hr'eq] at hbr
        simp only [List.getD_cons_succ, List.getD_cons_zero] at hbr
        have hq'w : 0 ≤ isLeft w8 w q := by
          rw [hr'eq] at hq'
          exact hq'.1
        have hsord : (w :: w8 :: rrest').Pairwise (fun a b => lexLt b a) :=
          List.Pairwise.sublist hsubr hord
        have hw8w : lexLt w8 w := (List.pairwise_cons.mp hsord).1 w8 (by simp)
        exact isLeft_ascend w w8 p q hw8w.x_le hwp.x_le hqw
          (fun hx => hw8w.y_lt hx) hbr hq'w

/-! ## The lower-chain invariant -/

/-- Invariant of the lower-hull loop of `chainHull2D` after processing scan
indices up to `t`: the stack `r` (top first) starts at `A = P[minmin]`, holds
sorted points with indices in `{0} ∪ (m, t]`, is strictly convex, and every
processed point is above the lower line, on the stack, or on-or-left of every
stack edge and not beyond the stack top. -/
structure LowInv (S : List (Pt K)) (A B : Pt K) (m M t : ℕ)
    (r : List (Pt K)) : Prop where
  ne : r ≠ []
  bottom : r.getLast? = some A
  mem : ∀ v ∈ r, v = A ∨ ∃ j, m < j ∧ j ≤ t ∧ j < S.length ∧
    v = S.getD j ⟨0, 0⟩ ∧ (j < M → isLeft A B v < 0)
  ord : r.Pairwise (fun a b => lexLt b a)
  ccw : StackCCW r
  contain : ∀ j, j ≤ t → j < S.length →
    0 ≤ isLeft A B (S.getD j ⟨0, 0⟩) ∨ S.getD j ⟨0, 0⟩ ∈ r ∨
      (chainLeft r (S.getD j ⟨0, 0⟩) ∧
        (S.getD j ⟨0, 0⟩).x ≤ (r.headD ⟨0, 0⟩).x)

theorem lowInv_skip {S : List (Pt K)} {A B : Pt K} {m M t : ℕ}
    {r : List (Pt K)} (inv : LowInv S A B m M t r)
    (habove : t + 1 < S.length → 0 ≤ isLeft A B (S.getD (t + 1) ⟨0, 0⟩)) :
    LowInv S A B m M (t + 1) r where
  ne := inv.ne
  bottom := inv.bottom
  mem := fun v hv => by
    rcases inv.mem v hv with h | ⟨j, h1, h2, h3, h4, h5⟩
    · exact Or.inl h
    · exact Or.inr ⟨j, h1, by omega, h3, h4, h5⟩
  ord := inv.ord
  ccw := inv.ccw
  contain := fun j hj hjn => by
    rcases Nat.lt_or_ge j (t + 1) with h | h
    · exact inv.contain j (by omega) hjn
    · have : j = t + 1 := by omega
      subst this
      exact Or.inl (habove hjn)

theorem lowInv_push {S : List (Pt K)} {A B : Pt K} {m M t : ℕ}
    {r : List (Pt K)}
    (hS : S.Pairwise lexLt)
    (hA : A = S.getD 0 ⟨0, 0⟩)
    (hxm' : ∀ j, m < j → j < S.length → A.x < (S.getD j ⟨0, 0⟩).x)
    (inv : LowInv S A B m M t r)
    (ht : m ≤ t)
    (hin : t + 1 < S.length)
    (hbelow : t + 1 < M → isLeft A B (S.getD (t + 1) ⟨0, 0⟩) < 0) :
    LowInv S A B m M (t + 1)
      (S.getD (t + 1) ⟨0, 0⟩ :: chainPop 0 (S.getD (t + 1) ⟨0, 0⟩) r) := by
  set p := S.getD (t + 1) ⟨0, 0⟩ with hp
  obtain ⟨d, hd, hpops, hbrk⟩ := chainPop_spec 0 p r
  have hr'ne : chainPop 0 p r ≠ [] := chainPop_ne_nil 0 p r inv.ne
  have hr'sub : (chainPop 0 p r).Sublist r := by
    conv_rhs => rw [hd]
    exact List.sublist_append_right d _
  have hbey : ∀ v ∈ r, lexLt v p := by
    intro v hv
    rcases inv.mem v hv with rfl | ⟨j, hmj, hjt, hjn, rfl, -⟩
    · rw [hA]
      exact sorted_getD_lex S hS (Nat.succ_pos t) hin
    · exact sorted_getD_lex S hS (by omega) hin
  have hpA : A.x < p.x := hxm' (t + 1) (by omega) hin
  have hqA : ∀ j, j < S.length → A.x ≤ (S.getD j ⟨0, 0⟩).x := by
    intro j hjn
    rcases Nat.eq_zero_or_pos j with rfl | hpos
    · rw [hA]
    · rw [hA]
      exact (sorted_getD_lex S hS hpos hjn).x_le
  have hcol : ∀ j, j < S.length → (S.getD j ⟨0, 0⟩).x = A.x →
      (S.getD j ⟨0, 0⟩ = A ∨ A.y < (S.getD j ⟨0, 0⟩).y) := by
    intro j hjn hx
    rcases Nat.eq_zero_or_pos j with rfl | hpos
    · exact Or.inl hA.symm
    · refine Or.inr ?_
      have := sorted_getD_lex S hS hpos hjn
      rw [← hA] at this
      exact this.y_lt hx.symm
  refine ⟨by simp, ?_, ?_, ?_, ?_, ?_⟩
  · rw [show p :: chainPop 0 p r = [p] ++ chainPop 0 p r from rfl,
      (List.getLast?_append_of_ne_nil [p] hr'ne), chainPop_getLast? 0 p r inv.ne]
    exact inv.bottom
  · intro v hv
    rcases List.mem_cons.mp hv with rfl | hv'
    · exact Or.inr ⟨t + 1, by omega, le_refl _, hin, rfl, hbelow⟩
    · rcases inv.mem v (hr'sub.subset hv') with h | ⟨j, h1, h2, h3, h4, h5⟩
      · exact Or.inl h
      · exact Or.inr ⟨j, h1, by omega, h3, h4, h5⟩
  · rw [List.pairwise_cons]
    exact ⟨fun v hv => hbey v (hr'sub.subset hv),
      List.Pairwise.sublist hr'sub inv.ord⟩
  · cases hr'eq : chainPop 0 p r with
    | nil => exact absurd hr'eq hr'ne
    | cons w rrest =>
      cases rrest with
      | nil => trivial
      | cons w8 rrest' =>
        have hbr := hbrk (by rw [hr'eq]; simp)
        rw [hr'eq] at hbr
        simp only [List.getD_cons_succ, List.getD_cons_zero] at hbr
        have hsfx : StackCCW (w :: w8 :: rrest') := by
          rw [← hr'eq]
          conv at hd in r => skip
          have := inv.ccw
          rw [hd] at this
          exact StackCCW_suffix this
        exact ⟨hbr, hsfx⟩
  · intro j hj hjn
    rcases Nat.lt_or_ge j (t + 1) with hjt | hjt
    case inr =>
      have : j = t + 1 := by omega
      subst this
      exact Or.inr (Or.inl (List.mem_cons_self _ _))
    case inl =>
      have hjt' : j ≤ t := by omega
      have htrans : chainLeft r (S.getD j ⟨0, 0⟩) →
          (S.getD j ⟨0, 0⟩).x ≤ (r.headD ⟨0, 0⟩).x →
          0 ≤ isLeft A B (S.getD j ⟨0, 0⟩) ∨
            S.getD j ⟨0, 0⟩ ∈ p :: chainPop 0 p r ∨
            (chainLeft (p :: chainPop 0 p r) (S.getD j ⟨0, 0⟩) ∧
              (S.getD j ⟨0, 0⟩).x ≤ ((p :: chainPop 0 p r).headD ⟨0, 0⟩).x) := by
        intro hcl hxh
        have := clause3_transfer p (S.getD j ⟨0, 0⟩) A r inv.ne inv.ord
          inv.bottom hbey hcl hxh (hqA j hjn) (hcol j hjn) hpA
        exact Or.inr (Or.inr ⟨this.1, this.2⟩)
      rcases inv.contain j hjt' hjn with h1 | h2 | ⟨h3a, h3b⟩
      · exact Or.inl h1
      · by_cases hq' : S.getD j ⟨0, 0⟩ ∈ chainPop 0 p r
        · exact Or.inr (Or.inl (List.mem_cons_of_mem _ hq'))
        · exact htrans (stack_self_contained inv.ccw inv.ord _ h2)
            (mem_x_le_headD inv.ord h2)
      · exact htrans h3a h3b

theorem lowerFold_inv (S : List (Pt K)) (A B : Pt K) (m M : ℕ)
    (hS : S.Pairwise lexLt)
    (hA : A = S.getD 0 ⟨0, 0⟩)
    (hB : B = S.getD M ⟨0, 0⟩)
    (hxm' : ∀ j, m < j → j < S.length → A.x < (S.getD j ⟨0, 0⟩).x) :
    ∀ (count t : ℕ) (r : List (Pt K)),
      LowInv S A B m M t r → m ≤ t → t + count < S.length →
      LowInv S A B m M (t + count)
        ((List.range' (t + 1) count).foldl (lowerStep S M) r) := by
  intro count
  induction count with
  | zero =>
    intro t r inv _ _
    simpa using inv
  | succ c ih =>
    intro t r inv hmt hcnt
    rw [List.range'_succ, List.foldl_cons]
    have hstep : LowInv S A B m M (t + 1) (lowerStep S M r (t + 1)) := by
      rw [lowerStep]
      by_cases hc : 0 ≤ isLeft (S.getD 0 ⟨0, 0⟩) (S.getD M ⟨0, 0⟩)
          (S.getD (t + 1) ⟨0, 0⟩) ∧ t + 1 < M
      · rw [if_pos hc]
        exact lowInv_skip inv (fun _ => by rw [hA, hB]; exact hc.1)
      · rw [if_neg hc]
        refine lowInv_push hS hA hxm' inv hmt (by omega) ?_
        intro hM
        rcases not_and_or.mp hc with h | h
        · rw [hA, hB]
          exact lt_of_not_le h
        · exact absurd hM h
    have := ih (t + 1) _ hstep (by omega) (by omega)
    have heq : t + 1 + c = t + (c + 1) := by omega
    rw [heq] at this
    exact this

/-! ## Lower chain: initialization and final head -/

theorem lowInv_init (S : List (Pt K)) (A B : Pt K) (m M : ℕ)
    (hS : S.Pairwise lexLt)
    (hA : A = S.getD 0 ⟨0, 0⟩)
    (hB : B = S.getD M ⟨0, 0⟩)
    (hxm : ∀ j, j ≤ m → j < S.length → (S.getD j ⟨0, 0⟩).x = A.x)
    (hxm' : ∀ j, m < j → j < S.length → A.x < (S.getD j ⟨0, 0⟩).x)
    (hMm : m < M) (hMn : M < S.length) :
    LowInv S A B m M m [A] where
  ne := by simp
  bottom := rfl
  mem := fun v hv => Or.inl (List.mem_singleton.mp hv)
  ord := List.pairwise_singleton _ _
  ccw := trivial
  contain := fun j hj hjn => by
    refine Or.inl ?_
    have hxq : (S.getD j ⟨0, 0⟩).x = A.x := hxm j hj hjn
    have hyq : A.y ≤ (S.getD j ⟨0, 0⟩).y := by
      rcases Nat.eq_zero_or_pos j with rfl | hpos
      · rw [hA]
      · have := sorted_getD_lex S hS hpos hjn
        rw [← hA] at this
        exact (this.y_lt hxq.symm).le
    have hBx : A.x < B.x := hB ▸ hxm' M hMm hMn
    have h0 : ((S.getD j ⟨0, 0⟩).x - A.x) * (B.y - A.y) = 0 := by
      rw [hxq]
      ring
    unfold isLeft
    nlinarith [mul_nonneg (le_of_lt (sub_pos.mpr hBx)) (sub_nonneg.mpr hyq), h0]

theorem lowerStack_head (S : List (Pt K)) (M m : ℕ) (r0 : List (Pt K))
    (hMm : m < M) :
    ((List.range' (m + 1) (M - m)).foldl (lowerStep S M) r0).headD ⟨0, 0⟩ =
      S.getD M ⟨0, 0⟩ := by
  have hsplit : M - m = (M - m - 1) + 1 := by omega
  rw [hsplit, List.range'_concat, List.foldl_append]
  have hlast : m + 1 + 1 * (M - m - 1) = M := by omega
  rw [hlast, List.foldl_cons, List.foldl_nil, lowerStep]
  rw [if_neg (by intro h; omega)]
  rfl

/-! ## The mirror map -/

/-- Point negation: a 180-degree rotation, preserving `isLeft` and reversing
the lexicographic order; it carries the upper chain to a lower chain. -/
def negPt (p : Pt K) : Pt K := ⟨-p.x, -p.y⟩

theorem isLeft_negPt (a b c : Pt K) :
    isLeft (negPt a) (negPt b) (negPt c) = isLeft a b c := by
  unfold isLeft negPt
  ring

theorem lexLt_negPt {a b : Pt K} : lexLt (negPt a) (negPt b) ↔ lexLt b a := by
  unfold lexLt negPt
  constructor
  · rintro (h | ⟨h, h'⟩)
    · exact Or.inl (by dsimp at h; linarith)
    · exact Or.inr ⟨by dsimp at h; linarith, by dsimp at h'; linarith⟩
  · rintro (h | ⟨h, h'⟩)
    · exact Or.inl (by dsimp; linarith)
    · exact Or.inr ⟨by dsimp; linarith, by dsimp; linarith⟩

theorem negPt_involutive (p : Pt K) : negPt (negPt p) = p := by
  unfold negPt
  simp

theorem negPt_injective {a b : Pt K} (h : negPt a = negPt b) : a = b := by
  have := congrArg negPt h
  rwa [negPt_involutive, negPt_involutive] at this

theorem chainPop_map_negPt (bot : ℕ) (p : Pt K) (r : List (Pt K)) :
    chainPop bot (negPt p) (r.map negPt) = (chainPop bot p r).map negPt := by
  induction r with
  | nil => simp [chainPop]
  | cons a r ih =>
    cases r with
    | nil => simp [chainPop]
    | cons b rest =>
      rw [List.map_cons, List.map_cons, chainPop, chainPop]
      by_cases hc : bot + 1 < (a :: b :: rest).length ∧ ¬(0 < isLeft b a p)
      · rw [if_pos (by simpa [isLeft_negPt] using hc), if_pos hc]
        simpa using ih
      · rw [if_neg (by simpa [isLeft_negPt] using hc), if_neg hc]
        simp

theorem chainLeft_map_negPt {r : List (Pt K)} {q : Pt K} :
    chainLeft (r.map negPt) (negPt q) ↔ chainLeft r q := by
  induction r with
  | nil => simp [chainLeft]
  | cons a r ih =>
    cases r with
    | nil => simp [chainLeft]
    | cons b rest =>
      rw [List.map_cons, List.map_cons, chainLeft, chainLeft]
      rw [isLeft_negPt]
      exact and_congr Iff.rfl (by simpa using ih)

theorem StackCCW_map_negPt {r : List (Pt K)} :
    StackCCW (r.map negPt) ↔ StackCCW r := by
  induction r with
  | nil => simp [StackCCW]
  | cons a r ih =>
    cases r with
    | nil => simp [StackCCW]
    | cons b rest =>
      cases rest with
      | nil => simp [StackCCW]
      | cons c rest' =>
        rw [List.map_cons, List.map_cons, List.map_cons, StackCCW, StackCCW]
        rw [isLeft_negPt]
        exact and_congr Iff.rfl (by simpa using ih)

/-! ## Anchored pop: the upper pop loop as a lower pop on the chain above the
fixed junction stack -/

theorem chainPop_floor (p : Pt K) (r : List (Pt K)) :
    chainPop (r.length - 1) p r = r := by
  cases r with
  | nil => simp [chainPop]
  | cons a r =>
    cases r with
    | nil => simp [chainPop]
    | cons b rest =>
      rw [chainPop, if_neg]
      rintro ⟨h1, -⟩
      simp only [List.length_cons] at h1
      omega

theorem chainPop_anchor (p : Pt K) (r0 : List (Pt K)) (hr0 : r0 ≠ []) :
    ∀ ups : List (Pt K),
      chainPop (r0.length - 1) p (ups ++ r0) =
        (chainPop 0 p (ups ++ [r0.headD ⟨0, 0⟩])).dropLast ++ r0 := by
  have hr0len : 0 < r0.length := List.length_pos.mpr hr0
  intro ups
  induction ups with
  | nil =>
    rw [List.nil_append, chainPop_floor, List.nil_append]
    cases r0 with
    | nil => exact absurd rfl hr0
    | cons t0 tl => simp [chainPop]
  | cons u ups' ih =>
    obtain ⟨b, tl, hbt⟩ : ∃ b tl, ups' ++ r0 = b :: tl := by
      cases hup : ups' ++ r0 with
      | nil =>
        rw [List.append_eq_nil] at hup
        exact absurd hup.2 hr0
      | cons b tl => exact ⟨b, tl, rfl⟩
    obtain ⟨tl', hbt'⟩ : ∃ tl', ups' ++ [r0.headD ⟨0, 0⟩] = b :: tl' := by
      cases ups' with
      | nil =>
        cases r0 with
        | nil => exact absurd rfl hr0
        | cons t0 tl0 =>
          simp only [List.nil_append] at hbt ⊢
          injection hbt with h1 h2
          exact ⟨[], by rw [← h1]; rfl⟩
      | cons u2 ups'' =>
        simp only [List.cons_append] at hbt ⊢
        injection hbt with h1 h2
        exact ⟨ups'' ++ [r0.headD ⟨0, 0⟩], by rw [← h1]⟩
    rw [List.cons_append, hbt, chainPop]
    rw [List.cons_append, hbt', chainPop]
    have htl : (b :: tl).length = ups'.length + r0.length := by
      rw [← hbt]
      simp
    have hlen1 : r0.length - 1 + 1 < (u :: b :: tl).length := by
      simp only [List.length_cons]
      simp only [List.length_cons] at htl
      omega
    have hlen2 : 0 + 1 < (u :: b :: tl').length := by
      simp
    by_cases hpop : ¬(0 < isLeft b u p)
    · rw [if_pos ⟨hlen1, hpop⟩, if_pos ⟨hlen2, hpop⟩]
      rw [← hbt, ← hbt']
      exact ih
    · rw [if_neg (by tauto), if_neg (by tauto)]
      rw [← hbt, ← hbt']
      rw [show u :: (ups' ++ [r0.headD ⟨0, 0⟩]) =
        (u :: ups') ++ [r0.headD ⟨0, 0⟩] from rfl, List.dropLast_concat]
      simp

/-! ## Splitting strict convexity at the junction -/

theorem StackCCW_glue {T : Pt K} : ∀ {x rt : List (Pt K)},
    StackCCW (x ++ T :: rt) ↔
      (StackCCW (x ++ [T]) ∧ StackCCW (T :: rt) ∧
        ∀ u w rt', x.getLast? = some u → rt = w :: rt' → 0 < isLeft w T u) := by
  intro x
  induction x with
  | nil =>
    intro rt
    simp only [List.nil_append]
    constructor
    · intro h
      exact ⟨trivial, h, fun u w rt' hu => by cases hu⟩
    · rintro ⟨-, h, -⟩
      exact h
  | cons a x' ih =>
    intro rt
    cases x' with
    | nil =>
      cases rt with
      | nil =>
        simp only [List.nil_append, List.cons_append]
        constructor
        · intro h
          exact ⟨trivial, trivial, fun u w rt' hu hrt => by cases hrt⟩
        · intro h
          trivial
      | cons w rt' =>
        simp only [List.nil_append, List.cons_append]
        constructor
        · intro h
          refine ⟨trivial, h.2, ?_⟩
          rintro u w2 rt2 hu hrt
          injection hu with hu
          subst hu
          injection hrt with h1 h2
          subst h1
          exact h.1
        · rintro ⟨-, h2, h3⟩
          exact ⟨h3 a w rt' rfl rfl, h2⟩
    | cons b x'' =>
      have hgl : (a :: b :: x'').getLast? = (b :: x'').getLast? :=
        List.getLast?_cons_cons
      constructor
      · intro h
        have hfirst : 0 < isLeft ((x'' ++ T :: rt).headD ⟨0, 0⟩) b a := by
          cases x'' with
          | nil => exact h.1
          | cons c x''' => exact h.1
        have hrest : StackCCW ((b :: x'') ++ T :: rt) := by
          cases x'' with
          | nil => exact h.2
          | cons c x''' => exact h.2
        rw [ih] at hrest
        refine ⟨?_, hrest.2.1, ?_⟩
        · cases x'' with
          | nil => exact ⟨hfirst, hrest.1⟩
          | cons c x''' => exact ⟨hfirst, hrest.1⟩
        · rintro u w rt' hu hrt
          rw [hgl] at hu
          exact hrest.2.2 u w rt' hu hrt
      · rintro ⟨h1, h2, h3⟩
        have hfirst : 0 < isLeft ((x'' ++ [T]).headD ⟨0, 0⟩) b a := by
          cases x'' with
          | nil => exact h1.1
          | cons c x''' => exact h1.1
        have hrest0 : StackCCW ((b :: x'') ++ [T]) := by
          cases x'' with
          | nil => exact h1.2
          | cons c x''' => exact h1.2
        have hrest : StackCCW ((b :: x'') ++ T :: rt) := by
          rw [ih]
          refine ⟨hrest0, h2, ?_⟩
          rintro u w rt' hu hrt
          exact h3 u w rt' (by rw [hgl]; exact hu) hrt
        have hheads : (x'' ++ T :: rt).headD ⟨0, 0⟩ = (x'' ++ [T]).headD ⟨0, 0⟩ := by
          cases x'' with
          | nil => rfl
          | cons c x''' => rfl
        cases x'' with
        | nil => exact ⟨hfirst, hrest⟩
        | cons c x''' => exact ⟨hfirst, hrest⟩

theorem chainPop_anchor_decomp (p T : Pt K) (ups : List (Pt K)) :
    ∃ a' d, ups = d ++ a' ∧ chainPop 0 p (ups ++ [T]) = a' ++ [T] := by
  obtain ⟨d, hd, -, -⟩ := chainPop_spec 0 p (ups ++ [T])
  have hne : chainPop 0 p (ups ++ [T]) ≠ [] :=
    chainPop_ne_nil 0 p _ (by simp)
  rcases List.append_eq_append_iff.mp hd.symm with ⟨a', ha1, ha2⟩ | ⟨c', hc1, hc2⟩
  · exact ⟨a', d, ha1, ha2⟩
  · have hc : c' = [] := by
      cases c' with
      | nil => rfl
      | cons x xs =>
        have := congrArg List.length hc2
        simp only [List.length_append, List.length_cons,
          List.length_nil] at this
        have hpos : 0 < (chainPop 0 p (ups ++ [T])).length :=
          List.length_pos.mpr hne
        omega
    subst hc
    rw [List.nil_append] at hc2
    refine ⟨[], ups, by simp, by rw [← hc2]; simp⟩

/-! ## The upper-chain invariant -/

theorem negPt_zero : (negPt ⟨0, 0⟩ : Pt K) = ⟨0, 0⟩ := by
  unfold negPt
  simp

/-- Invariant of the upper-hull loop of `chainHull2D` after processing scan
indices down to `t`: the stack is `ups ++ r0` with `r0` the fixed junction
stack (protected by the pop floor), `T` the value at its top; `ups` holds
points strictly above the upper line with indices in `[t, M)`, the anchored
chain `ups ++ [T]` is lexicographically increasing top-down, the whole stack
is strictly convex, and every processed point is below the upper line, on the
upper stack, or on-or-left of every anchored-chain edge and not beyond the
stack top. -/
structure UpInv (S : List (Pt K)) (Amax Amin T : Pt K) (M : ℕ)
    (r0 : List (Pt K)) (t : ℕ) (ups : List (Pt K)) : Prop where
  mem : ∀ v ∈ ups, ∃ j, t ≤ j ∧ j < M ∧ j < S.length ∧ v = S.getD j ⟨0, 0⟩ ∧
    isLeft Amax Amin v < 0
  uord : (ups ++ [T]).Pairwise (fun a b => lexLt a b)
  ccw : StackCCW (ups ++ r0)
  contain : ∀ j, t ≤ j → j < M → j < S.length →
    0 ≤ isLeft Amax Amin (S.getD j ⟨0, 0⟩) ∨ S.getD j ⟨0, 0⟩ ∈ ups ∨
      (chainLeft (ups ++ [T]) (S.getD j ⟨0, 0⟩) ∧
        ((ups ++ r0).headD ⟨0, 0⟩).x ≤ (S.getD j ⟨0, 0⟩).x)

theorem upInv_skip {S : List (Pt K)} {Amax Amin T : Pt K} {M : ℕ}
    {r0 : List (Pt K)} {t : ℕ} {ups : List (Pt K)}
    (inv : UpInv S Amax Amin T M r0 (t + 1) ups)
    (hbelow : t < S.length → 0 ≤ isLeft Amax Amin (S.getD t ⟨0, 0⟩)) :
    UpInv S Amax Amin T M r0 t ups where
  mem := fun v hv => by
    obtain ⟨j, h1, h2, h3, h4, h5⟩ := inv.mem v hv
    exact ⟨j, by omega, h2, h3, h4, h5⟩
  uord := inv.uord
  ccw := inv.ccw
  contain := fun j hj hjM hjn => by
    rcases Nat.lt_or_ge t j with h | h
    · exact inv.contain j (by omega) hjM hjn
    · have : j = t := by omega
      subst this
      exact Or.inl (hbelow hjn)

theorem upInv_push {S : List (Pt K)} {Amax Amin T : Pt K} {M : ℕ}
    {r0 : List (Pt K)} {t : ℕ} {ups : List (Pt K)}
    (hS : S.Pairwise lexLt)
    (hTx : ∀ j, j < M → j < S.length → (S.getD j ⟨0, 0⟩).x < T.x)
    (hrt : ∃ w rt, r0 = T :: w :: rt)
    (hjunc : ∀ w rt, r0 = T :: w :: rt → 0 < isLeft w T (S.getD t ⟨0, 0⟩))
    (inv : UpInv S Amax Amin T M r0 (t + 1) ups)
    (htM : t < M) (htn : t < S.length)
    (habove : isLeft Amax Amin (S.getD t ⟨0, 0⟩) < 0) :
    UpInv S Amax Amin T M r0 t
      (S.getD t ⟨0, 0⟩ :: (chainPop 0 (S.getD t ⟨0, 0⟩) (ups ++ [T])).dropLast) := by
  set p := S.getD t ⟨0, 0⟩ with hp
  obtain ⟨w0, rt0, hr0⟩ := hrt
  have hT0 : r0.headD ⟨0, 0⟩ = T := by rw [hr0]; rfl
  obtain ⟨a', d, hda, hpop⟩ := chainPop_anchor_decomp p T ups
  obtain ⟨d2, hd2, hpops2, hbrk2⟩ := chainPop_spec 0 p (ups ++ [T])
  have hdrop : (chainPop 0 p (ups ++ [T])).dropLast = a' := by
    rw [hpop]
    exact List.dropLast_concat
  have hbeyU : ∀ u ∈ ups ++ [T], lexLt p u := by
    intro u hu
    rcases List.mem_append.mp hu with hu | hu
    · obtain ⟨j, h1, h2, h3, h4, h5⟩ := inv.mem u hu
      exact h4 ▸ sorted_getD_lex S hS (show t < j by omega) h3
    · rw [List.mem_singleton] at hu
      subst hu
      exact Or.inl (hTx t htM htn)
  have hccwU : StackCCW (ups ++ [T]) := by
    have := inv.ccw
    rw [hr0, StackCCW_glue] at this
    exact this.1
  have hsubU : (a' ++ [T]).Sublist (ups ++ [T]) := by
    rw [hda, List.append_assoc]
    exact List.sublist_append_right d _
  have hheads : (ups ++ r0).headD ⟨0, 0⟩ = (ups ++ [T]).headD ⟨0, 0⟩ := by
    cases ups with
    | nil =>
      rw [List.nil_append, List.nil_append, hT0]
      rfl
    | cons u0 tl => rfl
  -- mirrored chain
  have hmne : (ups ++ [T]).map negPt ≠ [] := by simp
  have hmord : ((ups ++ [T]).map negPt).Pairwise (fun a b => lexLt b a) := by
    rw [List.pairwise_map]
    exact inv.uord.imp (fun h => lexLt_negPt.mpr h)
  have hmlast : ((ups ++ [T]).map negPt).getLast? = some (negPt T) := by
    rw [List.getLast?_map, List.getLast?_concat]
    rfl
  have hmbey : ∀ v ∈ (ups ++ [T]).map negPt, lexLt v (negPt p) := by
    intro v hv
    rw [List.mem_map] at hv
    obtain ⟨u, hu, rfl⟩ := hv
    exact lexLt_negPt.mpr (hbeyU u hu)
  have hmpA : (negPt T).x < (negPt p).x := by
    have := hTx t htM htn
    rw [← hp] at this
    show -T.x < -p.x
    linarith
  have hmpop : chainPop 0 (negPt p) ((ups ++ [T]).map negPt) =
      (chainPop 0 p (ups ++ [T])).map negPt := chainPop_map_negPt 0 p _
  have htrans : ∀ q : Pt K, q.x < T.x →
      chainLeft (ups ++ [T]) q → ((ups ++ [T]).headD ⟨0, 0⟩).x ≤ q.x →
      chainLeft (p :: chainPop 0 p (ups ++ [T])) q ∧ p.x ≤ q.x := by
    intro q hqT hq hqx
    have hres := clause3_transfer (negPt p) (negPt q) (negPt T)
      ((ups ++ [T]).map negPt) hmne hmord hmlast hmbey
      (chainLeft_map_negPt.mpr hq)
      (by
        rw [show (⟨0, 0⟩ : Pt K) = negPt ⟨0, 0⟩ from negPt_zero.symm,
          List.headD_map]
        show -q.x ≤ -(((ups ++ [T]).headD ⟨0, 0⟩).x)
        linarith)
      (by
        show -T.x ≤ -q.x
        linarith)
      (by
        intro hx
        exfalso
        have : -q.x = -T.x := hx
        have : q.x = T.x := by linarith
        exact absurd this (ne_of_lt hqT))
      hmpA
    rw [hmpop] at hres
    have h1 : chainLeft ((p :: chainPop 0 p (ups ++ [T])).map negPt)
        (negPt q) := hres.1
    have h2 : p.x ≤ q.x := by
      have := hres.2
      show p.x ≤ q.x
      have hcalc : -q.x ≤ -p.x := this
      linarith
    exact ⟨chainLeft_map_negPt.mp h1, h2⟩
  refine ⟨?_, ?_, ?_, ?_⟩
  · intro v hv
    rcases List.mem_cons.mp hv with rfl | hv'
    · exact ⟨t, le_refl _, htM, htn, rfl, habove⟩
    · rw [hdrop] at hv'
      have hvu : v ∈ ups := by
        rw [hda]
        exact List.mem_append.mpr (Or.inr hv')
      obtain ⟨j, h1, h2, h3, h4, h5⟩ := inv.mem v hvu
      exact ⟨j, by omega, h2, h3, h4, h5⟩
  · rw [hdrop]
    show (p :: (a' ++ [T])).Pairwise (fun a b => lexLt a b)
    rw [List.pairwise_cons]
    refine ⟨fun v hv => hbeyU v (hsubU.subset hv), inv.uord.sublist hsubU⟩
  · rw [hdrop, hr0]
    rw [show (p :: a') ++ T :: w0 :: rt0 = (p :: a') ++ T :: (w0 :: rt0) from rfl]
    rw [StackCCW_glue]
    refine ⟨?_, ?_, ?_⟩
    · show StackCCW (p :: (a' ++ [T]))
      rw [← hpop]
      cases hpe : chainPop 0 p (ups ++ [T]) with
      | nil => exact absurd hpe (chainPop_ne_nil 0 p _ (by simp))
      | cons w1 ptl =>
        cases ptl with
        | nil => trivial
        | cons w2 ptl' =>
          have hb := hbrk2 (by rw [hpe]; simp)
          rw [hpe] at hb
          simp only [List.getD_cons_succ, List.getD_cons_zero] at hb
          have : StackCCW (w1 :: w2 :: ptl') := by
            rw [← hpe, hpop]
            have h1 : StackCCW (d ++ (a' ++ [T])) := by
              rw [← List.append_assoc, ← hda]
              exact hccwU
            exact StackCCW_suffix h1
          exact ⟨hb, this⟩
    · have := inv.ccw
      rw [hr0] at this
      exact StackCCW_suffix (d := ups) this
    · rintro u w2 rt2 hu hw
      injection hw with hw1 hw2
      subst hw1
      cases ha' : a' with
      | nil =>
        rw [ha'] at hu
        injection hu with hu
        subst hu
        exact hjunc w0 rt0 hr0
      | cons a0 atl =>
        have hulast : ups.getLast? = some u := by
          rw [hda, ha']
          rw [List.getLast?_append_of_ne_nil d (by simp)]
          rw [ha'] at hu
          simpa using hu
        have := inv.ccw
        rw [hr0, StackCCW_glue] at this
        exact this.2.2 u w0 rt0 hulast rfl
  · intro j hj hjM hjn
    rcases Nat.lt_or_ge t j with hgt | hle
    case inr =>
      have : j = t := by omega
      subst this
      exact Or.inr (Or.inl (List.mem_cons_self _ _))
    case inl =>
      have hxT : (S.getD j ⟨0, 0⟩).x < T.x := hTx j hjM hjn
      have hnew : chainLeft (ups ++ [T]) (S.getD j ⟨0, 0⟩) →
          ((ups ++ [T]).headD ⟨0, 0⟩).x ≤ (S.getD j ⟨0, 0⟩).x →
          0 ≤ isLeft Amax Amin (S.getD j ⟨0, 0⟩) ∨
            S.getD j ⟨0, 0⟩ ∈ p :: (chainPop 0 p (ups ++ [T])).dropLast ∨
            (chainLeft ((p :: (chainPop 0 p (ups ++ [T])).dropLast) ++ [T])
              (S.getD j ⟨0, 0⟩) ∧
              (((p :: (chainPop 0 p (ups ++ [T])).dropLast) ++ r0).headD
                ⟨0, 0⟩).x ≤ (S.getD j ⟨0, 0⟩).x) := by
        intro hcl hxh
        have := htrans (S.getD j ⟨0, 0⟩) hxT hcl hxh
        refine Or.inr (Or.inr ⟨?_, ?_⟩)
        · rw [hdrop]
          show chainLeft (p :: (a' ++ [T])) (S.getD j ⟨0, 0⟩)
          rw [← hpop]
          exact this.1
        · exact this.2
      rcases inv.contain j (by omega) hjM hjn with h1 | h2 | ⟨h3a, h3b⟩
      · exact Or.inl h1
      · by_cases hq' : S.getD j ⟨0, 0⟩ ∈ a'
        · refine Or.inr (Or.inl ?_)
          rw [hdrop]
          exact List.mem_cons_of_mem _ hq'
        · have hqu : S.getD j ⟨0, 0⟩ ∈ ups ++ [T] :=
            List.mem_append.mpr (Or.inl h2)
          have hqm : negPt (S.getD j ⟨0, 0⟩) ∈ (ups ++ [T]).map negPt :=
            List.mem_map_of_mem _ hqu
          have hcm : StackCCW ((ups ++ [T]).map negPt) :=
            StackCCW_map_negPt.mpr hccwU
          have hclm := stack_self_contained hcm hmord _ hqm
          have hcl : chainLeft (ups ++ [T]) (S.getD j ⟨0, 0⟩) :=
            chainLeft_map_negPt.mp hclm
          have hxh : ((ups ++ [T]).headD ⟨0, 0⟩).x ≤ (S.getD j ⟨0, 0⟩).x := by
            have hmhead : ((ups ++ [T]).map negPt).headD ⟨0, 0⟩ =
                negPt ((ups ++ [T]).headD ⟨0, 0⟩) := by
              cases ups <;> rfl
            have := mem_x_le_headD hmord hqm
            rw [hmhead] at this
            have hthis : -(S.getD j ⟨0, 0⟩).x ≤
                -(((ups ++ [T]).headD (⟨0, 0⟩ : Pt K)).x) := this
            linarith
          exact hnew hcl hxh
      · exact hnew h3a (hheads ▸ h3b)

theorem upperLoop_append (P : List (Pt K)) (maxmax minmax bot : ℕ) (h0 : Pt K) :
    ∀ (l1 l2 : List ℕ) (stack s1 : List (Pt K)),
      upperLoop P maxmax minmax bot h0 l1 stack = (s1, false) →
      upperLoop P maxmax minmax bot h0 (l1 ++ l2) stack =
        upperLoop P maxmax minmax bot h0 l2 s1 := by
  intro l1
  induction l1 with
  | nil =>
    intro l2 stack s1 h
    rw [upperLoop] at h
    injection h with h1 h2
    rw [List.nil_append, h1]
  | cons i is ih =>
    intro l2 stack s1 h
    rw [List.cons_append]
    rw [upperLoop] at h ⊢
    by_cases hc : 0 ≤ isLeft (P.getD maxmax ⟨0, 0⟩) (P.getD minmax ⟨0, 0⟩)
        (P.getD i ⟨0, 0⟩) ∧ minmax < i
    · rw [if_pos hc] at h ⊢
      exact ih l2 stack s1 h
    · rw [if_neg hc] at h ⊢
      dsimp only at h ⊢
      by_cases he : (P.getD i ⟨0, 0⟩).x = h0.x ∧ (P.getD i ⟨0, 0⟩).y = h0.y
      · rw [if_pos he] at h
        injection h with h1 h2
        simp at h2
      · rw [if_neg he] at h ⊢
        exact ih l2 _ s1 h

theorem upperLoop_run {S : List (Pt K)} {T : Pt K} {M maxmax : ℕ}
    {r0 : List (Pt K)}
    (hS : S.Pairwise lexLt)
    (hMn : M ≤ S.length)
    (hTx : ∀ j, j < M → j < S.length → (S.getD j ⟨0, 0⟩).x < T.x)
    (hrt : ∃ w rt, r0 = T :: w :: rt)
    (hjuncAll : ∀ j, j < M → j < S.length →
      isLeft (S.getD maxmax ⟨0, 0⟩) (S.getD 0 ⟨0, 0⟩) (S.getD j ⟨0, 0⟩) < 0 →
      ∀ w rt, r0 = T :: w :: rt → 0 < isLeft w T (S.getD j ⟨0, 0⟩)) :
    ∀ (k t : ℕ) (ups : List (Pt K)),
      1 ≤ t → t + k ≤ M →
      UpInv S (S.getD maxmax ⟨0, 0⟩) (S.getD 0 ⟨0, 0⟩) T M r0 (t + k) ups →
      ∃ ups', UpInv S (S.getD maxmax ⟨0, 0⟩) (S.getD 0 ⟨0, 0⟩) T M r0 t ups' ∧
        upperLoop S maxmax 0 (r0.length - 1) (S.getD 0 ⟨0, 0⟩)
          ((List.range' t k).reverse) (ups ++ r0) = (ups' ++ r0, false) := by
  intro k
  induction k with
  | zero =>
    intro t ups ht htM inv
    refine ⟨ups, inv, ?_⟩
    rw [show (List.range' t 0).reverse = ([] : List ℕ) from rfl, upperLoop]
  | succ c ih =>
    intro t ups ht htM inv
    have hr0ne : r0 ≠ [] := by
      obtain ⟨w, rt, hrw⟩ := hrt
      rw [hrw]
      simp
    have hT0 : r0.headD ⟨0, 0⟩ = T := by
      obtain ⟨w, rt, hrw⟩ := hrt
      rw [hrw]
      rfl
    rw [List.range'_concat, List.reverse_append]
    simp only [one_mul, List.reverse_cons, List.reverse_nil, List.nil_append,
      List.cons_append]
    rw [upperLoop]
    have hin : t + c < S.length := by omega
    by_cases hc : 0 ≤ isLeft (S.getD maxmax ⟨0, 0⟩) (S.getD 0 ⟨0, 0⟩)
        (S.getD (t + c) ⟨0, 0⟩) ∧ 0 < t + c
    · rw [if_pos hc]
      have inv' : UpInv S (S.getD maxmax ⟨0, 0⟩) (S.getD 0 ⟨0, 0⟩) T M r0
          (t + c) ups := upInv_skip inv (fun _ => hc.1)
      exact ih t ups ht (by omega) inv'
    · rw [if_neg hc]
      dsimp only
      have habove : isLeft (S.getD maxmax ⟨0, 0⟩) (S.getD 0 ⟨0, 0⟩)
          (S.getD (t + c) ⟨0, 0⟩) < 0 := by
        rcases not_and_or.mp hc with h | h
        · exact lt_of_not_le h
        · exact absurd (by omega : 0 < t + c) h
      have hne0 : ¬ ((S.getD (t + c) ⟨0, 0⟩).x = (S.getD 0 ⟨0, 0⟩).x ∧
          (S.getD (t + c) ⟨0, 0⟩).y = (S.getD 0 ⟨0, 0⟩).y) := by
        rintro ⟨hx, hy⟩
        have hlex := sorted_getD_lex S hS (show 0 < t + c by omega) hin
        rcases hlex with h | ⟨h1, h2⟩
        · rw [hx] at h
          exact lt_irrefl _ h
        · rw [hy] at h2
          exact lt_irrefl _ h2
      rw [if_neg hne0]
      have hanchor : chainPop (r0.length - 1) (S.getD (t + c) ⟨0, 0⟩)
          (ups ++ r0) =
          (chainPop 0 (S.getD (t + c) ⟨0, 0⟩) (ups ++ [T])).dropLast ++ r0 := by
        rw [chainPop_anchor _ r0 hr0ne ups, hT0]
      rw [hanchor]
      have inv' := upInv_push hS hTx hrt
        (hjuncAll (t + c) (by omega) hin habove) inv (by omega) hin habove
      have := ih t _ ht (by omega) inv'
      obtain ⟨ups', hinv', heq⟩ := this
      refine ⟨ups', hinv', ?_⟩
      rw [← heq]
      rfl


/-! ## Segment cover and half-plane rotation lemmas -/

theorem seg_cover (P Q b a q : Pt K)
    (hPQ : P.x < Q.x) (hq : 0 ≤ isLeft P Q q)
    (h1 : P.x ≤ q.x) (h2 : q.x ≤ Q.x)
    (hA : 0 ≤ isLeft b a P) (hB : 0 ≤ isLeft b a Q)
    (hab : b.x ≤ a.x) : 0 ≤ isLeft b a q := by
  by_contra hX
  push_neg at hX
  unfold isLeft at *
  nlinarith [mul_nonneg (sub_nonneg.mpr h2) hA,
    mul_nonneg (sub_nonneg.mpr h1) hB,
    mul_nonneg hq (sub_nonneg.mpr hab),
    mul_neg_of_pos_of_neg (sub_pos.mpr hPQ) hX]

theorem chainLeft_cover (P Q q : Pt K)
    (hPQ : P.x < Q.x) (hq : 0 ≤ isLeft P Q q)
    (h1 : P.x ≤ q.x) (h2 : q.x ≤ Q.x) :
    ∀ r : List (Pt K), r.Pairwise (fun a b => lexLt b a) →
      chainLeft r P → chainLeft r Q → chainLeft r q := by
  intro r
  induction r with
  | nil => intro _ _ _; trivial
  | cons a r ih =>
    cases r with
    | nil => intro _ _ _; trivial
    | cons b rest =>
      intro hord hP hQ
      have hba : lexLt b a := (List.pairwise_cons.mp hord).1 b (by simp)
      exact ⟨seg_cover P Q b a q hPQ hq h1 h2 hP.1 hQ.1 hba.x_le,
        ih (List.pairwise_cons.mp hord).2 hP.2 hQ.2⟩

/-- Rotation transitivity in the open right half-plane around `O`. -/
theorem halfplane_rr (O a b c : Pt K)
    (hax : O.x < a.x) (hbx : O.x < b.x) (hcx : O.x < c.x)
    (h1 : 0 ≤ isLeft O a b) (h2 : 0 < isLeft O b c) :
    0 < isLeft O a c := by
  by_contra hX
  push_neg at hX
  unfold isLeft at *
  nlinarith [mul_nonneg h1 (sub_pos.mpr hcx).le,
    mul_pos h2 (sub_pos.mpr hax),
    hX, sub_pos.mpr hbx]

theorem halfplane_rr' (O a b c : Pt K)
    (hax : O.x < a.x) (hbx : O.x < b.x) (hcx : O.x < c.x)
    (h1 : 0 < isLeft O a b) (h2 : 0 ≤ isLeft O b c) :
    0 < isLeft O a c := by
  by_contra hX
  push_neg at hX
  unfold isLeft at *
  nlinarith [mul_pos h1 (sub_pos.mpr hcx),
    mul_nonneg h2 (sub_pos.mpr hax).le,
    hX, sub_pos.mpr hbx]

theorem halfplane_rr_le (O a b c : Pt K)
    (hax : O.x < a.x) (hbx : O.x < b.x) (hcx : O.x < c.x)
    (h1 : 0 ≤ isLeft O a b) (h2 : 0 ≤ isLeft O b c) :
    0 ≤ isLeft O a c := by
  by_contra hX
  push_neg at hX
  unfold isLeft at *
  nlinarith [mul_nonneg h1 (sub_pos.mpr hcx).le,
    mul_nonneg h2 (sub_pos.mpr hax).le,
    mul_neg_of_neg_of_pos hX (sub_pos.mpr hbx)]

/-- A strictly rising vertical edge has everything strictly to its lower-`x`
side strictly on its left. -/
theorem isLeft_vertical (b t q : Pt K)
    (hx : b.x = t.x) (hy : b.y < t.y) (hq : q.x < b.x) :
    0 < isLeft b t q := by
  unfold isLeft
  rw [hx] at hq ⊢
  nlinarith [mul_pos (sub_pos.mpr hq) (sub_pos.mpr hy)]

theorem isLeft_vertical_le (b t q : Pt K)
    (hx : b.x = t.x) (hy : b.y ≤ t.y) (hq : q.x ≤ b.x) :
    0 ≤ isLeft b t q := by
  unfold isLeft
  rw [hx] at hq ⊢
  nlinarith [mul_nonneg (sub_nonneg.mpr hq) (sub_nonneg.mpr hy)]

/-- Three points on the (non-vertical) line through `A` and `B` are
mutually collinear. -/
theorem collinear_of_line (A B : Pt K) (hAB : A.x < B.x) (p q r : Pt K)
    (hp : isLeft A B p = 0) (hq : isLeft A B q = 0) (hr : isLeft A B r = 0) :
    isLeft p q r = 0 := by
  unfold isLeft at *
  have key : ((q.x - p.x) * (r.y - p.y) - (r.x - p.x) * (q.y - p.y)) *
      (B.x - A.x) = 0 := by
    linear_combination (q.x - p.x) * hr + (p.x - r.x) * hq + (r.x - q.x) * hp
  rcases mul_eq_zero.mp key with h | h
  · exact h
  · exact absurd h (by intro h2; linarith)

theorem allCollinear_of_line (A B : Pt K) (hAB : A.x < B.x)
    (l : List (Pt K)) (h : ∀ p ∈ l, isLeft A B p = 0) : allCollinear l :=
  fun p hp q hq r hr =>
    collinear_of_line A B hAB p q r (h p hp) (h q hq) (h r hr)

theorem isLeft_swap12 (a b c : Pt K) : isLeft b a c = -isLeft a b c := by
  unfold isLeft
  ring

theorem chainLeft_append {y : List (Pt K)} {q : Pt K} (hy : y ≠ []) :
    ∀ x : List (Pt K), chainLeft (x ++ y) q ↔
      chainLeft (x ++ [y.headD ⟨0, 0⟩]) q ∧ chainLeft y q := by
  intro x
  induction x with
  | nil =>
    cases y with
    | nil => exact absurd rfl hy
    | cons h t =>
      simp only [List.nil_append]
      exact ⟨fun hc => ⟨trivial, hc⟩, fun hc => hc.2⟩
  | cons a x ih =>
    cases x with
    | nil =>
      cases y with
      | nil => exact absurd rfl hy
      | cons h t =>
        show (0 ≤ isLeft h a q ∧ chainLeft (h :: t) q) ↔
          ((0 ≤ isLeft h a q ∧ True) ∧ chainLeft (h :: t) q)
        tauto
    | cons b x2 =>
      show (0 ≤ isLeft b a q ∧ chainLeft ((b :: x2) ++ y) q) ↔
        ((0 ≤ isLeft b a q ∧ chainLeft ((b :: x2) ++ [y.headD ⟨0, 0⟩]) q) ∧
          chainLeft y q)
      rw [ih]
      tauto

theorem chainLeft_getD {r : List (Pt K)} {q : Pt K} (h : chainLeft r q) :
    ∀ k, k + 1 < r.length →
      0 ≤ isLeft (r.getD (k + 1) ⟨0, 0⟩) (r.getD k ⟨0, 0⟩) q := by
  induction r with
  | nil => intro k hk; simp at hk
  | cons a r ih =>
    cases r with
    | nil => intro k hk; simp at hk
    | cons b rest =>
      intro k hk
      cases k with
      | zero => exact h.1
      | succ k2 =>
        simp only [List.getD_cons_succ]
        refine ih h.2 k2 ?_
        simp only [List.length_cons] at hk ⊢
        omega

theorem StackCCW_getD {r : List (Pt K)} (h : StackCCW r) :
    ∀ k, k + 2 < r.length →
      0 < isLeft (r.getD (k + 2) ⟨0, 0⟩) (r.getD (k + 1) ⟨0, 0⟩)
        (r.getD k ⟨0, 0⟩) := by
  induction r with
  | nil => intro k hk; simp at hk
  | cons a r ih =>
    cases r with
    | nil => intro k hk; simp at hk
    | cons b rest =>
      cases rest with
      | nil => intro k hk; simp at hk
      | cons c rest2 =>
        intro k hk
        cases k with
        | zero => exact h.1
        | succ k2 =>
          simp only [List.getD_cons_succ]
          refine ih h.2 k2 ?_
          simp only [List.length_cons] at hk ⊢
          omega

/-! ## From stack facts to the cyclic hull predicates -/

theorem reverse_getD_eq (F : List (Pt K)) (A0 : Pt K)
    (hlast : F.getLast? = some A0) (j : ℕ) (hj : j < F.length) :
    F.reverse.getD j ⟨0, 0⟩ = (A0 :: F).getD (F.length - j) ⟨0, 0⟩ := by
  rw [List.getD_eq_getElem _ _ (by rw [List.length_reverse]; exact hj),
    List.getElem_reverse]
  rw [List.getD_eq_getElem _ _ (by simp only [List.length_cons]; omega)]
  have hLj : F.length - j = (F.length - 1 - j) + 1 := by omega
  simp only [hLj, List.getElem_cons_succ]

theorem reverse_getD_zero (F : List (Pt K)) (A0 : Pt K) (h1 : 1 ≤ F.length)
    (hlast : F.getLast? = some A0) :
    F.reverse.getD 0 ⟨0, 0⟩ = A0 := by
  rw [List.getD_eq_getElem _ _ (by rw [List.length_reverse]; omega),
    List.getElem_reverse]
  rw [List.getLast?_eq_getElem?] at hlast
  have hl : F.length - 1 < F.length := by omega
  rw [List.getElem?_eq_getElem hl] at hlast
  have := Option.some_injective _ hlast
  simpa using this

theorem insideOrOn_of_wrap (F : List (Pt K)) (q A0 : Pt K)
    (h2 : 2 ≤ F.length)
    (hlast : F.getLast? = some A0)
    (h : chainLeft (A0 :: F) q) :
    insideOrOn F.reverse q := by
  intro i hi
  rw [List.length_reverse] at hi
  have hrevlen : F.reverse.length = F.length := List.length_reverse F
  have hv1 : hullVtx F.reverse i = (A0 :: F).getD (F.length - i) ⟨0, 0⟩ := by
    rw [hullVtx, hrevlen, Nat.mod_eq_of_lt hi]
    exact reverse_getD_eq F A0 hlast i hi
  have hv2 : hullVtx F.reverse (i + 1) =
      (A0 :: F).getD (F.length - 1 - i) ⟨0, 0⟩ := by
    rw [hullVtx, hrevlen]
    rcases Nat.lt_or_ge (i + 1) F.length with hi1 | hi1
    · rw [Nat.mod_eq_of_lt hi1, reverse_getD_eq F A0 hlast (i + 1) hi1]
      congr 1
      omega
    · have hieq : i + 1 = F.length := by omega
      have hz : F.length - 1 - i = 0 := by omega
      rw [hieq, Nat.mod_self, hz]
      rw [reverse_getD_zero F A0 (by omega) hlast]
      rfl
  rw [hv1, hv2]
  have hk := chainLeft_getD h (F.length - 1 - i)
    (by simp only [List.length_cons]; omega)
  have hke : F.length - 1 - i + 1 = F.length - i := by omega
  rw [hke] at hk
  exact hk

theorem ccwTriples_of_wrap (F : List (Pt K)) (A0 : Pt K)
    (h3 : 3 ≤ F.length)
    (hlast : F.getLast? = some A0)
    (hccw : StackCCW (A0 :: F))
    (hwrap : 0 < isLeft (F.getD 0 ⟨0, 0⟩) A0
      (F.getD (F.length - 2) ⟨0, 0⟩)) :
    ccwTriples F.reverse := by
  intro i hi
  rw [List.length_reverse] at hi
  have hrevlen : F.reverse.length = F.length := List.length_reverse F
  have hv1 : hullVtx F.reverse i = (A0 :: F).getD (F.length - i) ⟨0, 0⟩ := by
    rw [hullVtx, hrevlen, Nat.mod_eq_of_lt hi]
    exact reverse_getD_eq F A0 hlast i hi
  have hv2 : hullVtx F.reverse (i + 1) =
      (A0 :: F).getD (F.length - 1 - i) ⟨0, 0⟩ := by
    rw [hullVtx, hrevlen]
    rcases Nat.lt_or_ge (i + 1) F.length with hi1 | hi1
    · rw [Nat.mod_eq_of_lt hi1, reverse_getD_eq F A0 hlast (i + 1) hi1]
      congr 1
      omega
    · have hieq : i + 1 = F.length := by omega
      have hz : F.length - 1 - i = 0 := by omega
      rw [hieq, Nat.mod_self, hz]
      rw [reverse_getD_zero F A0 (by omega) hlast]
      rfl
  rcases Nat.lt_or_ge i (F.length - 1) with hSm | hBg
  · -- the third vertex is still (A0 :: F).getD (F.length - 2 - i)
    have hv3 : hullVtx F.reverse (i + 2) =
        (A0 :: F).getD (F.length - 2 - i) ⟨0, 0⟩ := by
      rw [hullVtx, hrevlen]
      rcases Nat.lt_or_ge (i + 2) F.length with hi2 | hi2
      · rw [Nat.mod_eq_of_lt hi2, reverse_getD_eq F A0 hlast (i + 2) hi2]
        congr 1
        omega
      · have hieq : i + 2 = F.length := by omega
        have hz : F.length - 2 - i = 0 := by omega
        rw [hieq, Nat.mod_self, hz]
        rw [reverse_getD_zero F A0 (by omega) hlast]
        rfl
    rw [hv1, hv2, hv3]
    have hk := StackCCW_getD hccw (F.length - 2 - i)
      (by simp only [List.length_cons]; omega)
    have hk1 : F.length - 2 - i + 1 = F.length - 1 - i := by omega
    have hk2 : F.length - 2 - i + 2 = F.length - i := by omega
    rw [hk1, hk2] at hk
    exact hk
  · -- i = F.length - 1: the second wrap triple
    have hieq : i = F.length - 1 := by omega
    have hv3 : hullVtx F.reverse (i + 2) = F.getD (F.length - 2) ⟨0, 0⟩ := by
      rw [hullVtx, hrevlen]
      have hm : (i + 2) % F.length = 1 := by
        rw [hieq]
        have he : F.length - 1 + 2 = 1 + F.length := by omega
        rw [he, Nat.add_mod_right]
        exact Nat.mod_eq_of_lt (by omega)
      rw [hm, reverse_getD_eq F A0 hlast 1 (by omega)]
      have he2 : F.length - 1 = (F.length - 2) + 1 := by omega
      rw [he2]
      rfl
  -- hv1 at i = L-1: (A0 :: F).getD 1 = F.getD 0; hv2: getD 0 = A0
    have hv1' : hullVtx F.reverse i = F.getD 0 ⟨0, 0⟩ := by
      rw [hv1, hieq]
      have : F.length - (F.length - 1) = 1 := by omega
      rw [this]
      rfl
    have hv2' : hullVtx F.reverse (i + 1) = A0 := by
      rw [hv2, hieq]
      have : F.length - 1 - (F.length - 1) = 0 := by omega
      rw [this]
      rfl
    rw [hv1', hv2', hv3]
    exact hwrap

/-! ## Small auxiliary sign and index lemmas for the main assembly -/

theorem isLeft_swap13 (a b c : Pt K) : isLeft c b a = -isLeft a b c := by
  unfold isLeft
  ring

theorem isLeft_right_edge_le (A B q : Pt K)
    (hx : q.x = B.x) (hy : B.y ≤ q.y) (hA : A.x < B.x) :
    0 ≤ isLeft A B q := by
  unfold isLeft
  rw [hx]
  nlinarith [mul_nonneg (sub_pos.mpr hA).le (sub_nonneg.mpr hy)]

theorem isLeft_right_edge_le' (A Amax q : Pt K)
    (hx : q.x = Amax.x) (hy : q.y ≤ Amax.y) (hA : A.x < Amax.x) :
    0 ≤ isLeft Amax A q := by
  unfold isLeft
  rw [hx]
  nlinarith [mul_nonneg (sub_pos.mpr hA).le (sub_nonneg.mpr hy)]

theorem upInv_init {S : List (Pt K)} {Amax Amin T : Pt K} {M : ℕ}
    {r0 : List (Pt K)} (hccw : StackCCW r0) :
    UpInv S Amax Amin T M r0 M [] where
  mem := fun v hv => absurd hv (List.not_mem_nil v)
  uord := List.pairwise_singleton _ _
  ccw := by
    rw [List.nil_append]
    exact hccw
  contain := fun j hj hjM hjn => absurd (lt_of_le_of_lt hj hjM) (lt_irrefl M)

theorem stack2_ccw {low : List (Pt K)} {Amax : Pt K}
    (hccw : StackCCW low)
    (htri : ∀ b w rest, low = b :: w :: rest → 0 < isLeft w b Amax) :
    StackCCW (Amax :: low) := by
  cases low with
  | nil => trivial
  | cons b rest =>
    cases rest with
    | nil => trivial
    | cons w rest2 => exact ⟨htri b w rest2 rfl, hccw⟩

theorem minmaxIdx_eq_zero (S : List (Pt K)) (hS : S.Pairwise lexLt)
    (h2 : 2 ≤ S.length) (huniq : uniqueXmin S) :
    minmaxIdx S = 0 := by
  cases S with
  | nil => simp at h2
  | cons p0 rest =>
    cases rest with
    | nil => simp at h2
    | cons p1 rest2 =>
      have hlt : lexLt p0 p1 := (List.pairwise_cons.mp hS).1 p1 (by simp)
      have hne : p1.x ≠ p0.x := by
        intro heq
        have hmin0 : ∀ r ∈ p0 :: p1 :: rest2, p0.x ≤ r.x := by
          intro r hr
          rcases List.mem_cons.mp hr with rfl | hr2
          · exact le_refl _
          · exact ((List.pairwise_cons.mp hS).1 r hr2).x_le
        have hmin1 : ∀ r ∈ p0 :: p1 :: rest2, p1.x ≤ r.x := by
          intro r hr
          rw [heq]
          exact hmin0 r hr
        have := huniq p0 (by simp) p1 (by simp) hmin0 hmin1
        rw [this] at hlt
        exact lexLt_irrefl hlt
      have hfi : (p1 :: rest2).findIdx? (fun q => decide (q.x ≠ p0.x)) =
          some 0 := by
        refine List.findIdx?_eq_some_iff_findIdx_eq.mpr ⟨by simp, ?_⟩
        rw [List.findIdx_cons]
        simp [hne]
      rw [minmaxIdx, hfi]

theorem halfplane_ll (O a b c : Pt K)
    (hax : a.x < O.x) (hbx : b.x < O.x) (hcx : c.x < O.x)
    (h1 : 0 ≤ isLeft O a b) (h2 : 0 < isLeft O b c) :
    0 < isLeft O a c := by
  by_contra hX
  push_neg at hX
  unfold isLeft at *
  nlinarith [mul_nonneg h1 (sub_pos.mpr hcx).le,
    mul_pos h2 (sub_pos.mpr hax),
    hX, sub_pos.mpr hbx]

theorem halfplane_ll' (O a b c : Pt K)
    (hax : a.x < O.x) (hbx : b.x < O.x) (hcx : c.x < O.x)
    (h1 : 0 < isLeft O a b) (h2 : 0 ≤ isLeft O b c) :
    0 < isLeft O a c := by
  by_contra hX
  push_neg at hX
  unfold isLeft at *
  nlinarith [mul_pos h1 (sub_pos.mpr hcx),
    mul_nonneg h2 (sub_pos.mpr hax).le,
    hX, sub_pos.mpr hbx]

theorem mem_of_getLast? {l : List (Pt K)} {a : Pt K}
    (h : l.getLast? = some a) : a ∈ l := by
  cases l with
  | nil => cases h
  | cons x t =>
    rw [List.getLast?_eq_getElem?] at h
    have hlt : (x :: t).length - 1 < (x :: t).length := by simp
    rw [List.getElem?_eq_getElem hlt] at h
    have := Option.some_injective _ h
    rw [← this]
    exact List.getElem_mem _

/-- The complete run of `chainHull2D` on a strictly sorted list with a unique
leftmost point and at least one off-line point: the result is the reverse of a
final stack whose bottom is the leftmost point, whose wrap-around triples turn
strictly left, and which has every input point on or left of every edge of
the closed cycle. -/
theorem chainHull2D_run (S : List (Pt K)) (hS : S.Pairwise lexLt)
    (hlen : 3 ≤ S.length) (hm0 : minmaxIdx S = 0)
    (hcolS : ¬ allCollinear S) :
    ∃ F : List (Pt K),
      chainHull2D S = F.reverse ∧
      F.getLast? = some (S.getD 0 ⟨0, 0⟩) ∧
      3 ≤ F.length ∧
      StackCCW (S.getD 0 ⟨0, 0⟩ :: F) ∧
      0 < isLeft (F.getD 0 ⟨0, 0⟩) (S.getD 0 ⟨0, 0⟩)
        (F.getD (F.length - 2) ⟨0, 0⟩) ∧
      ∀ j, j < S.length → chainLeft (S.getD 0 ⟨0, 0⟩ :: F) (S.getD j ⟨0, 0⟩) := by
  have hSne : S ≠ [] := by
    intro h
    rw [h] at hlen
    simp at hlen
  set n := S.length with hn
  set A := S.getD 0 ⟨0, 0⟩ with hA
  set M := maxminIdx S with hM
  set Amax := S.getD (n - 1) ⟨0, 0⟩ with hAmax
  set B := S.getD M ⟨0, 0⟩ with hB
  have hMn : M ≤ n - 1 := maxminIdx_le S hSne
  have hgd : ∀ (k : ℕ) (h2 : k < S.length), S.getD k ⟨0, 0⟩ = S[k] :=
    fun k h2 => List.getD_eq_getElem S _ h2
  have hx1ne : (S.getD 1 ⟨0, 0⟩).x ≠ (S.getD 0 ⟨0, 0⟩).x := by
    have h1 : (1 : ℕ) < S.length := by omega
    have h0 : (0 : ℕ) < S.length := by omega
    have hth := minmaxIdx_x_ne S hSne (by rw [hm0]; omega) h0
    simp only [hm0] at hth
    rw [hgd 1 h1, hgd 0 h0]
    exact hth
  -- every later point is strictly right of `A`
  have hAx : ∀ j, 1 ≤ j → j < n → A.x < (S.getD j ⟨0, 0⟩).x := by
    intro j hj1 hjn
    have hle1 : (S.getD 0 ⟨0, 0⟩).x ≤ (S.getD 1 ⟨0, 0⟩).x :=
      (sorted_getD_lex S hS (by omega : (0 : ℕ) < 1) (by omega)).x_le
    have hlt1 : (S.getD 0 ⟨0, 0⟩).x < (S.getD 1 ⟨0, 0⟩).x :=
      lt_of_le_of_ne hle1 (Ne.symm hx1ne)
    rw [hA]
    rcases Nat.lt_or_ge 1 j with hj2 | hj2
    · exact lt_of_lt_of_le hlt1 (sorted_getD_lex S hS hj2 hjn).x_le
    · have hje : j = 1 := by omega
      rw [hje]
      exact hlt1
  -- all indices at or past `M` share the maximal x
  have hxmax : ∀ j, M ≤ j → j < n → (S.getD j ⟨0, 0⟩).x = Amax.x := by
    intro j hjM hjn
    have hth := maxminIdx_x_eq S hSne j (by rw [hM] at hjM; exact hjM) hjn
      (by omega)
    rw [hAmax, hgd j hjn, hgd (n - 1) (by omega)]
    exact hth
  have hMpos : 0 < M := by
    by_contra hc
    push_neg at hc
    have hM0 : M = 0 := by omega
    have h1 := hxmax 0 (by omega) (by omega)
    have h2 : A.x < Amax.x := by
      have := hAx (n - 1) (by omega) (by omega)
      rw [← hAmax] at this
      exact this
    rw [← hA] at h1
    rw [h1] at h2
    exact lt_irrefl _ h2
  have hAmaxx : A.x < Amax.x := by
    have := hAx (n - 1) (by omega) (by omega)
    rw [← hAmax] at this
    exact this
  -- indices before `M` are strictly left of the maximal x
  have hxlt : ∀ j, j < M → j < n → (S.getD j ⟨0, 0⟩).x < Amax.x := by
    intro j hjM hjn
    have hne : (S.getD (M - 1) ⟨0, 0⟩).x ≠ Amax.x := by
      have hth := maxminIdx_x_ne S hSne (by rw [hM] at hMpos; exact hMpos)
        (by omega) (by rw [← hM]; omega)
      rw [hAmax, hgd (M - 1) (by omega), hgd (n - 1) (by omega)]
      simp only [← hM, ← hn] at hth
      exact hth
    have hle : (S.getD (M - 1) ⟨0, 0⟩).x ≤ Amax.x := by
      rcases Nat.lt_or_ge (M - 1) (n - 1) with h | h
      · rw [hAmax]
        exact (sorted_getD_lex S hS h (by omega)).x_le
      · have : M - 1 = n - 1 := by omega
        rw [this, hAmax]
    have hltM : (S.getD (M - 1) ⟨0, 0⟩).x < Amax.x := lt_of_le_of_ne hle hne
    rcases Nat.lt_or_ge j (M - 1) with h | h
    · exact lt_of_le_of_lt (sorted_getD_lex S hS h (by omega)).x_le hltM
    · have : j = M - 1 := by omega
      rw [this]
      exact hltM
  have hymax : ∀ j, M ≤ j → j < n → (S.getD j ⟨0, 0⟩).y ≤ Amax.y := by
    intro j hjM hjn
    rcases Nat.lt_or_ge j (n - 1) with h | h
    · have hlex := sorted_getD_lex S hS h (by omega)
      rw [← hAmax] at hlex
      have hxeq : (S.getD j ⟨0, 0⟩).x = Amax.x := hxmax j hjM hjn
      exact (hlex.y_lt hxeq).le
    · have : j = n - 1 := by omega
      rw [this, ← hAmax]
  have hyB : ∀ j, M ≤ j → j < n → B.y ≤ (S.getD j ⟨0, 0⟩).y := by
    intro j hjM hjn
    rcases Nat.lt_or_ge M j with h | h
    · have hlex := sorted_getD_lex S hS h hjn
      rw [← hB] at hlex
      have hxeq : B.x = (S.getD j ⟨0, 0⟩).x := by
        rw [hB]
        rw [hxmax M (le_refl M) (by omega), hxmax j hjM hjn]
      exact (hlex.y_lt hxeq).le
    · have : j = M := by omega
      rw [this, ← hB]
  have hBx : B.x = Amax.x := by
    rw [hB]
    exact hxmax M (le_refl M) (by omega)
  have hABx : A.x < B.x := by
    rw [hB]
    exact hAx M (by omega) (by omega)
  have hBAy : M < n - 1 → B.y < Amax.y := by
    intro h
    have hlex := sorted_getD_lex S hS h (by omega)
    rw [← hB, ← hAmax] at hlex
    exact hlex.y_lt hBx
  -- the lower chain
  set low := (List.range' 1 M).foldl (lowerStep S M) [A] with hlow
  have invLow : LowInv S A B 0 M M low := by
    have init := lowInv_init S A B 0 M hS hA hB
      (fun j hj hjn => by
        have hj0 : j = 0 := by omega
        rw [hj0, ← hA])
      (fun j hj hjn => hAx j hj hjn) hMpos (by omega)
    have hfold := lowerFold_inv S A B 0 M hS hA hB
      (fun j hj hjn => hAx j hj hjn) M 0 [A] init (le_refl 0) (by omega)
    simpa using hfold
  have hlowhead : low.headD ⟨0, 0⟩ = B := by
    have hth := lowerStack_head S M 0 [A] hMpos
    rw [hlow, hB]
    simpa using hth
  have hlowne : low ≠ [] := invLow.ne
  have hlowlast : low.getLast? = some A := invLow.bottom
  have hlow2 : 2 ≤ low.length := by
    cases hlc : low with
    | nil => exact absurd hlc hlowne
    | cons x rest =>
      cases rest with
      | nil =>
        exfalso
        rw [hlc] at hlowhead hlowlast
        have hxB : x = B := hlowhead
        have hxA : x = A := by
          have : some x = some A := hlowlast
          exact Option.some_injective _ this
        rw [hxA] at hxB
        rw [hxB] at hABx
        exact lt_irrefl _ hABx
      | cons y rest2 => simp
  -- every member of `low` other than its top is strictly left of the top
  have hlowmemx : ∀ v ∈ low, v ≠ B → v.x < B.x ∧ (v = A ∨ isLeft A B v < 0) := by
    intro v hv hvB
    rcases invLow.mem v hv with rfl | ⟨j, hj0, hjM, hjn, hvj, hbel⟩
    · exact ⟨hABx, Or.inl rfl⟩
    · have hjMlt : j < M := by
        rcases Nat.lt_or_ge j M with h | h
        · exact h
        · exfalso
          have : j = M := by omega
          rw [this, ← hB] at hvj
          exact hvB hvj
      refine ⟨?_, Or.inr (hbel hjMlt)⟩
      rw [hvj, hBx]
      exact hxlt j hjMlt (by omega)
  -- the combined stack at the start of the upper loop
  have hAmaxB : n - 1 = M → Amax = B := by
    intro h
    rw [hAmax, hB, h]
  set r0 := if n - 1 ≠ M then Amax :: low else low with hr0
  have hr0ne : r0 ≠ [] := by
    rw [hr0]
    by_cases h : n - 1 ≠ M
    · rw [if_pos h]
      simp
    · rw [if_neg h]
      exact hlowne
  have hTAmax : r0.headD ⟨0, 0⟩ = Amax := by
    rw [hr0]
    by_cases h : n - 1 ≠ M
    · rw [if_pos h]
      rfl
    · rw [if_neg h]
      push_neg at h
      rw [hlowhead]
      exact (hAmaxB h).symm
  have hrt : ∃ w rt, r0 = Amax :: w :: rt := by
    rw [hr0]
    by_cases h : n - 1 ≠ M
    · rw [if_pos h]
      obtain ⟨l0, ltail, hl⟩ := List.exists_cons_of_ne_nil hlowne
      exact ⟨l0, ltail, by rw [hl]⟩
    · rw [if_neg h]
      push_neg at h
      cases hlc : low with
      | nil => exact absurd hlc hlowne
      | cons x rest =>
        cases rest with
        | nil =>
          exfalso
          rw [hlc] at hlow2
          simp at hlow2
        | cons y rest2 =>
          refine ⟨y, rest2, ?_⟩
          have hxB : x = B := by
            rw [hlc] at hlowhead
            exact hlowhead
          rw [hxB, hAmaxB h]
  -- second element of `low` is strictly left of its top
  have hlowsecond : ∀ w rest, low = B :: w :: rest →
      w.x < B.x ∧ (w = A ∨ isLeft A B w < 0) := by
    intro w rest hlc
    have hwmem : w ∈ low := by
      rw [hlc]
      simp
    have hwB : w ≠ B := by
      intro hEq
      have hord := invLow.ord
      rw [hlc] at hord
      have := (List.pairwise_cons.mp hord).1 w (by simp)
      rw [hEq] at this
      exact lexLt_irrefl this
    exact hlowmemx w hwmem hwB
  have hr0ccw : StackCCW r0 := by
    rw [hr0]
    by_cases h : n - 1 ≠ M
    · rw [if_pos h]
      refine stack2_ccw invLow.ccw ?_
      intro b w rest hlb
      have hbB : b = B := by
        rw [hlb] at hlowhead
        exact hlowhead
      rw [hbB] at hlb ⊢
      obtain ⟨hwx, _⟩ := hlowsecond w rest hlb
      rw [isLeft_cyclic]
      exact isLeft_vertical B Amax w hBx (hBAy (by omega)) hwx
    · rw [if_neg h]
      exact invLow.ccw
  have hr0last : r0.getLast? = some A := by
    rw [hr0]
    by_cases h : n - 1 ≠ M
    · rw [if_pos h]
      rw [show Amax :: low = [Amax] ++ low from rfl]
      rw [List.getLast?_append_of_ne_nil [Amax] hlowne]
      exact hlowlast
    · rw [if_neg h]
      exact hlowlast
  have hr0len2 : 2 ≤ r0.length := by
    rw [hr0]
    by_cases h : n - 1 ≠ M
    · rw [if_pos h]
      simp only [List.length_cons]
      omega
    · rw [if_neg h]
      exact hlow2
  have hjuncAll : ∀ j, j < M → j < n →
      isLeft Amax A (S.getD j ⟨0, 0⟩) < 0 →
      ∀ w rt, r0 = Amax :: w :: rt →
        0 < isLeft w Amax (S.getD j ⟨0, 0⟩) := by
    intro j hjM hjn habv w rt hreq
    have hpx : (S.getD j ⟨0, 0⟩).x < Amax.x := hxlt j hjM hjn
    by_cases h : n - 1 ≠ M
    · rw [hr0, if_pos h] at hreq
      injection hreq with h1 h2
      have hwB : w = B := by
        rw [← hlowhead, h2]
        rfl
      rw [hwB]
      rw [← hBx] at hpx
      exact isLeft_vertical B Amax (S.getD j ⟨0, 0⟩) hBx (hBAy (by omega)) hpx
    · push_neg at h
      rw [hr0, if_neg (not_not.mpr h)] at hreq
      have hAB : Amax = B := hAmaxB h
      obtain ⟨hwx, hwcase⟩ := hlowsecond w rt (by rw [← hAB]; exact hreq)
      -- the processed point is strictly above the line `A → B`
      have hup : 0 < isLeft A B (S.getD j ⟨0, 0⟩) := by
        rw [hAB] at habv
        rw [isLeft_swap12] at habv
        linarith
      rcases hwcase with rfl | hwbel
      · rw [hAB]
        exact hup
      · -- rotate inside the left half-plane around `B`
        rw [hAB]
        rw [isLeft_cyclic]
        have hpa : 0 < isLeft B (S.getD j ⟨0, 0⟩) A := by
          rw [← isLeft_cyclic]
          exact hup
        have hAw : 0 < isLeft B A w := by
          rw [isLeft_swap12]
          linarith
        exact halfplane_ll' B (S.getD j ⟨0, 0⟩) A w
          (by rw [← hBx] at hpx; exact hpx) hABx hwx hpa hAw.le
  -- run the upper loop over indices M-1 … 1
  have hMsplit : M = 1 + (M - 1) := by omega
  have invUp0 : UpInv S Amax A Amax M r0 M [] := upInv_init hr0ccw
  obtain ⟨ups2, hinvUp, hloopeq⟩ :=
    @upperLoop_run K _ S Amax M (n - 1) r0
      hS (by omega) (fun j hjM hjn => hxlt j hjM hjn) hrt hjuncAll
      (M - 1) 1 [] (le_refl 1) (by omega)
      (by rw [← hMsplit]; exact invUp0)
  rw [List.nil_append] at hloopeq
  have hlist : (List.range' 0 M).reverse =
      (List.range' 1 (M - 1)).reverse ++ [0] := by
    have h1 : List.range' 0 M = 0 :: List.range' 1 (M - 1) := by
      conv_lhs => rw [show M = (M - 1) + 1 from by omega]
      rw [List.range'_succ]
    rw [h1, List.reverse_cons]
  have hfull := upperLoop_append S (n - 1) 0 (r0.length - 1)
    (S.getD 0 ⟨0, 0⟩) ((List.range' 1 (M - 1)).reverse) [0] r0
    (ups2 ++ r0) hloopeq
  have hstep0 : upperLoop S (n - 1) 0 (r0.length - 1) (S.getD 0 ⟨0, 0⟩) [0]
      (ups2 ++ r0) =
      (chainPop (r0.length - 1) (S.getD 0 ⟨0, 0⟩) (ups2 ++ r0), true) := by
    rw [upperLoop]
    rw [if_neg (by rintro ⟨-, hcc⟩; exact lt_irrefl 0 hcc)]
    dsimp only
    rw [if_pos ⟨rfl, rfl⟩]
  obtain ⟨a2, d2, hd2, hpop2⟩ :=
    chainPop_anchor_decomp (S.getD 0 ⟨0, 0⟩) Amax ups2
  have hanch : chainPop (r0.length - 1) (S.getD 0 ⟨0, 0⟩) (ups2 ++ r0) =
      a2 ++ r0 := by
    rw [chainPop_anchor (S.getD 0 ⟨0, 0⟩) r0 hr0ne ups2, hTAmax, hpop2,
      List.dropLast_concat]
  have hres : upperLoop S (n - 1) 0 (r0.length - 1) (S.getD 0 ⟨0, 0⟩)
      ((List.range' 0 M).reverse) r0 = (a2 ++ r0, true) := by
    rw [hlist, hfull, hstep0, hanch]
  have hhull : chainHull2D S = (a2 ++ r0).reverse := by
    simp only [chainHull2D]
    rw [hm0]
    rw [if_neg (show ¬ (0 = S.length - 1) by omega)]
    rw [← hM, ← hn]
    simp only [Nat.sub_zero, Nat.zero_add]
    rw [← hA, ← hAmax, ← hlow, ← hr0]
    rw [← hA] at hres
    rw [hres]
    simp
  rw [← hA] at hpop2
  -- facts about the upper stack
  have hupmem : ∀ v ∈ ups2, ∃ j, 1 ≤ j ∧ j < M ∧ j < n ∧
      v = S.getD j ⟨0, 0⟩ ∧ isLeft Amax A v < 0 := by
    intro v hv
    obtain ⟨j, h1, h2, h3, h4, h5⟩ := hinvUp.mem v hv
    exact ⟨j, h1, h2, h3, h4, h5⟩
  have huord : (ups2 ++ [Amax]).Pairwise (fun a b => lexLt a b) := hinvUp.uord
  have hupccw : StackCCW (ups2 ++ [Amax]) := by
    have h := hinvUp.ccw
    obtain ⟨w, rt, hweq⟩ := hrt
    rw [hweq] at h
    rw [StackCCW_glue] at h
    exact h.1
  have hAltAll : ∀ v ∈ ups2 ++ [Amax], lexLt A v := by
    intro v hv
    rcases List.mem_append.mp hv with hv1 | hv2
    · obtain ⟨j, h1, h2, h3, h4, h5⟩ := hupmem v hv1
      rw [hA, h4]
      exact sorted_getD_lex S hS (by omega : 0 < j) h3
    · rw [List.mem_singleton] at hv2
      subst hv2
      rw [hA, hAmax]
      exact sorted_getD_lex S hS (by omega : 0 < n - 1) (by omega)
  have hmord : ((ups2 ++ [Amax]).map negPt).Pairwise
      (fun a b => lexLt b a) := by
    rw [List.pairwise_map]
    exact huord.imp (fun h => lexLt_negPt.mpr h)
  have hmlast : ((ups2 ++ [Amax]).map negPt).getLast? =
      some (negPt Amax) := by
    rw [List.getLast?_map, List.getLast?_concat]
    rfl
  have hmbey : ∀ v ∈ (ups2 ++ [Amax]).map negPt, lexLt v (negPt A) := by
    intro v hv
    rw [List.mem_map] at hv
    obtain ⟨u, hu, rfl⟩ := hv
    exact lexLt_negPt.mpr (hAltAll u hu)
  have hmccw : StackCCW ((ups2 ++ [Amax]).map negPt) :=
    StackCCW_map_negPt.mpr hupccw
  have hmpop : chainPop 0 (negPt A) ((ups2 ++ [Amax]).map negPt) =
      (a2 ++ [Amax]).map negPt := by
    rw [chainPop_map_negPt, hpop2]
  have hsub2 : (a2 ++ [Amax]).Sublist (ups2 ++ [Amax]) := by
    rw [hd2, List.append_assoc]
    exact List.sublist_append_right d2 _
  have hGupOrd : (A :: (a2 ++ [Amax])).Pairwise (fun a b => lexLt a b) := by
    rw [List.pairwise_cons]
    exact ⟨fun v hv => hAltAll v (hsub2.subset hv), huord.sublist hsub2⟩
  have hbrkPos : ∀ x y rest2, a2 ++ [Amax] = x :: y :: rest2 →
      0 < isLeft y x A := by
    intro x y rest2 heq
    obtain ⟨dS, hdS, hpopsS, hbrkS⟩ := chainPop_spec 0 A (ups2 ++ [Amax])
    rw [hpop2, heq] at hbrkS
    have hth := hbrkS (by simp)
    simpa using hth
  have hGupCCW : StackCCW (A :: (a2 ++ [Amax])) := by
    refine stack2_ccw ?_ (fun b w rest hleq => hbrkPos b w rest hleq)
    have hth : ups2 ++ [Amax] = d2 ++ (a2 ++ [Amax]) := by
      rw [hd2, List.append_assoc]
    exact StackCCW_suffix (hth ▸ hupccw)
  have hGupSelf : ∀ v ∈ A :: (a2 ++ [Amax]),
      chainLeft (A :: (a2 ++ [Amax])) v := by
    intro v hv
    have hmG : StackCCW ((A :: (a2 ++ [Amax])).map negPt) :=
      StackCCW_map_negPt.mpr hGupCCW
    have hmordG : ((A :: (a2 ++ [Amax])).map negPt).Pairwise
        (fun a b => lexLt b a) := by
      rw [List.pairwise_map]
      exact hGupOrd.imp (fun h => lexLt_negPt.mpr h)
    have hth := stack_self_contained hmG hmordG (negPt v)
      (List.mem_map_of_mem _ hv)
    exact chainLeft_map_negPt.mp hth
  have hUpSelf : ∀ v ∈ ups2 ++ [Amax], chainLeft (ups2 ++ [Amax]) v := by
    intro v hv
    have hth := stack_self_contained hmccw hmord (negPt v)
      (List.mem_map_of_mem _ hv)
    exact chainLeft_map_negPt.mp hth
  have htransA : ∀ q2 : Pt K, q2.x < Amax.x →
      chainLeft (ups2 ++ [Amax]) q2 →
      ((ups2 ++ [Amax]).headD ⟨0, 0⟩).x ≤ q2.x →
      chainLeft (A :: (a2 ++ [Amax])) q2 := by
    intro q2 hq2x hq2c hq2h
    have hres2 := clause3_transfer (negPt A) (negPt q2) (negPt Amax)
      ((ups2 ++ [Amax]).map negPt) (by simp) hmord hmlast hmbey
      (chainLeft_map_negPt.mpr hq2c)
      (by
        have hmh : ((ups2 ++ [Amax]).map negPt).headD ⟨0, 0⟩ =
            negPt ((ups2 ++ [Amax]).headD ⟨0, 0⟩) := by
          cases ups2 <;> rfl
        rw [hmh]
        show -q2.x ≤ -(((ups2 ++ [Amax]).headD ⟨0, 0⟩).x)
        linarith)
      (by
        show -Amax.x ≤ -q2.x
        linarith)
      (by
        intro hxx
        exfalso
        have h1 : -q2.x = -Amax.x := hxx
        have h2 : q2.x = Amax.x := by linarith
        exact absurd h2 (ne_of_lt hq2x))
      (by
        show -Amax.x < -A.x
        linarith)
    have h1 := hres2.1
    rw [hmpop] at h1
    exact chainLeft_map_negPt.mp h1
  -- the degenerate configuration forces all points onto one line
  have hdeg : n - 1 = M → a2 = [] → low.length = 2 → False := by
    intro hnm ha2 hl2
    have hAB : Amax = B := hAmaxB hnm
    have hups2nil : ups2 = [] := by
      by_contra hne2
      obtain ⟨u, hu⟩ := getLast?_of_ne_nil hne2
      have humem : u ∈ ups2 := mem_of_getLast? hu
      obtain ⟨j, hj1, hjM, hjn, hval, habv⟩ := hupmem u humem
      have hsurv : 0 < isLeft Amax u A := by
        rw [isLeft_swap]
        linarith
      obtain ⟨dS, hdS, hpopsS, hbrkS⟩ := chainPop_spec 0 A (ups2 ++ [Amax])
      have hdSups : dS = ups2 := by
        rw [hpop2, ha2] at hdS
        have h1 := congrArg List.dropLast hdS
        simp at h1
        exact h1.symm
      have hul : 0 < ups2.length := List.length_pos.mpr hne2
      have hk : ups2.length - 1 < dS.length := by
        rw [hdSups]
        omega
      have hpp := hpopsS (ups2.length - 1) hk
      have hg1 : (ups2 ++ [Amax]).getD (ups2.length - 1 + 1) ⟨0, 0⟩ =
          Amax := by
        have he : ups2.length - 1 + 1 = ups2.length := by omega
        rw [he]
        exact getD_append_firstRight (by simp)
      have hg2 : (ups2 ++ [Amax]).getD (ups2.length - 1) ⟨0, 0⟩ = u :=
        getD_append_lastLeft hu
      rw [hg1, hg2] at hpp
      linarith
    have hlowBA : low = [B, A] := by
      cases hlc : low with
      | nil => exact absurd hlc hlowne
      | cons x rest =>
        cases rest with
        | nil =>
          rw [hlc] at hl2
          simp at hl2
        | cons y rest2 =>
          cases rest2 with
          | nil =>
            have hxB : x = B := by
              rw [hlc] at hlowhead
              exact hlowhead
            have hyA : y = A := by
              rw [hlc] at hlowlast
              simp at hlowlast
              exact hlowlast
            rw [hxB, hyA]
          | cons z rest3 =>
            rw [hlc] at hl2
            simp only [List.length_cons] at hl2
            omega
    have honline : ∀ j, j < n → isLeft A B (S.getD j ⟨0, 0⟩) = 0 := by
      intro j hjn
      have hge : 0 ≤ isLeft A B (S.getD j ⟨0, 0⟩) := by
        rcases invLow.contain j (by omega) hjn with h1 | h2 | ⟨h3, h4⟩
        · exact h1
        · rw [hlowBA] at h2
          rcases List.mem_cons.mp h2 with heq | h2b
          · rw [heq]
            exact le_of_eq (isLeft_self_23 A B).symm
          · rw [List.mem_singleton] at h2b
            rw [h2b]
            exact le_of_eq (isLeft_self_13 A B).symm
        · rw [hlowBA] at h3
          exact h3.1
      have hle : isLeft A B (S.getD j ⟨0, 0⟩) ≤ 0 := by
        rcases Nat.eq_zero_or_pos j with rfl | hj1
        · rw [← hA]
          exact le_of_eq (isLeft_self_13 A B)
        rcases Nat.lt_or_ge j M with hjMlt | hjMge
        · rcases hinvUp.contain j (by omega) hjMlt hjn with h1 | h2 | ⟨h3, hx3⟩
          · have h1b : 0 ≤ isLeft Amax A (S.getD j ⟨0, 0⟩) := h1
            rw [hAB, isLeft_swap12] at h1b
            linarith
          · rw [hups2nil] at h2
            simp at h2
          · exfalso
            have hx3b : ((ups2 ++ r0).headD ⟨0, 0⟩).x ≤
                (S.getD j ⟨0, 0⟩).x := hx3
            rw [hups2nil, List.nil_append, hTAmax] at hx3b
            have := hxlt j hjMlt hjn
            linarith
        · have hje : j = M := by omega
          rw [hje, ← hB]
          exact le_of_eq (isLeft_self_23 A B)
      linarith
    refine hcolS (allCollinear_of_line A B hABx S (fun p hp => ?_))
    obtain ⟨j, hjn, hval⟩ := List.mem_iff_getElem.mp hp
    rw [← hval, ← hgd j hjn]
    exact honline j hjn
  -- basic facts about the final stack
  have hFlast : (a2 ++ r0).getLast? = some A := by
    rw [List.getLast?_append_of_ne_nil a2 hr0ne]
    exact hr0last
  have hFccwRaw : StackCCW (a2 ++ r0) := by
    have hth : ups2 ++ r0 = d2 ++ (a2 ++ r0) := by
      rw [hd2, List.append_assoc]
    exact StackCCW_suffix (hth ▸ hinvUp.ccw)
  have htriA : ∀ x y rest2, a2 ++ r0 = x :: y :: rest2 →
      0 < isLeft y x A := by
    intro x y rest2 heq
    cases ha2c : a2 with
    | nil =>
      obtain ⟨w, rt, hweq⟩ := hrt
      rw [ha2c, List.nil_append, hweq] at heq
      injection heq with he1 he2
      injection he2 with he2a he2b
      rw [← he1, ← he2a]
      by_cases h : n - 1 ≠ M
      · have hwB : w = B := by
          rw [hr0, if_pos h] at hweq
          injection hweq with hw1 hw2
          rw [← hlowhead, hw2]
          rfl
        rw [hwB]
        exact isLeft_vertical B Amax A hBx (hBAy (by omega)) hABx
      · push_neg at h
        have hAB : Amax = B := hAmaxB h
        have hweq2 : low = B :: w :: rt := by
          rw [hr0, if_neg (not_not.mpr h)] at hweq
          rw [← hAB]
          exact hweq
        obtain ⟨hwx, hwcase⟩ := hlowsecond w rt hweq2
        rcases hwcase with rfl | hwbel
        · exfalso
          have hrtnil : rt = [] := by
            cases hrtc : rt with
            | nil => rfl
            | cons z rt2 =>
              exfalso
              rw [hweq2, hrtc] at hlowlast
              rw [List.getLast?_cons_cons, List.getLast?_cons_cons]
                at hlowlast
              have hmemA : A ∈ z :: rt2 := mem_of_getLast? hlowlast
              have hord := invLow.ord
              rw [hweq2, hrtc] at hord
              have h2 := (List.pairwise_cons.mp hord).2
              have h3 := (List.pairwise_cons.mp h2).1 A hmemA
              exact lexLt_irrefl h3
          refine hdeg h ha2c ?_
          rw [hweq2, hrtnil]
          rfl
        · rw [hAB, isLeft_swap13]
          linarith
    | cons u a2tl =>
      cases ha2tl : a2tl with
      | nil =>
        obtain ⟨w, rt, hweq⟩ := hrt
        rw [ha2c, ha2tl, hweq] at heq
        injection heq with he1 he2
        injection he2 with he2a he2b
        rw [← he1, ← he2a]
        exact hbrkPos u Amax [] (by rw [ha2c, ha2tl]; rfl)
      | cons u2 a2tl2 =>
        rw [ha2c, ha2tl] at heq
        injection heq with he1 he2
        injection he2 with he2a he2b
        rw [← he1, ← he2a]
        exact hbrkPos u u2 (a2tl2 ++ [Amax]) (by rw [ha2c, ha2tl]; rfl)
  have hAFccw : StackCCW (A :: (a2 ++ r0)) :=
    stack2_ccw hFccwRaw (fun b w rest hleq => htriA b w rest hleq)
  have hFlen3 : 3 ≤ (a2 ++ r0).length := by
    rw [List.length_append]
    by_cases h : n - 1 ≠ M
    · have hth : 3 ≤ r0.length := by
        rw [hr0, if_pos h]
        simp only [List.length_cons]
        omega
      omega
    · push_neg at h
      have hre : r0.length = low.length := by
        rw [hr0, if_neg (not_not.mpr h)]
      rcases Nat.lt_or_ge 2 low.length with h3 | h3
      · omega
      · have hl2 : low.length = 2 := by omega
        cases ha2c : a2 with
        | nil => exact (hdeg h ha2c hl2).elim
        | cons u tl =>
          simp only [List.length_cons]
          omega
  -- the second wrap triple
  have hgetD2 : ∀ (x v : List (Pt K)), 2 ≤ v.length →
      (x ++ v).getD ((x ++ v).length - 2) ⟨0, 0⟩ =
      v.getD (v.length - 2) ⟨0, 0⟩ := by
    intro x v hv
    rw [List.getD_eq_getElem _ _ (by rw [List.length_append]; omega)]
    rw [List.getD_eq_getElem _ _ (by omega)]
    rw [List.getElem_append_right (by rw [List.length_append]; omega)]
    congr 1
    rw [List.length_append]
    omega
  have hA2low : (a2 ++ r0).getD ((a2 ++ r0).length - 2) ⟨0, 0⟩ =
      low.getD (low.length - 2) ⟨0, 0⟩ := by
    rw [hgetD2 a2 r0 hr0len2]
    by_cases h : n - 1 ≠ M
    · rw [hr0, if_pos h]
      rw [show Amax :: low = [Amax] ++ low from rfl]
      exact hgetD2 [Amax] low hlow2
    · rw [hr0, if_neg h]
  set A2 := low.getD (low.length - 2) ⟨0, 0⟩ with hA2
  have hA2mem : A2 ∈ low := by
    rw [hA2]
    exact getD_mem_of_lt low _ (by omega)
  have hlastE : low[low.length - 1] = A := by
    rw [List.getLast?_eq_getElem?] at hlowlast
    rw [List.getElem?_eq_getElem (by omega)] at hlowlast
    exact Option.some_injective _ hlowlast
  have hlexAA2 : lexLt A A2 := by
    have hp := List.pairwise_iff_getElem.mp invLow.ord (low.length - 2)
      (low.length - 1) (by omega) (by omega) (by omega)
    rw [hlastE] at hp
    rw [hA2, List.getD_eq_getElem _ _ (by omega)]
    exact hp
  have hA2x : A.x < A2.x := by
    rcases invLow.mem A2 hA2mem with heq | ⟨j, hj0, hjM, hjn, hval, hbel⟩
    · exfalso
      rw [heq] at hlexAA2
      exact lexLt_irrefl hlexAA2
    · rw [hval]
      exact hAx j (by omega) (by omega)
  have hA2cases : A2 = B ∨ isLeft A B A2 < 0 := by
    rcases invLow.mem A2 hA2mem with heq | ⟨j, hj0, hjM, hjn, hval, hbel⟩
    · exfalso
      rw [heq] at hlexAA2
      exact lexLt_irrefl hlexAA2
    · rcases Nat.lt_or_ge j M with h | h
      · exact Or.inr (hbel h)
      · have hje : j = M := by omega
        rw [hval, hje, ← hB]
        exact Or.inl rfl
  have hheadE : low[0] = B := by
    have hq : low.getD 0 ⟨0, 0⟩ = low.headD ⟨0, 0⟩ := by
      cases low with
      | nil => rfl
      | cons x rest => rfl
    rw [← List.getD_eq_getElem low _ (by omega : 0 < low.length), hq, hlowhead]
  have hA2B2 : A2 = B → low.length = 2 := by
    intro heq
    by_contra hne3
    have h3 : 3 ≤ low.length := by omega
    have hp := List.pairwise_iff_getElem.mp invLow.ord 0 (low.length - 2)
      (by omega) (by omega) (by omega)
    rw [hheadE] at hp
    have hgE : low[low.length - 2] = A2 := by
      rw [hA2, List.getD_eq_getElem _ _ (by omega)]
    rw [hgE, heq] at hp
    exact lexLt_irrefl hp
  have hwrap2 : 0 < isLeft ((a2 ++ r0).getD 0 ⟨0, 0⟩) A
      ((a2 ++ r0).getD ((a2 ++ r0).length - 2) ⟨0, 0⟩) := by
    rw [hA2low, isLeft_cyclic]
    cases ha2c : a2 with
    | nil =>
      have hFtop : (([] : List (Pt K)) ++ r0).getD 0 ⟨0, 0⟩ = Amax := by
        rw [List.nil_append]
        obtain ⟨w, rt, hweq⟩ := hrt
        rw [hweq]
        rfl
      rw [hFtop]
      rcases hA2cases with hA2B | hA2bel
      · by_cases h : n - 1 ≠ M
        · rw [hA2B, isLeft_cyclic]
          exact isLeft_vertical B Amax A hBx (hBAy (by omega)) hABx
        · push_neg at h
          exact (hdeg h ha2c (hA2B2 hA2B)).elim
      · have leg1 : 0 < isLeft A A2 B := by
          rw [isLeft_swap]
          linarith
        by_cases h : n - 1 ≠ M
        · have leg2 : 0 < isLeft A B Amax := by
            rw [isLeft_cyclic]
            exact isLeft_vertical B Amax A hBx (hBAy (by omega)) hABx
          exact halfplane_rr' A A2 B Amax hA2x hABx hAmaxx leg1 leg2.le
        · push_neg at h
          rw [hAmaxB h]
          exact leg1
    | cons u a2tl =>
      have humem : u ∈ ups2 := by
        rw [hd2, ha2c]
        exact List.mem_append.mpr (Or.inr (List.mem_cons_self _ _))
      obtain ⟨j, hj1, hjM, hjn, hval, habv⟩ := hupmem u humem
      have hux : A.x < u.x := by
        rw [hval]
        exact hAx j (by omega) (by omega)
      have leg3 : 0 < isLeft A Amax u := by
        rw [isLeft_swap12]
        linarith
      rw [show ((u :: a2tl) ++ r0).getD 0 ⟨0, 0⟩ = u from rfl]
      rcases hA2cases with hA2B | hA2bel
      · rw [hA2B]
        by_cases h : n - 1 ≠ M
        · have leg2 : 0 < isLeft A B Amax := by
            rw [isLeft_cyclic]
            exact isLeft_vertical B Amax A hBx (hBAy (by omega)) hABx
          exact halfplane_rr' A B Amax u hABx hAmaxx hux leg2 leg3.le
        · push_neg at h
          rw [hAmaxB h] at leg3
          exact leg3
      · have leg1 : 0 < isLeft A A2 B := by
          rw [isLeft_swap]
          linarith
        by_cases h : n - 1 ≠ M
        · have leg2 : 0 < isLeft A B Amax := by
            rw [isLeft_cyclic]
            exact isLeft_vertical B Amax A hBx (hBAy (by omega)) hABx
          have hmid : 0 < isLeft A B u :=
            halfplane_rr' A B Amax u hABx hAmaxx hux leg2 leg3.le
          exact halfplane_rr' A A2 B u hA2x hABx hux leg1 hmid.le
        · push_neg at h
          rw [hAmaxB h] at leg3
          exact halfplane_rr' A A2 B u hA2x hABx hux leg1 leg3.le
  -- coverage: every input point is on or left of every edge, wrap included
  have hqx_all : ∀ j, j < n → (S.getD j ⟨0, 0⟩).x ≤ Amax.x := by
    intro j hjn
    rcases Nat.lt_or_ge j M with h | h
    · exact (hxlt j h hjn).le
    · exact (hxmax j h hjn).le
  have hqx_ge : ∀ j, j < n → A.x ≤ (S.getD j ⟨0, 0⟩).x := by
    intro j hjn
    rcases Nat.eq_zero_or_pos j with rfl | h
    · rw [← hA]
    · exact (hAx j h hjn).le
  have hlowSelfA : chainLeft low A :=
    stack_self_contained invLow.ccw invLow.ord A (mem_of_getLast? hlowlast)
  have hlowSelfB : chainLeft low B := by
    have hmem : B ∈ low := by
      rw [← hlowhead]
      exact headD_mem hlowne
    exact stack_self_contained invLow.ccw invLow.ord B hmem
  have hGupA : chainLeft (A :: (a2 ++ [Amax])) A :=
    hGupSelf A (List.mem_cons_self _ _)
  have hGupT : chainLeft (A :: (a2 ++ [Amax])) Amax :=
    hGupSelf Amax (by simp)
  have hupcover : ∀ q2 : Pt K, 0 ≤ isLeft Amax A q2 → A.x ≤ q2.x →
      q2.x ≤ Amax.x → chainLeft (A :: (a2 ++ [Amax])) q2 := by
    intro q2 hq2 h1 h2
    have hmordG : ((A :: (a2 ++ [Amax])).map negPt).Pairwise
        (fun a b => lexLt b a) := by
      rw [List.pairwise_map]
      exact hGupOrd.imp (fun h => lexLt_negPt.mpr h)
    have hcov2 := chainLeft_cover (negPt Amax) (negPt A) (negPt q2)
      (show -Amax.x < -A.x by linarith)
      (by rw [isLeft_negPt]; exact hq2)
      (show -Amax.x ≤ -q2.x by linarith)
      (show -q2.x ≤ -A.x by linarith)
      ((A :: (a2 ++ [Amax])).map negPt) hmordG
      (chainLeft_map_negPt.mpr hGupT)
      (chainLeft_map_negPt.mpr hGupA)
    exact chainLeft_map_negPt.mp hcov2
  have hlowcover : ∀ q2 : Pt K, 0 ≤ isLeft A B q2 → A.x ≤ q2.x →
      q2.x ≤ B.x → chainLeft low q2 := fun q2 hq2 h1 h2 =>
    chainLeft_cover A B q2 hABx hq2 h1 h2 low invLow.ord hlowSelfA hlowSelfB
  have hheads2 : (ups2 ++ r0).headD ⟨0, 0⟩ =
      (ups2 ++ [Amax]).headD ⟨0, 0⟩ := by
    cases ups2 with
    | nil =>
      rw [List.nil_append, List.nil_append, hTAmax]
      rfl
    | cons x t => rfl
  have hcov : ∀ j, j < n → chainLeft (A :: (a2 ++ r0)) (S.getD j ⟨0, 0⟩) := by
    intro j hjn
    have hsplit : chainLeft ((A :: a2) ++ r0) (S.getD j ⟨0, 0⟩) ↔
        chainLeft ((A :: a2) ++ [Amax]) (S.getD j ⟨0, 0⟩) ∧
        chainLeft r0 (S.getD j ⟨0, 0⟩) := by
      have hcA := chainLeft_append (y := r0) (q := S.getD j ⟨0, 0⟩)
        hr0ne (A :: a2)
      rw [hTAmax] at hcA
      exact hcA
    show chainLeft ((A :: a2) ++ r0) (S.getD j ⟨0, 0⟩)
    rw [hsplit]
    constructor
    · show chainLeft (A :: (a2 ++ [Amax])) (S.getD j ⟨0, 0⟩)
      by_cases hql : 0 ≤ isLeft Amax A (S.getD j ⟨0, 0⟩)
      · exact hupcover _ hql (hqx_ge j hjn) (hqx_all j hjn)
      · push_neg at hql
        have hj1 : 1 ≤ j := by
          by_contra hc
          push_neg at hc
          have hje : j = 0 := by omega
          rw [hje, ← hA, isLeft_self_23] at hql
          exact lt_irrefl 0 hql
        have hjM : j < M := by
          by_contra hc
          push_neg at hc
          have := isLeft_right_edge_le' A Amax (S.getD j ⟨0, 0⟩)
            (hxmax j hc hjn) (hymax j hc hjn) hAmaxx
          linarith
        rcases hinvUp.contain j hj1 hjM hjn with h1 | h2 | ⟨h3, hx3⟩
        · have h1b : 0 ≤ isLeft Amax A (S.getD j ⟨0, 0⟩) := h1
          linarith
        · rw [hd2] at h2
          rcases List.mem_append.mp h2 with hqd | hqa
          · have hqmem : S.getD j ⟨0, 0⟩ ∈ ups2 ++ [Amax] := by
              rw [hd2]
              exact List.mem_append.mpr (Or.inl
                (List.mem_append.mpr (Or.inl hqd)))
            have hqc : chainLeft (ups2 ++ [Amax]) (S.getD j ⟨0, 0⟩) :=
              hUpSelf _ hqmem
            have hqh : ((ups2 ++ [Amax]).headD ⟨0, 0⟩).x ≤
                (S.getD j ⟨0, 0⟩).x := by
              have hth := mem_x_le_headD hmord
                (List.mem_map_of_mem negPt hqmem)
              have hmh : ((ups2 ++ [Amax]).map negPt).headD ⟨0, 0⟩ =
                  negPt ((ups2 ++ [Amax]).headD ⟨0, 0⟩) := by
                cases ups2 <;> rfl
              rw [hmh] at hth
              have hthis : -(S.getD j ⟨0, 0⟩).x ≤
                  -(((ups2 ++ [Amax]).headD ⟨0, 0⟩).x) := hth
              linarith
            exact htransA _ (hxlt j hjM hjn) hqc hqh
          · exact hGupSelf _ (List.mem_cons_of_mem _
              (List.mem_append.mpr (Or.inl hqa)))
        · have hqh : ((ups2 ++ [Amax]).headD ⟨0, 0⟩).x ≤
              (S.getD j ⟨0, 0⟩).x := by
            rw [← hheads2]
            exact hx3
          exact htransA _ (hxlt j hjM hjn) h3 hqh
    · have hlowq : chainLeft low (S.getD j ⟨0, 0⟩) := by
        by_cases hqb : 0 ≤ isLeft A B (S.getD j ⟨0, 0⟩)
        · exact hlowcover _ hqb (hqx_ge j hjn)
            (by rw [hBx]; exact hqx_all j hjn)
        · push_neg at hqb
          have hj1 : 1 ≤ j := by
            by_contra hc
            push_neg at hc
            have hje : j = 0 := by omega
            rw [hje, ← hA, isLeft_self_13] at hqb
            exact lt_irrefl 0 hqb
          have hjM : j < M := by
            by_contra hc
            push_neg at hc
            have := isLeft_right_edge_le A B (S.getD j ⟨0, 0⟩)
              (by rw [hBx]; exact hxmax j hc hjn) (hyB j hc hjn) hABx
            linarith
          rcases invLow.contain j (by omega) hjn with h1 | h2 | ⟨h3, h4⟩
          · linarith
          · exact stack_self_contained invLow.ccw invLow.ord _ h2
          · exact h3
      by_cases h : n - 1 ≠ M
      · rw [hr0, if_pos h]
        cases hlc : low with
        | nil => exact absurd hlc hlowne
        | cons b lt =>
          have hbB : b = B := by
            rw [hlc] at hlowhead
            exact hlowhead
          refine ⟨?_, ?_⟩
          · rw [hbB]
            exact isLeft_vertical_le B Amax (S.getD j ⟨0, 0⟩) hBx
              (hBAy (by omega)).le (by rw [hBx]; exact hqx_all j hjn)
          · rw [← hlc]
            exact hlowq
      · rw [hr0, if_neg h]
        exact hlowq
  exact ⟨a2 ++ r0, hhull, hFlast, hFlen3, hAFccw, hwrap2,
    fun j hjn => hcov j hjn⟩

/-- **C4** (amended).  Every vertex returned by `calculateConvexHull` is one
of the input points, and when the deduplicated input has at least three
points, is not all collinear, and attains its minimum `x`-coordinate at a
unique point, the returned polygon contains every deduplicated input point
(`insideOrOn`) and every cyclically consecutive vertex triple turns strictly
counter-clockwise (`ccwTriples`).  The counterexamples in
`calculateConvexHull_cex` show the hypotheses are necessary and that
containment holds only for the deduplicated points. -/
theorem calculateConvexHull_amended (points : List (Pt K))
    (h3 : 3 ≤ (removeDuplicates points).length)
    (hcol : ¬ allCollinear (removeDuplicates points))
    (huniq : uniqueXmin (removeDuplicates points)) :
    (∀ v ∈ calculateConvexHull points, v ∈ points) ∧
    (∀ q ∈ removeDuplicates points,
      insideOrOn (calculateConvexHull points) q) ∧
    ccwTriples (calculateConvexHull points) := by
  have hmemS : ∀ p : Pt K, p ∈ sortedPts points ↔
      p ∈ removeDuplicates points :=
    fun p => (sortedPts_perm points).mem_iff
  have hlenS : (sortedPts points).length =
      (removeDuplicates points).length :=
    (sortedPts_perm points).length_eq
  have hS := sortedPts_pairwise_lexLt points
  have huniqS : uniqueXmin (sortedPts points) := by
    intro p hp q hq hpmin hqmin
    refine huniq p ((hmemS p).mp hp) q ((hmemS q).mp hq) ?_ ?_
    · intro r hr
      exact hpmin r ((hmemS r).mpr hr)
    · intro r hr
      exact hqmin r ((hmemS r).mpr hr)
  have hcolS : ¬ allCollinear (sortedPts points) := by
    intro hc
    refine hcol ?_
    intro p hp q hq r hr
    exact hc p ((hmemS p).mpr hp) q ((hmemS q).mpr hq) r ((hmemS r).mpr hr)
  have hm0 : minmaxIdx (sortedPts points) = 0 :=
    minmaxIdx_eq_zero (sortedPts points) hS (by omega) huniqS
  have hplen : 3 ≤ points.length := by
    have hsub := removeDuplicates_subset points
    have hnd := removeDuplicates_nodup points
    have := (List.subperm_of_subset hnd hsub).length_le
    omega
  have hcalc : calculateConvexHull points =
      chainHull2D (sortedPts points) := by
    rw [calculateConvexHull]
    rw [if_neg (by omega : ¬ points.length < 3)]
    rw [if_neg (by omega : ¬ (removeDuplicates points).length < 3)]
    rfl
  obtain ⟨F, hhull, hlast, hlen3, hccwF, hwrap, hcovF⟩ :=
    chainHull2D_run (sortedPts points) hS (by omega) hm0 hcolS
  refine ⟨calculateConvexHull_vertices points, ?_, ?_⟩
  · intro q hq
    have hqS : q ∈ sortedPts points := (hmemS q).mpr hq
    obtain ⟨j, hjn, hval⟩ := List.mem_iff_getElem.mp hqS
    rw [hcalc, hhull]
    refine insideOrOn_of_wrap F q ((sortedPts points).getD 0 ⟨0, 0⟩)
      (by omega) hlast ?_
    have hch := hcovF j hjn
    rw [List.getD_eq_getElem _ _ hjn, hval] at hch
    exact hch
  · rw [hcalc, hhull]
    exact ccwTriples_of_wrap F ((sortedPts points).getD 0 ⟨0, 0⟩)
      hlen3 hlast hccwF hwrap

def c4W : List (Pt ℚ) := [⟨0, 0⟩, ⟨2, 0⟩, ⟨1, 3⟩]

theorem c4W_dedup : removeDuplicates c4W = [⟨0, 0⟩, ⟨2, 0⟩, ⟨1, 3⟩] := by
  norm_num [c4W, removeDuplicates, mabs]

theorem c4W_len : 3 ≤ (removeDuplicates c4W).length := by
  rw [c4W_dedup]
  norm_num

theorem c4W_ncol : ¬ allCollinear (removeDuplicates c4W) := by
  rw [c4W_dedup]
  intro h
  have hth := h ⟨0, 0⟩ (by simp) ⟨2, 0⟩ (by simp) ⟨1, 3⟩ (by simp)
  norm_num [isLeft] at hth

theorem c4W_uniq : uniqueXmin (removeDuplicates c4W) := by
  rw [c4W_dedup]
  intro p hp q hq hpmin hqmin
  have hp0 := hpmin ⟨0, 0⟩ (by simp)
  have hq0 := hqmin ⟨0, 0⟩ (by simp)
  simp only [List.mem_cons, List.not_mem_nil, or_false] at hp hq
  rcases hp with rfl | rfl | rfl <;> rcases hq with rfl | rfl | rfl <;>
    first
      | rfl
      | (norm_num at hp0; done)
      | (norm_num at hq0; done)

/-- Witness for the amended C4 theorem at a concrete triangle: the three
hypotheses hold and the conclusion follows by the theorem. -/
theorem calculateConvexHull_amended_witness :
    (3 ≤ (removeDuplicates c4W).length ∧
      ¬ allCollinear (removeDuplicates c4W) ∧
      uniqueXmin (removeDuplicates c4W)) ∧
    ((∀ v ∈ calculateConvexHull c4W, v ∈ c4W) ∧
      (∀ q ∈ removeDuplicates c4W, insideOrOn (calculateConvexHull c4W) q) ∧
      ccwTriples (calculateConvexHull c4W)) :=
  ⟨⟨c4W_len, c4W_ncol, c4W_uniq⟩,
    calculateConvexHull_amended c4W c4W_len c4W_ncol c4W_uniq⟩

end SukimaType
